import Mathlib

/-!
Verification development for the ARI cluster engine core
(`hommel_zero_based.cpp`, `ARICluster.cpp`, `ARICluster_zeroBased.cpp`).

The C++ code is embedded shallowly:
* `double` becomes `ℚ` (all decisions in the code are exact comparisons),
* `int` becomes `ℤ` where signs matter and `ℕ` where the code keeps
  non-negative indices,
* `std::vector` becomes `List`, reads `v[i]` become `List.getD i d`
  (the default is only reachable on reads that are out of bounds in C++),
* in-place mutation becomes explicit state passing,
* every C++ loop whose bound is data-dependent is run on an explicit
  fuel that dominates its iteration count on the states the claims
  quantify over; the fuel is spelled out at each definition.
-/

namespace ARI

/-! ### Disjoint-set primitives (hommel_zero_based.cpp, Find / Union) -/

/-- Path-compressing find, from `Find` in hommel_zero_based.cpp:
`while (parent[x] != x) { parent[x] = parent[parent[x]]; x = parent[x]; }`.
Each iteration consumes one unit of fuel; callers pass fuel at least
`parent.length + 1`, which dominates the loop count on acyclic states. -/
def Find (fuel : ℕ) (x : ℕ) (parent : List ℕ) : ℕ × List ℕ :=
  match fuel with
  | 0 => (x, parent)
  | fuel + 1 =>
    let px := parent.getD x x
    if px = x then (x, parent)
    else
      let gx := parent.getD px px
      Find fuel gx (parent.set x gx)

/-- Rank-based union with min-tracking, from `Union` in hommel_zero_based.cpp. -/
def Union (x y : ℕ) (parent lowest rank : List ℕ) : List ℕ × List ℕ × List ℕ :=
  let fr := Find (parent.length + 1) x parent
  let xRoot := fr.1
  let fr2 := Find (fr.2.length + 1) y fr.2
  let yRoot := fr2.1
  let parent2 := fr2.2
  if xRoot = yRoot then (parent2, lowest, rank)
  else if rank.getD xRoot 0 < rank.getD yRoot 0 then
    (parent2.set xRoot yRoot,
     lowest.set yRoot (min (lowest.getD xRoot 0) (lowest.getD yRoot 0)),
     rank)
  else if rank.getD xRoot 0 > rank.getD yRoot 0 then
    (parent2.set yRoot xRoot,
     lowest.set xRoot (min (lowest.getD xRoot 0) (lowest.getD yRoot 0)),
     rank)
  else
    (parent2.set yRoot xRoot,
     lowest.set xRoot (min (lowest.getD xRoot 0) (lowest.getD yRoot 0)),
     rank.set xRoot (rank.getD xRoot 0 + 1))

/-! ### Hommel engine (hommel_zero_based.cpp) -/

/-- `getCategory` from hommel_zero_based.cpp (zero-based categories). -/
def getCategory (p simesfactor alpha : ℚ) (m : ℕ) : ℤ :=
  if p = 0 ∨ simesfactor = 0 then 0
  else if alpha = 0 then (m : ℤ)
  else Int.ceil (simesfactor / alpha * p) - 1

/-- The `while` loop of `findConcentration`; `z` increases while
`z < m-1 && simesfactor * p[z] > (z-m+h+2) * alpha`.  The loop performs at
most `m` steps (it stops at `z = m-1`), so fuel `m` is enough. -/
def findConcentrationLoop (p : List ℚ) (simesfactor : ℚ) (h : ℤ) (alpha : ℚ)
    (m : ℕ) : ℕ → ℤ → ℤ
  | 0, z => z
  | fuel + 1, z =>
    if z < (m : ℤ) - 1 ∧ simesfactor * p.getD z.toNat 0 > (z - m + h + 2) * alpha
    then findConcentrationLoop p simesfactor h alpha m fuel (z + 1)
    else z

/-- `findConcentration` from hommel_zero_based.cpp:
starts at `z = m - h - 1` and only runs the loop when `z ≥ 0`. -/
def findConcentration (p : List ℚ) (simesfactor : ℚ) (h : ℤ) (alpha : ℚ)
    (m : ℕ) : ℤ :=
  let z : ℤ := (m : ℤ) - h - 1
  if 0 ≤ z then findConcentrationLoop p simesfactor h alpha m m z else z

/-- The backwards scan of `findDiscoveries` computing `maxcatI`
(`for i = k-1 .. 0`, updating the running maximum and breaking once it
reaches `maxcat`).  The first argument counts the remaining indices, so the
entry examined at fuel `i+1` is `cats[i]`. -/
def maxcatILoop (cats : List ℤ) (maxcat : ℤ) : ℕ → ℤ → ℤ
  | 0, acc => acc
  | i + 1, acc =>
    if cats.getD i 0 > acc then
      if cats.getD i 0 ≥ maxcat then cats.getD i 0
      else maxcatILoop cats maxcat i (cats.getD i 0)
    else maxcatILoop cats maxcat i acc

/-- The main loop of `findDiscoveries`, folding over the positions
`0, 1, …, k-1` (passed as an explicit list) and carrying the discovery
list together with the disjoint-set state. -/
def findDiscoveriesLoop (cats : List ℤ) (maxcat : ℤ) :
    List ℕ → List ℤ × List ℕ × List ℕ × List ℕ → List ℤ × List ℕ × List ℕ × List ℕ
  | [], st => st
  | i :: rest, (disc, parent, lowest, rank) =>
    if cats.getD i 0 ≤ maxcat then
      let fr := Find (parent.length + 1) (cats.getD i 0).toNat parent
      let lowestInPi := lowest.getD fr.1 0
      if lowestInPi = 0 then
        findDiscoveriesLoop cats maxcat rest
          (disc ++ [if i = 0 then 1 else disc.getD (i - 1) 0 + 1], fr.2, lowest, rank)
      else
        let fr2 := Find (fr.2.length + 1) (cats.getD i 0).toNat fr.2
        let uf := Union (lowestInPi - 1) fr2.1 fr2.2 lowest rank
        findDiscoveriesLoop cats maxcat rest
          (disc ++ [if i = 0 then 0 else disc.getD (i - 1) 0], uf.1, uf.2.1, uf.2.2)
    else
      findDiscoveriesLoop cats maxcat rest
        (disc ++ [if i = 0 then 0 else disc.getD (i - 1) 0], parent, lowest, rank)

/-- `findDiscoveries` from hommel_zero_based.cpp (the zero-based variant,
which is the one `heavyPathTDP` links against).  It returns a list of
length `k` whose entry `j` is the discovery count for the prefix
`idx[0..j]`. -/
def findDiscoveries (idx : List ℕ) (allp : List ℚ) (simesfactor : ℚ) (h : ℤ)
    (alpha : ℚ) (k : ℕ) (m : ℕ) : List ℤ :=
  let cats : List ℤ :=
    (List.range k).map (fun i => getCategory (allp.getD (idx.getD i 0) 0) simesfactor alpha m)
  let z := findConcentration allp simesfactor h alpha m
  let maxcat0 : ℤ := min (z - m + h) (k : ℤ)
  let maxcat : ℤ := min maxcat0 (maxcatILoop cats maxcat0 k 0)
  let n : ℕ := (maxcat + 1).toNat
  (findDiscoveriesLoop cats maxcat (List.range k)
    ([], List.range n, List.range n, List.replicate n 0)).1

/-- The binary-search loop of `findHalpha`
(`while (lower + 1 < upper)`); the interval shrinks every iteration, so
fuel `m + 1` dominates the iteration count for `upper ≤ m`. -/
def findHalphaLoop (jumpalpha : List ℚ) (alpha : ℚ) : ℕ → ℕ → ℕ → ℕ
  | 0, lower, _ => lower
  | fuel + 1, lower, upper =>
    if lower + 1 < upper then
      let mid := (lower + upper) / 2
      if jumpalpha.getD mid 0 > alpha then findHalphaLoop jumpalpha alpha fuel mid upper
      else findHalphaLoop jumpalpha alpha fuel lower mid
    else lower

/-- `findHalpha` from hommel_zero_based.cpp: `lower = 0`, `upper = m`,
probing `jumpalpha[mid]`. -/
def findHalpha (jumpalpha : List ℚ) (alpha : ℚ) (m : ℕ) : ℕ :=
  findHalphaLoop jumpalpha alpha (m + 1) 0 m

/-- The inner pop loop of `findhull` (the do/while over `notconvex`).
Each pop shortens the hull, so fuel `hull.length` is enough. -/
def findhullPop (p : List ℚ) (i : ℕ) : ℕ → List ℕ → List ℕ
  | 0, hull => hull
  | fuel + 1, hull =>
    if hull = [] then hull
    else
      let r := hull.length - 1
      let notconvex :=
        if 0 < r then
          ((i : ℚ) - (hull.getD (r - 1) 0 : ℕ)) *
              (p.getD (hull.getD r 0) 0 - p.getD (hull.getD (r - 1) 0) 0) ≥
            ((hull.getD r 0 : ℚ) - (hull.getD (r - 1) 0 : ℕ)) *
              (p.getD i 0 - p.getD (hull.getD (r - 1) 0) 0)
        else
          (i : ℚ) * p.getD (hull.getD 0 0) 0 ≥ (hull.getD 0 0 : ℚ) * p.getD i 0
      if notconvex then findhullPop p i fuel (hull.take r) else hull

/-- `findhull` from hommel_zero_based.cpp: hull initialised to `[0]`, then
for `i = 1 .. m-1`, if `i = m-1` or the chord test admits `i`, pop while
not convex and push `i`. -/
def findhull (m : ℕ) (p : List ℚ) : List ℕ :=
  (List.range' 1 (m - 1)).foldl
    (fun hull i =>
      if i = m - 1 ∨
          ((m : ℚ) - 1) * (p.getD i 0 - p.getD 0 0) < (i : ℚ) * (p.getD (m - 1) 0 - p.getD 0 0)
      then findhullPop p i hull.length hull ++ [i]
      else hull)
    [0]

/-! ### Descendants and TDP propagation (ARICluster.cpp) -/

/-- The stack machine of `descendants` (iterative post-order traversal).
The C++ code keeps the stack in the right part of the output buffer; here
the stack and the emitted prefix are separate lists.  A stack entry `x ≥ 0`
is a pending node; `x < 0` encodes the processed marker `~v = -v-1`.
Popping a pending node pushes its marker and then its children so that the
first child ends up on top; popping a marker emits the node.  Each subtree
node is popped exactly twice, so fuel `2 * SIZE[v] + 1` runs the loop to
completion whenever `SIZE[v]` is the subtree size. -/
def descLoop (CHILD : List (List ℕ)) : ℕ → List ℤ → List ℕ → List ℕ
  | 0, _, out => out
  | _ + 1, [], out => out
  | fuel + 1, x :: stk, out =>
    if x < 0 then descLoop CHILD fuel stk (out ++ [(-x - 1).toNat])
    else
      descLoop CHILD fuel
        (((CHILD.getD x.toNat []).map (fun c : ℕ => (c : ℤ))) ++ (-x - 1) :: stk) out

/-- `descendants` from ARICluster.cpp: post-order list of the subtree of
`v` (children in list order first, then `v`). -/
def descendants (v : ℕ) (SIZE : List ℕ) (CHILD : List (List ℕ)) : List ℕ :=
  descLoop CHILD (2 * SIZE.getD v 0 + 1) [(v : ℤ)] []

/-- The `while (true)` walk of `heavyPathTDP` down the heavy path: set
`TDP[v]` from `NUM[SIZE[v]]`, stop at `SIZE[v] = 1`, else step to
`CHILD[v][0]` with `par = v`.  On a well-formed forest the path has at most
`SIZE[v]` nodes, which bounds the fuel. -/
def heavyPathWalk (P : List ℚ) (SIZE : List ℕ) (CHILD : List (List ℕ)) (NUM : List ℤ) :
    ℕ → ℕ → ℤ → List ℚ → List ℚ
  | 0, _, _, TDP => TDP
  | fuel + 1, v, par, TDP =>
    let TDP1 :=
      if par = -1 ∨ P.getD v 0 ≠ P.getD par.toNat 0 then
        TDP.set v ((NUM.getD (SIZE.getD v 0) 0 : ℚ) / (SIZE.getD v 0 : ℚ))
      else TDP.set v (-1)
    if SIZE.getD v 0 = 1 then TDP1
    else heavyPathWalk P SIZE CHILD NUM fuel ((CHILD.getD v []).headD 0) (v : ℤ) TDP1

/-- `heavyPathTDP` from ARICluster.cpp (lines 261-296): collects the
descendants of `v`, shifts every id by `+1` (`HP[i]++`), runs
`findDiscoveries` (the zero-based one — the call to
`findDiscoveries_one_based` is commented out in the source) and walks the
heavy path. -/
def heavyPathTDP (v : ℕ) (par : ℤ) (m : ℕ) (h : ℤ) (alpha simesh : ℚ)
    (P : List ℚ) (SIZE : List ℕ) (CHILD : List (List ℕ)) (TDP : List ℚ) : List ℚ :=
  let HP := (descendants v SIZE CHILD).map (· + 1)
  let NUM := findDiscoveries HP P simesh h alpha HP.length m
  heavyPathWalk P SIZE CHILD NUM (SIZE.getD v 0) v par TDP

/-- `forestTDP` from ARICluster.cpp: one heavy path per forest root
(`par = -1`), then one per non-first child. -/
def forestTDP (m : ℕ) (h : ℤ) (alpha simesh : ℚ) (P : List ℚ) (SIZE : List ℕ)
    (ROOT : List ℕ) (CHILD : List (List ℕ)) : List ℚ :=
  let TDP0 := List.replicate m (0 : ℚ)
  let TDP1 := ROOT.foldl (fun TDP r => heavyPathTDP r (-1) m h alpha simesh P SIZE CHILD TDP) TDP0
  (List.range m).foldl
    (fun TDP i =>
      ((CHILD.getD i []).drop 1).foldl
        (fun TDP c => heavyPathTDP c (i : ℤ) m h alpha simesh P SIZE CHILD TDP) TDP) TDP1

/-! ### Step structure of `findDiscoveries` (claim C3) -/

/-- The discovery list grows by 0 or 1 at each position and starts at 0
or 1.  This is the shape invariant of the `findDiscoveries` main loop. -/
def StepsOK (l : List ℤ) : Prop :=
  (0 < l.length → l.getD 0 0 = 0 ∨ l.getD 0 0 = 1) ∧
  ∀ j, j + 1 < l.length →
    l.getD (j + 1) 0 = l.getD j 0 ∨ l.getD (j + 1) 0 = l.getD j 0 + 1

lemma stepsOK_nil : StepsOK [] := by
  constructor
  · intro h; simp at h
  · intro j hj; simp at hj

lemma stepsOK_append (disc : List ℤ) (val : ℤ)
    (h0 : disc.length = 0 → val = 0 ∨ val = 1)
    (h1 : 0 < disc.length →
      val = disc.getD (disc.length - 1) 0 ∨ val = disc.getD (disc.length - 1) 0 + 1)
    (hs : StepsOK disc) : StepsOK (disc ++ [val]) := by
  constructor
  · intro _
    rcases Nat.eq_zero_or_pos disc.length with hz | hp
    · have hd : disc = [] := List.length_eq_zero.mp hz
      subst hd
      simpa using h0 rfl
    · rw [List.getD_append _ _ _ _ hp]
      exact hs.1 hp
  · intro j hj
    rw [List.length_append, List.length_singleton] at hj
    rcases Nat.lt_or_ge (j + 1) disc.length with hlt | hge
    · rw [List.getD_append _ _ _ _ hlt, List.getD_append _ _ _ _ (Nat.lt_of_succ_lt hlt)]
      exact hs.2 j hlt
    · have hj1 : j + 1 = disc.length := Nat.le_antisymm (Nat.lt_succ_iff.mp hj) hge
      have hjlt : j < disc.length := by omega
      rw [List.getD_append _ _ _ _ hjlt,
        List.getD_append_right _ _ _ _ (le_of_eq hj1.symm)]
      have hj0 : j = disc.length - 1 := by omega
      have := h1 (by omega)
      simp only [hj1, Nat.sub_self, List.getD_cons_zero]
      rw [hj0]
      exact this

lemma findDiscoveriesLoop_disc_length (cats : List ℤ) (maxcat : ℤ) :
    ∀ (js : List ℕ) (disc : List ℤ) (uf : List ℕ × List ℕ × List ℕ),
      ((findDiscoveriesLoop cats maxcat js (disc, uf)).1).length = disc.length + js.length := by
  intro js
  induction js with
  | nil => intro disc uf; simp [findDiscoveriesLoop]
  | cons i rest ih =>
    intro disc uf
    obtain ⟨parent, lowest, rank⟩ := uf
    simp only [findDiscoveriesLoop]
    by_cases hc : cats.getD i 0 ≤ maxcat
    · simp only [if_pos hc]
      by_cases hl :
          lowest.getD (Find (parent.length + 1) (cats.getD i 0).toNat parent).1 0 = 0
      · simp only [if_pos hl, ih]
        simp [Nat.add_comm, Nat.add_assoc, Nat.add_left_comm]
      · simp only [if_neg hl, ih]
        simp [Nat.add_comm, Nat.add_assoc, Nat.add_left_comm]
    · simp only [if_neg hc, ih]
      simp [Nat.add_comm, Nat.add_assoc, Nat.add_left_comm]

lemma findDiscoveriesLoop_stepsOK (cats : List ℤ) (maxcat : ℤ) :
    ∀ (n i0 : ℕ) (disc : List ℤ) (uf : List ℕ × List ℕ × List ℕ),
      disc.length = i0 → StepsOK disc →
      StepsOK (findDiscoveriesLoop cats maxcat (List.range' i0 n) (disc, uf)).1 := by
  intro n
  induction n with
  | zero => intro i0 disc uf _ hs; simpa [findDiscoveriesLoop] using hs
  | succ n ih =>
    intro i0 disc uf hlen hs
    obtain ⟨parent, lowest, rank⟩ := uf
    rw [List.range'_succ]
    simp only [findDiscoveriesLoop]
    have hval2 : StepsOK (disc ++ [if i0 = 0 then 0 else disc.getD (i0 - 1) 0]) := by
      refine stepsOK_append disc _ ?_ ?_ hs
      · intro h0; left; simp [hlen ▸ h0]
      · intro hp
        have : i0 ≠ 0 := by omega
        left; simp [this, hlen]
    have hval1 : StepsOK (disc ++ [if i0 = 0 then 1 else disc.getD (i0 - 1) 0 + 1]) := by
      refine stepsOK_append disc _ ?_ ?_ hs
      · intro h0; right; simp [hlen ▸ h0]
      · intro hp
        have : i0 ≠ 0 := by omega
        right; simp [this, hlen]
    have hlen2 : ∀ v : ℤ, (disc ++ [v]).length = i0 + 1 := by
      intro v; simp [hlen]
    by_cases hc : cats.getD i0 0 ≤ maxcat
    · simp only [if_pos hc]
      by_cases hl :
          lowest.getD (Find (parent.length + 1) (cats.getD i0 0).toNat parent).1 0 = 0
      · simp only [if_pos hl]
        exact ih (i0 + 1) _ _ (hlen2 _) hval1
      · simp only [if_neg hl]
        exact ih (i0 + 1) _ _ (hlen2 _) hval2
    · simp only [if_neg hc]
      exact ih (i0 + 1) _ _ (hlen2 _) hval2

lemma steps_mono (l : List ℤ)
    (hs : ∀ j, j + 1 < l.length →
      l.getD (j + 1) 0 = l.getD j 0 ∨ l.getD (j + 1) 0 = l.getD j 0 + 1) :
    ∀ j1 j2, j1 ≤ j2 → j2 < l.length → l.getD j1 0 ≤ l.getD j2 0 := by
  intro j1 j2
  induction j2 with
  | zero => intro hle _; interval_cases j1; exact le_refl _
  | succ j ih =>
    intro hle hlt
    rcases Nat.lt_or_ge j1 (j + 1) with hlt1 | hge1
    · have h1 : l.getD j1 0 ≤ l.getD j 0 :=
        ih (Nat.lt_succ_iff.mp hlt1) (Nat.lt_of_succ_lt hlt)
      rcases hs j hlt with heq | heq <;> omega
    · have : j1 = j + 1 := Nat.le_antisymm hle hge1
      rw [this]

lemma findDiscoveries_stepsOK (idx : List ℕ) (allp : List ℚ) (simesfactor : ℚ)
    (h : ℤ) (alpha : ℚ) (k m : ℕ) :
    StepsOK (findDiscoveries idx allp simesfactor h alpha k m) := by
  simp only [findDiscoveries]
  rw [List.range_eq_range']
  exact findDiscoveriesLoop_stepsOK _ _ k 0 [] _ rfl stepsOK_nil

lemma findDiscoveries_length (idx : List ℕ) (allp : List ℚ) (simesfactor : ℚ)
    (h : ℤ) (alpha : ℚ) (k m : ℕ) :
    (findDiscoveries idx allp simesfactor h alpha k m).length = k := by
  simp only [findDiscoveries]
  rw [findDiscoveriesLoop_disc_length]
  simp

/-- Claim C3: for every valid input (`idx` of length `k ≥ 1` with entries
in `[0, m)`, non-decreasing `p` of length `m` with values in `[0,1]`,
`0 ≤ h ≤ m`, `alpha ∈ (0,1)`), the discovery sequence returned by
`findDiscoveries` starts at 0 or 1, every consecutive difference is 0 or
1, and the sequence is non-decreasing. -/
theorem findDiscoveries_monotone_unit_steps (idx : List ℕ) (allp : List ℚ)
    (simesfactor : ℚ) (h : ℤ) (alpha : ℚ) (m : ℕ)
    (hk : 1 ≤ idx.length) (hidx : ∀ i ∈ idx, i < m)
    (hp : List.Pairwise (· ≤ ·) allp ∧ allp.length = m ∧ ∀ q ∈ allp, 0 ≤ q ∧ q ≤ 1)
    (hh : 0 ≤ h ∧ h ≤ (m : ℤ)) (ha : 0 < alpha ∧ alpha < 1) :
    ((findDiscoveries idx allp simesfactor h alpha idx.length m).getD 0 0 = 0 ∨
      (findDiscoveries idx allp simesfactor h alpha idx.length m).getD 0 0 = 1) ∧
    (∀ j, j + 1 < (findDiscoveries idx allp simesfactor h alpha idx.length m).length →
      (findDiscoveries idx allp simesfactor h alpha idx.length m).getD (j + 1) 0 =
          (findDiscoveries idx allp simesfactor h alpha idx.length m).getD j 0 ∨
        (findDiscoveries idx allp simesfactor h alpha idx.length m).getD (j + 1) 0 =
          (findDiscoveries idx allp simesfactor h alpha idx.length m).getD j 0 + 1) ∧
    (∀ j1 j2, j1 ≤ j2 →
      j2 < (findDiscoveries idx allp simesfactor h alpha idx.length m).length →
      (findDiscoveries idx allp simesfactor h alpha idx.length m).getD j1 0 ≤
        (findDiscoveries idx allp simesfactor h alpha idx.length m).getD j2 0) := by
  have hsteps := findDiscoveries_stepsOK idx allp simesfactor h alpha idx.length m
  have hlen := findDiscoveries_length idx allp simesfactor h alpha idx.length m
  exact ⟨hsteps.1 (by rw [hlen]; exact hk), hsteps.2, steps_mono _ hsteps.2⟩

unseal Rat.mul Rat.add Rat.sub Rat.inv in
/-- Witness for claim C3 at the concrete input `idx = [0]`,
`allp = [1/2]`, `simesfactor = 1`, `h = 0`, `alpha = 1/2`, `m = 1`. -/
theorem findDiscoveries_monotone_unit_steps_witness :
    (1 ≤ ([0] : List ℕ).length) ∧
    (((findDiscoveries [0] [(1 : ℚ)/2] 1 0 (1/2) ([0] : List ℕ).length 1).getD 0 0 = 0 ∨
      (findDiscoveries [0] [(1 : ℚ)/2] 1 0 (1/2) ([0] : List ℕ).length 1).getD 0 0 = 1)) :=
  ⟨by decide,
    (findDiscoveries_monotone_unit_steps [0] [(1 : ℚ)/2] 1 0 (1/2) 1
      (by decide) (by decide)
      ⟨by decide, by decide, by decide⟩
      ⟨by decide, by decide⟩ ⟨by decide, by decide⟩).1⟩

/-! ### Claims C1, C4, C5, C9: divergences of the code from the spec -/

unseal Rat.mul Rat.add Rat.sub Rat.inv in
/-- Claim C1 (code bug): at the concrete engine state `m = 4`,
`p = [1/40, 1/10, 3/20, 19/20]`, forest `CHILD = [[],[0],[1],[]]` with
subtree sizes `[1,2,3,1]`, `h = 2`, `alpha = 1/20`, `simesh = 1`, the
heavy path starting at the root `s = 2` contains the node `v = 1` with
`p[1] ≠ p[2]`; the claim requires
`tdp[1] = disc[SIZE[1]-1] / SIZE[1] = 1/2` where `disc` is the
`findDiscoveries` result on the descendant list of `s`, but the code
(`heavyPathTDP`, which shifts the descendant ids by one and reads
`NUM[SIZE[v]]`) computes `tdp[1] = 0`. -/
theorem heavyPathTDP_deviates_from_spec :
    (heavyPathTDP 2 (-1) 4 2 (1/20) 1 [(1 : ℚ)/40, 1/10, 3/20, 19/20] [1, 2, 3, 1]
        [[], [0], [1], []] (List.replicate 4 0)).getD 1 0 = 0 ∧
    ((findDiscoveries (descendants 2 [1, 2, 3, 1] [[], [0], [1], []])
          [(1 : ℚ)/40, 1/10, 3/20, 19/20] 1 2 (1/20)
          (descendants 2 [1, 2, 3, 1] [[], [0], [1], []]).length 4).getD
        (([1, 2, 3, 1] : List ℕ).getD 1 0 - 1) 0 : ℚ) /
      ((([1, 2, 3, 1] : List ℕ).getD 1 0 : ℕ) : ℚ) = 1/2 ∧
    ([(1 : ℚ)/40, 1/10, 3/20, 19/20].getD 1 0 ≠ [(1 : ℚ)/40, 1/10, 3/20, 19/20].getD 2 0) := by
  decide

unseal Rat.mul Rat.add Rat.sub Rat.inv in
/-- Claim C4 (code bug): at the same engine state, the pipeline performs
out-of-bounds reads.  On the heavy path of the isolated root 3, the
shifted descendant list handed to `findDiscoveries` contains the index 4,
so the read `allp[idx[j]]` is past the end of the length-4 p-vector; and
on the heavy path of root 2, the `findDiscoveries` result has length 3
while the walk reads `NUM[SIZE[2]] = NUM[3]`. -/
theorem heavyPathTDP_out_of_bounds_reads :
    (((descendants 3 [1, 2, 3, 1] [[], [0], [1], []]).map (· + 1)).any
        (fun j => decide ([(1 : ℚ)/40, 1/10, 3/20, 19/20].length ≤ j)) = true) ∧
    ((findDiscoveries ((descendants 2 [1, 2, 3, 1] [[], [0], [1], []]).map (· + 1))
        [(1 : ℚ)/40, 1/10, 3/20, 19/20] 1 2 (1/20)
        ((descendants 2 [1, 2, 3, 1] [[], [0], [1], []]).map (· + 1)).length 4).length =
      3) ∧
    (([1, 2, 3, 1] : List ℕ).getD 2 0 = 3) := by
  decide

unseal Rat.mul Rat.add Rat.sub Rat.inv in
/-- Claim C5 (code bug): `jumpalpha = [1/2]` is non-increasing, `m = 1`,
`alpha = 1/4`; the largest `h` with `jumpalpha[h-1] > alpha` is 1
(since `jumpalpha[0] = 1/2 > 1/4`), but `findHalpha` returns 0. -/
theorem findHalpha_drops_first_jump :
    findHalpha [(1 : ℚ)/2] (1/4) 1 = 0 ∧ ((1 : ℚ)/2 > 1/4) := by
  decide

unseal Rat.mul Rat.add Rat.sub Rat.inv in
/-- Claim C9 (code bug): for `m = 2` and the non-decreasing p-vector
`[1/10, 1/5]`, `findhull` returns `[1]`: the hull is not anchored at
index 0 (the code pops index 0 because its bottom-of-hull test
`i * p[hull[0]] ≥ hull[0] * p[i]` degenerates to `i * p[0] ≥ 0`). -/
theorem findhull_drops_anchor :
    findhull 2 [(1 : ℚ)/10, 1/5] = [1] := by
  decide

/-! ### Forest postorder infrastructure

The cluster forest produced by `findClusters` stores only children lists.
`postord` is the reference post-order listing of a subtree, defined with
fuel; the validity hypotheses of the query claims supply a depth function
witnessing that the fuel `m` is enough. -/

def postordF (CHILD : List (List ℕ)) : ℕ → ℕ → List ℕ
  | 0, _ => []
  | fuel + 1, v => ((CHILD.getD v []).map (postordF CHILD fuel)).flatten ++ [v]

/-- Post-order subtree listing of `v` (children in list order first, then
`v`), with fuel `m`. -/
def postord (m : ℕ) (CHILD : List (List ℕ)) (v : ℕ) : List ℕ := postordF CHILD m v

/-- `d` witnesses that `CHILD` is a forest over `[0, m)`: children are
in range and strictly decrease the depth measure, which is below `m`. -/
def goodDepth (m : ℕ) (CHILD : List (List ℕ)) (d : ℕ → ℕ) : Prop :=
  ∀ v, v < m → d v < m ∧ ∀ c ∈ CHILD.getD v [], c < m ∧ d c < d v

/-- The subtree-size recurrence of the spec:
`SIZE[v] = 1 + Σ SIZE[c]` over the children of `v`. -/
def sizeRec (m : ℕ) (SIZE : List ℕ) (CHILD : List (List ℕ)) : Prop :=
  ∀ v, v < m → SIZE.getD v 0 = 1 + ((CHILD.getD v []).map (fun c => SIZE.getD c 0)).sum

lemma postordF_congr {m : ℕ} {CHILD : List (List ℕ)} {d : ℕ → ℕ}
    (hd : goodDepth m CHILD d) :
    ∀ (k v f1 f2 : ℕ), d v ≤ k → v < m → d v < f1 → d v < f2 →
      postordF CHILD f1 v = postordF CHILD f2 v := by
  intro k
  induction k with
  | zero =>
    intro v f1 f2 hk hv h1 h2
    obtain ⟨f1', rfl⟩ : ∃ f1', f1 = f1' + 1 := ⟨f1 - 1, by omega⟩
    obtain ⟨f2', rfl⟩ : ∃ f2', f2 = f2' + 1 := ⟨f2 - 1, by omega⟩
    simp only [postordF]
    have h : ∀ c ∈ CHILD.getD v [], postordF CHILD f1' c = postordF CHILD f2' c := by
      intro c hc
      have := ((hd v hv).2 c hc).2
      omega
    rw [List.map_congr_left h]
  | succ k ih =>
    intro v f1 f2 hk hv h1 h2
    obtain ⟨f1', rfl⟩ : ∃ f1', f1 = f1' + 1 := ⟨f1 - 1, by omega⟩
    obtain ⟨f2', rfl⟩ : ∃ f2', f2 = f2' + 1 := ⟨f2 - 1, by omega⟩
    simp only [postordF]
    have h : ∀ c ∈ CHILD.getD v [], postordF CHILD f1' c = postordF CHILD f2' c := by
      intro c hc
      obtain ⟨hcm, hcd⟩ := (hd v hv).2 c hc
      exact ih c f1' f2' (by omega) hcm (by omega) (by omega)
    rw [List.map_congr_left h]

lemma postord_unfold {m : ℕ} {CHILD : List (List ℕ)} {d : ℕ → ℕ}
    (hd : goodDepth m CHILD d) {v : ℕ} (hv : v < m) :
    postord m CHILD v = ((CHILD.getD v []).map (postord m CHILD)).flatten ++ [v] := by
  obtain ⟨m', rfl⟩ : ∃ m', m = m' + 1 := ⟨m - 1, by omega⟩
  simp only [postord, postordF]
  have h : ∀ c ∈ CHILD.getD v [], postordF CHILD m' c = postordF CHILD (m' + 1) c := by
    intro c hc
    obtain ⟨hcm, hcd⟩ := (hd v hv).2 c hc
    have hdv := (hd v hv).1
    exact postordF_congr hd (d c) c m' (m' + 1) le_rfl hcm (by omega) (by omega)
  rw [List.map_congr_left h]
  rfl

lemma self_mem_postord {m : ℕ} {CHILD : List (List ℕ)} {d : ℕ → ℕ}
    (hd : goodDepth m CHILD d) {v : ℕ} (hv : v < m) : v ∈ postord m CHILD v := by
  rw [postord_unfold hd hv]; simp

lemma postord_getLast {m : ℕ} {CHILD : List (List ℕ)} {d : ℕ → ℕ}
    (hd : goodDepth m CHILD d) {v : ℕ} (hv : v < m) :
    (postord m CHILD v).getLast? = some v := by
  rw [postord_unfold hd hv]; exact List.getLast?_concat _

lemma mem_postord_cases {m : ℕ} {CHILD : List (List ℕ)} {d : ℕ → ℕ}
    (hd : goodDepth m CHILD d) {v x : ℕ} (hv : v < m) (hx : x ∈ postord m CHILD v) :
    x = v ∨ ∃ c ∈ CHILD.getD v [], x ∈ postord m CHILD c := by
  rw [postord_unfold hd hv] at hx
  rcases List.mem_append.mp hx with hx | hx
  · obtain ⟨l, hl, hxl⟩ := List.mem_flatten.mp hx
    obtain ⟨c, hc, rfl⟩ := List.mem_map.mp hl
    exact Or.inr ⟨c, hc, hxl⟩
  · exact Or.inl (List.mem_singleton.mp hx)

lemma mem_postord_lt {m : ℕ} {CHILD : List (List ℕ)} {d : ℕ → ℕ}
    (hd : goodDepth m CHILD d) :
    ∀ (k v : ℕ), d v ≤ k → v < m → ∀ x ∈ postord m CHILD v, x < m := by
  intro k
  induction k with
  | zero =>
    intro v hk hv x hx
    rcases mem_postord_cases hd hv hx with rfl | ⟨c, hc, hxc⟩
    · exact hv
    · exact absurd ((hd v hv).2 c hc).2 (by omega)
  | succ k ih =>
    intro v hk hv x hx
    rcases mem_postord_cases hd hv hx with rfl | ⟨c, hc, hxc⟩
    · exact hv
    · obtain ⟨hcm, hcd⟩ := (hd v hv).2 c hc
      exact ih c (by omega) hcm x hxc

lemma postord_subset_aux {m : ℕ} {CHILD : List (List ℕ)} {d : ℕ → ℕ}
    (hd : goodDepth m CHILD d) :
    ∀ (k v : ℕ), d v ≤ k → v < m →
      ∀ x ∈ postord m CHILD v, postord m CHILD x ⊆ postord m CHILD v := by
  intro k
  induction k with
  | zero =>
    intro v hk hv x hx
    rcases mem_postord_cases hd hv hx with rfl | ⟨c, hc, hxc⟩
    · exact fun y hy => hy
    · exact absurd ((hd v hv).2 c hc).2 (by omega)
  | succ k ih =>
    intro v hk hv x hx
    rcases mem_postord_cases hd hv hx with rfl | ⟨c, hc, hxc⟩
    · exact fun y hy => hy
    · obtain ⟨hcm, hcd⟩ := (hd v hv).2 c hc
      intro y hy
      have hyc : y ∈ postord m CHILD c := ih c (by omega) hcm x hxc hy
      rw [postord_unfold hd hv]
      exact List.mem_append.mpr (Or.inl (List.mem_flatten.mpr
        ⟨postord m CHILD c, List.mem_map.mpr ⟨c, hc, rfl⟩, hyc⟩))

lemma postord_subset {m : ℕ} {CHILD : List (List ℕ)} {d : ℕ → ℕ}
    (hd : goodDepth m CHILD d) {v x : ℕ} (hv : v < m) (hx : x ∈ postord m CHILD v) :
    postord m CHILD x ⊆ postord m CHILD v :=
  postord_subset_aux hd (d v) v le_rfl hv x hx

lemma postord_length_eq_size {m : ℕ} {CHILD : List (List ℕ)} {d : ℕ → ℕ}
    {SIZE : List ℕ} (hd : goodDepth m CHILD d) (hsize : sizeRec m SIZE CHILD) :
    ∀ (k v : ℕ), d v ≤ k → v < m → (postord m CHILD v).length = SIZE.getD v 0 := by
  intro k
  induction k with
  | zero =>
    intro v hk hv
    rw [postord_unfold hd hv, hsize v hv]
    have hz : CHILD.getD v [] = [] := by
      rcases hne : CHILD.getD v [] with _ | ⟨c, cs⟩
      · rfl
      · have := ((hd v hv).2 c (by rw [hne]; exact List.mem_cons_self c cs)).2
        omega
    rw [hz]
    simp
  | succ k ih =>
    intro v hk hv
    rw [postord_unfold hd hv, hsize v hv]
    rw [List.length_append, List.length_flatten]
    simp only [List.map_map, List.length_singleton]
    have h : ∀ c ∈ CHILD.getD v [],
        (List.length ∘ postord m CHILD) c = SIZE.getD c 0 := by
      intro c hc
      obtain ⟨hcm, hcd⟩ := (hd v hv).2 c hc
      exact ih c (by omega) hcm
    rw [List.map_congr_left h]
    omega

lemma nodup_postord_of_mem {m : ℕ} {CHILD : List (List ℕ)} {d : ℕ → ℕ}
    (hd : goodDepth m CHILD d) :
    ∀ (k v : ℕ), d v ≤ k → v < m → (postord m CHILD v).Nodup →
      ∀ x ∈ postord m CHILD v, (postord m CHILD x).Nodup := by
  intro k
  induction k with
  | zero =>
    intro v hk hv hnd x hx
    rcases mem_postord_cases hd hv hx with rfl | ⟨c, hc, hxc⟩
    · exact hnd
    · exact absurd ((hd v hv).2 c hc).2 (by omega)
  | succ k ih =>
    intro v hk hv hnd x hx
    rcases mem_postord_cases hd hv hx with rfl | ⟨c, hc, hxc⟩
    · exact hnd
    · obtain ⟨hcm, hcd⟩ := (hd v hv).2 c hc
      rw [postord_unfold hd hv] at hnd
      have hflat := (List.nodup_append.mp hnd).1
      have hc' : (postord m CHILD c).Nodup :=
        (List.nodup_flatten.mp hflat).1 _ (List.mem_map.mpr ⟨c, hc, rfl⟩)
      exact ih c (by omega) hcm hc' x hxc

lemma postord_length_lt {m : ℕ} {CHILD : List (List ℕ)} {d : ℕ → ℕ}
    (hd : goodDepth m CHILD d) {v x : ℕ} (hv : v < m)
    (hnd : (postord m CHILD v).Nodup) (hx : x ∈ postord m CHILD v) (hne : x ≠ v) :
    (postord m CHILD x).length < (postord m CHILD v).length := by
  rcases mem_postord_cases hd hv hx with rfl | ⟨c, hc, hxc⟩
  · exact absurd rfl hne
  · obtain ⟨hcm, hcd⟩ := (hd v hv).2 c hc
    rw [postord_unfold hd hv] at hnd ⊢
    have hflat := (List.nodup_append.mp hnd).1
    have hcnd : (postord m CHILD c).Nodup :=
      (List.nodup_flatten.mp hflat).1 _ (List.mem_map.mpr ⟨c, hc, rfl⟩)
    have hxnd : (postord m CHILD x).Nodup :=
      nodup_postord_of_mem hd (d c) c le_rfl hcm hcnd x hxc
    have hsub : postord m CHILD x ⊆ postord m CHILD c := postord_subset hd hcm hxc
    have h1 : (postord m CHILD x).length ≤ (postord m CHILD c).length :=
      (List.subperm_of_subset hxnd hsub).length_le
    have h2 : (postord m CHILD c).length ≤
        (((CHILD.getD v []).map (postord m CHILD)).map List.length).sum :=
      List.le_sum_of_mem (List.mem_map.mpr
        ⟨postord m CHILD c, List.mem_map.mpr ⟨c, hc, rfl⟩, rfl⟩)
    rw [List.length_append, List.length_flatten]
    simp only [List.length_singleton]
    omega

lemma mem_postord_antisymm {m : ℕ} {CHILD : List (List ℕ)} {d : ℕ → ℕ}
    (hd : goodDepth m CHILD d) {v x : ℕ} (hv : v < m)
    (hnd : (postord m CHILD v).Nodup) (hx : x ∈ postord m CHILD v)
    (hvx : v ∈ postord m CHILD x) : x = v := by
  by_contra hne
  have h1 := postord_length_lt hd hv hnd hx hne
  have hxm : x < m := mem_postord_lt hd (d v) v le_rfl hv x hx
  have hsub : postord m CHILD v ⊆ postord m CHILD x := postord_subset hd hxm hvx
  have h2 : (postord m CHILD v).length ≤ (postord m CHILD x).length :=
    (List.subperm_of_subset hnd hsub).length_le
  omega

lemma postord_ne_of_ne {m : ℕ} {CHILD : List (List ℕ)} {d : ℕ → ℕ}
    (hd : goodDepth m CHILD d) {a b : ℕ} (haa : a < m) (hbb : b < m) (hne : a ≠ b) :
    postord m CHILD a ≠ postord m CHILD b := by
  intro h
  have := postord_getLast hd haa
  rw [h, postord_getLast hd hbb] at this
  exact hne (Option.some_injective _ this.symm)

lemma postord_tri_tree {m : ℕ} {CHILD : List (List ℕ)} {d : ℕ → ℕ}
    (hd : goodDepth m CHILD d) :
    ∀ (k r : ℕ), d r ≤ k → r < m → (postord m CHILD r).Nodup →
      ∀ a ∈ postord m CHILD r, ∀ b ∈ postord m CHILD r, ∀ x,
        x ∈ postord m CHILD a → x ∈ postord m CHILD b →
        a ∈ postord m CHILD b ∨ b ∈ postord m CHILD a := by
  intro k
  induction k with
  | zero =>
    intro r hk hr hnd a ha b hb x hxa hxb
    rcases mem_postord_cases hd hr ha with rfl | ⟨c, hc, hac⟩
    · exact Or.inr hb
    · exact absurd ((hd r hr).2 c hc).2 (by omega)
  | succ k ih =>
    intro r hk hr hnd a ha b hb x hxa hxb
    rcases mem_postord_cases hd hr ha with rfl | ⟨ca, hca, hacc⟩
    · exact Or.inr hb
    rcases mem_postord_cases hd hr hb with rfl | ⟨cb, hcb, hbcc⟩
    · exact Or.inl ha
    obtain ⟨ham, had⟩ := (hd r hr).2 ca hca
    obtain ⟨hbm, hbd⟩ := (hd r hr).2 cb hcb
    rw [postord_unfold hd hr] at hnd
    have hflat := (List.nodup_append.mp hnd).1
    have hpart := List.nodup_flatten.mp hflat
    by_cases hcc : ca = cb
    · subst hcc
      exact ih ca (by omega) ham
        (hpart.1 _ (List.mem_map.mpr ⟨ca, hca, rfl⟩)) a hacc b hbcc x hxa hxb
    · have hdisj : List.Disjoint (postord m CHILD ca) (postord m CHILD cb) := by
        refine hpart.2.forall (fun l1 l2 h12 => List.disjoint_comm.mp h12) ?_ ?_ ?_
        · exact List.mem_map.mpr ⟨ca, hca, rfl⟩
        · exact List.mem_map.mpr ⟨cb, hcb, rfl⟩
        · exact postord_ne_of_ne hd ham hbm hcc
      exact absurd (postord_subset hd hbm hbcc hxb)
        (fun hcontra => hdisj (postord_subset hd ham hacc hxa) hcontra)

/-- Forest-level trichotomy: two subtrees of forest nodes are disjoint
unless one root lies in the subtree of the other. -/
lemma postord_tri_forest {m : ℕ} {CHILD : List (List ℕ)} {d : ℕ → ℕ}
    (hd : goodDepth m CHILD d) {ROOT : List ℕ} (hroots : ∀ r ∈ ROOT, r < m)
    (hnd : ((ROOT.map (postord m CHILD)).flatten).Nodup)
    {a b : ℕ} (ha : ∃ r ∈ ROOT, a ∈ postord m CHILD r)
    (hb : ∃ r ∈ ROOT, b ∈ postord m CHILD r)
    {x : ℕ} (hxa : x ∈ postord m CHILD a) (hxb : x ∈ postord m CHILD b) :
    a ∈ postord m CHILD b ∨ b ∈ postord m CHILD a := by
  obtain ⟨ra, hra, ha⟩ := ha
  obtain ⟨rb, hrb, hb⟩ := hb
  have hram := hroots ra hra
  have hrbm := hroots rb hrb
  have hpart := List.nodup_flatten.mp hnd
  by_cases hrr : ra = rb
  · subst hrr
    exact postord_tri_tree hd (d ra) ra le_rfl hram
      (hpart.1 _ (List.mem_map.mpr ⟨ra, hra, rfl⟩)) a ha b hb x hxa hxb
  · have hdisj : List.Disjoint (postord m CHILD ra) (postord m CHILD rb) := by
      refine hpart.2.forall (fun l1 l2 h12 => List.disjoint_comm.mp h12) ?_ ?_ ?_
      · exact List.mem_map.mpr ⟨ra, hra, rfl⟩
      · exact List.mem_map.mpr ⟨rb, hrb, rfl⟩
      · exact postord_ne_of_ne hd hram hrbm hrr
    exact absurd (postord_subset hd hrbm hb hxb)
      (fun hcontra => hdisj (postord_subset hd hram ha hxa) hcontra)

/-! ### Correctness of the `descendants` stack machine -/

lemma descLoop_zero (CHILD : List (List ℕ)) (stk : List ℤ) (out : List ℕ) :
    descLoop CHILD 0 stk out = out := rfl

lemma descLoop_nil (CHILD : List (List ℕ)) (fuel : ℕ) (out : List ℕ) :
    descLoop CHILD (fuel + 1) [] out = out := rfl

lemma descLoop_cons (CHILD : List (List ℕ)) (fuel : ℕ) (x : ℤ) (stk : List ℤ)
    (out : List ℕ) :
    descLoop CHILD (fuel + 1) (x :: stk) out =
      if x < 0 then descLoop CHILD fuel stk (out ++ [(-x - 1).toNat])
      else
        descLoop CHILD fuel
          (((CHILD.getD x.toNat []).map (fun c : ℕ => (c : ℤ))) ++ (-x - 1) :: stk) out := rfl

lemma descLoop_run {m : ℕ} {CHILD : List (List ℕ)} {d : ℕ → ℕ}
    (hd : goodDepth m CHILD d) :
    ∀ (k v : ℕ), d v ≤ k → v < m → ∀ (fuel : ℕ) (stk : List ℤ) (out : List ℕ),
      descLoop CHILD (2 * (postord m CHILD v).length + fuel) ((v : ℤ) :: stk) out =
      descLoop CHILD fuel stk (out ++ postord m CHILD v) := by
  have hstep : ∀ (k : ℕ),
      (∀ (v : ℕ), d v ≤ k → v < m → ∀ (fuel : ℕ) (stk : List ℤ) (out : List ℕ),
        descLoop CHILD (2 * (postord m CHILD v).length + fuel) ((v : ℤ) :: stk) out =
        descLoop CHILD fuel stk (out ++ postord m CHILD v)) →
      ∀ (v : ℕ), d v ≤ k + 1 → v < m → ∀ (fuel : ℕ) (stk : List ℤ) (out : List ℕ),
        descLoop CHILD (2 * (postord m CHILD v).length + fuel) ((v : ℤ) :: stk) out =
        descLoop CHILD fuel stk (out ++ postord m CHILD v) := by
    intro k ih v hk hv fuel stk out
    have hch : ∀ (cs : List ℕ), (∀ c ∈ cs, c ∈ CHILD.getD v []) →
        ∀ (fuel : ℕ) (stk : List ℤ) (out : List ℕ),
        descLoop CHILD (2 * ((cs.map (postord m CHILD)).map List.length).sum + fuel)
          ((cs.map (fun c : ℕ => (c : ℤ))) ++ stk) out =
        descLoop CHILD fuel stk (out ++ (cs.map (postord m CHILD)).flatten) := by
      intro cs
      induction cs with
      | nil => intro _ fuel' stk' out'; simp
      | cons c cs ihc =>
        intro hmem fuel' stk' out'
        obtain ⟨hcm, hcd⟩ := (hd v hv).2 c (hmem c (List.mem_cons_self c cs))
        simp only [List.map_cons, List.sum_cons, List.cons_append, List.flatten_cons]
        have harith : 2 * ((postord m CHILD c).length +
              ((cs.map (postord m CHILD)).map List.length).sum) + fuel'
            = 2 * (postord m CHILD c).length +
              (2 * ((cs.map (postord m CHILD)).map List.length).sum + fuel') := by ring
        rw [harith, ih c (by omega) hcm _ _ _,
          ihc (fun c' hc' => hmem c' (List.mem_cons_of_mem c hc')) fuel' stk'
            (out' ++ postord m CHILD c),
          List.append_assoc]
    have hL : (postord m CHILD v).length
        = (((CHILD.getD v []).map (postord m CHILD)).map List.length).sum + 1 := by
      rw [postord_unfold hd hv]
      simp [List.length_flatten]
    have harith : 2 * (postord m CHILD v).length + fuel
        = ((2 * (((CHILD.getD v []).map (postord m CHILD)).map List.length).sum +
            (fuel + 1)) + 1) := by
      rw [hL]; ring
    rw [harith, descLoop_cons, if_neg (by omega : ¬((v : ℤ) < 0)), Int.toNat_natCast]
    rw [hch (CHILD.getD v []) (fun c hc => hc) (fuel + 1) ((-(v : ℤ) - 1) :: stk) out]
    rw [descLoop_cons, if_pos (by omega : (-(v : ℤ) - 1) < 0)]
    have hvv : (-(-(v : ℤ) - 1) - 1).toNat = v := by omega
    rw [hvv, postord_unfold hd hv, ← List.append_assoc]
  intro k
  induction k with
  | zero =>
    intro v hk hv fuel stk out
    have hz : CHILD.getD v [] = [] := by
      rcases hne : CHILD.getD v [] with _ | ⟨c, cs⟩
      · rfl
      · have := ((hd v hv).2 c (by rw [hne]; exact List.mem_cons_self c cs)).2
        omega
    have hL : postord m CHILD v = [v] := by
      rw [postord_unfold hd hv, hz]; simp
    rw [hL]
    have harith : 2 * ([v] : List ℕ).length + fuel = (fuel + 1) + 1 := by
      simp only [List.length_singleton]
      omega
    rw [harith, descLoop_cons, if_neg (by omega : ¬((v : ℤ) < 0)), Int.toNat_natCast, hz]
    simp only [List.map_nil, List.nil_append]
    rw [descLoop_cons, if_pos (by omega : (-(v : ℤ) - 1) < 0)]
    have hvv : (-(-(v : ℤ) - 1) - 1).toNat = v := by omega
    rw [hvv]
  | succ k ih => exact hstep k ih

/-- On a well-formed forest with consistent subtree sizes, the
`descendants` machine computes exactly the post-order subtree listing. -/
lemma descendants_eq_postord {m : ℕ} {CHILD : List (List ℕ)} {d : ℕ → ℕ}
    {SIZE : List ℕ} (hd : goodDepth m CHILD d) (hsize : sizeRec m SIZE CHILD)
    {v : ℕ} (hv : v < m) :
    descendants v SIZE CHILD = postord m CHILD v := by
  show descLoop CHILD (2 * SIZE.getD v 0 + 1) [(v : ℤ)] [] = _
  rw [← postord_length_eq_size hd hsize (d v) v le_rfl hv]
  rw [descLoop_run hd (d v) v le_rfl hv 1 [] []]
  simp [descLoop]

/-! ### queryPreparation (ARICluster.cpp) -/

/-- The stack machine of `queryPreparation`: each stack entry pairs a node
with the maximum TDP seen strictly above it (the C++ keeps both on one
`double` stack, pushing `v` then `q`).  Popping `(v, q)` appends `v` to
the admissible list when `TDP[v] > q`, then pushes all children with
threshold `max(TDP[v], q)`, the last child ending on top.  One node is
popped per fuel unit. -/
def qpLoop (CHILD : List (List ℕ)) (TDP : List ℚ) : ℕ → List (ℕ × ℚ) → List ℕ → List ℕ
  | 0, _, adm => adm
  | _ + 1, [], adm => adm
  | fuel + 1, (v, q) :: stk, adm =>
    qpLoop CHILD TDP fuel
      (((CHILD.getD v []).reverse.map (fun c => (c, max (TDP.getD v 0) q))) ++ stk)
      (if TDP.getD v 0 > q then adm ++ [v] else adm)

/-- `queryPreparation` from ARICluster.cpp: traverse from every root with
initial threshold `-1`, then sort the admissible representatives by TDP
(`std::sort` with the `<` comparator; embedded as a stable merge sort,
which realises one of the permitted tie orders). -/
def queryPreparation (m : ℕ) (ROOT : List ℕ) (TDP : List ℚ)
    (CHILD : List (List ℕ)) : List ℕ :=
  (ROOT.foldl (fun adm r => qpLoop CHILD TDP (m + 1) [((r : ℕ), (-1 : ℚ))] adm) []).mergeSort
    (fun a b => decide (TDP.getD a 0 ≤ TDP.getD b 0))

/-- Reference form of the admissible set below `v` with threshold `q`, in
the order the `qpLoop` machine emits it (last child first). -/
def admSubF (CHILD : List (List ℕ)) (TDP : List ℚ) : ℕ → ℕ → ℚ → List ℕ
  | 0, _, _ => []
  | fuel + 1, v, q =>
    (if TDP.getD v 0 > q then [v] else []) ++
      (((CHILD.getD v []).reverse.map
        (fun c => admSubF CHILD TDP fuel c (max (TDP.getD v 0) q)))).flatten

/-- Admissible set below `v` with fuel `m`. -/
def admSub (m : ℕ) (CHILD : List (List ℕ)) (TDP : List ℚ) (v : ℕ) (q : ℚ) : List ℕ :=
  admSubF CHILD TDP m v q

lemma admSubF_congr {m : ℕ} {CHILD : List (List ℕ)} {d : ℕ → ℕ} {TDP : List ℚ}
    (hd : goodDepth m CHILD d) :
    ∀ (k v f1 f2 : ℕ) (q : ℚ), d v ≤ k → v < m → d v < f1 → d v < f2 →
      admSubF CHILD TDP f1 v q = admSubF CHILD TDP f2 v q := by
  intro k
  induction k with
  | zero =>
    intro v f1 f2 q hk hv h1 h2
    obtain ⟨f1', rfl⟩ : ∃ f1', f1 = f1' + 1 := ⟨f1 - 1, by omega⟩
    obtain ⟨f2', rfl⟩ : ∃ f2', f2 = f2' + 1 := ⟨f2 - 1, by omega⟩
    simp only [admSubF]
    have h : ∀ c ∈ (CHILD.getD v []).reverse,
        admSubF CHILD TDP f1' c (max (TDP.getD v 0) q) =
        admSubF CHILD TDP f2' c (max (TDP.getD v 0) q) := by
      intro c hc
      have := ((hd v hv).2 c (List.mem_reverse.mp hc)).2
      omega
    rw [List.map_congr_left h]
  | succ k ih =>
    intro v f1 f2 q hk hv h1 h2
    obtain ⟨f1', rfl⟩ : ∃ f1', f1 = f1' + 1 := ⟨f1 - 1, by omega⟩
    obtain ⟨f2', rfl⟩ : ∃ f2', f2 = f2' + 1 := ⟨f2 - 1, by omega⟩
    simp only [admSubF]
    have h : ∀ c ∈ (CHILD.getD v []).reverse,
        admSubF CHILD TDP f1' c (max (TDP.getD v 0) q) =
        admSubF CHILD TDP f2' c (max (TDP.getD v 0) q) := by
      intro c hc
      obtain ⟨hcm, hcd⟩ := (hd v hv).2 c (List.mem_reverse.mp hc)
      exact ih c f1' f2' _ (by omega) hcm (by omega) (by omega)
    rw [List.map_congr_left h]

lemma admSub_unfold {m : ℕ} {CHILD : List (List ℕ)} {d : ℕ → ℕ} {TDP : List ℚ}
    (hd : goodDepth m CHILD d) {v : ℕ} (hv : v < m) (q : ℚ) :
    admSub m CHILD TDP v q =
      (if TDP.getD v 0 > q then [v] else []) ++
        (((CHILD.getD v []).reverse.map
          (fun c => admSub m CHILD TDP c (max (TDP.getD v 0) q)))).flatten := by
  obtain ⟨m', rfl⟩ : ∃ m', m = m' + 1 := ⟨m - 1, by omega⟩
  have hstep : admSub (m' + 1) CHILD TDP v q =
      (if TDP.getD v 0 > q then [v] else []) ++
        (((CHILD.getD v []).reverse.map
          (fun c => admSubF CHILD TDP m' c (max (TDP.getD v 0) q)))).flatten := rfl
  rw [hstep]
  have h : ∀ c ∈ (CHILD.getD v []).reverse,
      admSubF CHILD TDP m' c (max (TDP.getD v 0) q) =
      admSub (m' + 1) CHILD TDP c (max (TDP.getD v 0) q) := by
    intro c hc
    obtain ⟨hcm, hcd⟩ := (hd v hv).2 c (List.mem_reverse.mp hc)
    have hdv := (hd v hv).1
    exact admSubF_congr hd (d c) c m' (m' + 1) _ le_rfl hcm (by omega) (by omega)
  rw [List.map_congr_left h]

lemma qpLoop_nil (CHILD : List (List ℕ)) (TDP : List ℚ) (fuel : ℕ) (adm : List ℕ) :
    qpLoop CHILD TDP (fuel + 1) [] adm = adm := rfl

lemma qpLoop_cons (CHILD : List (List ℕ)) (TDP : List ℚ) (fuel : ℕ) (v : ℕ) (q : ℚ)
    (stk : List (ℕ × ℚ)) (adm : List ℕ) :
    qpLoop CHILD TDP (fuel + 1) ((v, q) :: stk) adm =
      qpLoop CHILD TDP fuel
        (((CHILD.getD v []).reverse.map (fun c => (c, max (TDP.getD v 0) q))) ++ stk)
        (if TDP.getD v 0 > q then adm ++ [v] else adm) := rfl

lemma qpLoop_run {m : ℕ} {CHILD : List (List ℕ)} {d : ℕ → ℕ} {TDP : List ℚ}
    (hd : goodDepth m CHILD d) :
    ∀ (k v : ℕ), d v ≤ k → v < m →
      ∀ (q : ℚ) (fuel : ℕ) (stk : List (ℕ × ℚ)) (adm : List ℕ),
      qpLoop CHILD TDP ((postord m CHILD v).length + fuel) ((v, q) :: stk) adm =
      qpLoop CHILD TDP fuel stk (adm ++ admSub m CHILD TDP v q) := by
  have hstep : ∀ (k : ℕ),
      (∀ (v : ℕ), d v ≤ k → v < m →
        ∀ (q : ℚ) (fuel : ℕ) (stk : List (ℕ × ℚ)) (adm : List ℕ),
        qpLoop CHILD TDP ((postord m CHILD v).length + fuel) ((v, q) :: stk) adm =
        qpLoop CHILD TDP fuel stk (adm ++ admSub m CHILD TDP v q)) →
      ∀ (v : ℕ), d v ≤ k + 1 → v < m →
        ∀ (q : ℚ) (fuel : ℕ) (stk : List (ℕ × ℚ)) (adm : List ℕ),
        qpLoop CHILD TDP ((postord m CHILD v).length + fuel) ((v, q) :: stk) adm =
        qpLoop CHILD TDP fuel stk (adm ++ admSub m CHILD TDP v q) := by
    intro k ih v hk hv q fuel stk adm
    have hch : ∀ (cs : List ℕ), (∀ c ∈ cs, c ∈ CHILD.getD v []) → ∀ (q' : ℚ),
        (∀ c ∈ cs, q' = max (TDP.getD v 0) q) →
        ∀ (fuel : ℕ) (stk : List (ℕ × ℚ)) (adm : List ℕ),
        qpLoop CHILD TDP (((cs.map (postord m CHILD)).map List.length).sum + fuel)
          ((cs.map (fun c => (c, q'))) ++ stk) adm =
        qpLoop CHILD TDP fuel stk
          (adm ++ ((cs.map (fun c => admSub m CHILD TDP c q'))).flatten) := by
      intro cs
      induction cs with
      | nil => intro _ q' _ fuel' stk' adm'; simp
      | cons c cs ihc =>
        intro hmem q' hq' fuel' stk' adm'
        obtain ⟨hcm, hcd⟩ := (hd v hv).2 c (hmem c (List.mem_cons_self c cs))
        simp only [List.map_cons, List.sum_cons, List.cons_append, List.flatten_cons]
        have harith : (postord m CHILD c).length +
              ((cs.map (postord m CHILD)).map List.length).sum + fuel'
            = (postord m CHILD c).length +
              (((cs.map (postord m CHILD)).map List.length).sum + fuel') := by ring
        rw [harith, ih c (by omega) hcm q' _ _ _,
          ihc (fun c' hc' => hmem c' (List.mem_cons_of_mem c hc')) q'
            (fun c' hc' => hq' c' (List.mem_cons_of_mem c hc')) fuel' stk'
            (adm' ++ admSub m CHILD TDP c q'),
          List.append_assoc]
    have hL : (postord m CHILD v).length
        = ((((CHILD.getD v []).reverse.map (postord m CHILD)).map List.length).sum + 1) := by
      rw [postord_unfold hd hv]
      simp [List.length_flatten, List.map_reverse, List.sum_reverse]
    have harith : (postord m CHILD v).length + fuel
        = (((((CHILD.getD v []).reverse.map (postord m CHILD)).map List.length).sum +
            fuel) + 1) := by
      rw [hL]; ring
    rw [harith, qpLoop_cons]
    rw [hch ((CHILD.getD v []).reverse) (fun c hc => List.mem_reverse.mp hc)
      (max (TDP.getD v 0) q) (fun _ _ => rfl) fuel stk _]
    rw [admSub_unfold hd hv q]
    rcases le_or_lt (TDP.getD v 0) q with hle | hlt
    · rw [if_neg (by exact not_lt.mpr hle), if_neg (by exact not_lt.mpr hle)]
      simp
    · rw [if_pos hlt, if_pos hlt, List.append_assoc]
  intro k
  induction k with
  | zero =>
    intro v hk hv q fuel stk adm
    have hz : CHILD.getD v [] = [] := by
      rcases hne : CHILD.getD v [] with _ | ⟨c, cs⟩
      · rfl
      · have := ((hd v hv).2 c (by rw [hne]; exact List.mem_cons_self c cs)).2
        omega
    have hL : postord m CHILD v = [v] := by
      rw [postord_unfold hd hv, hz]; simp
    have hA : admSub m CHILD TDP v q = if TDP.getD v 0 > q then [v] else [] := by
      rw [admSub_unfold hd hv q, hz]
      simp
    rw [hL, hA]
    have harith : ([v] : List ℕ).length + fuel = fuel + 1 := by
      simp only [List.length_singleton]; omega
    rw [harith, qpLoop_cons, hz]
    simp only [List.reverse_nil, List.map_nil, List.nil_append]
    rcases le_or_lt (TDP.getD v 0) q with hle | hlt
    · rw [if_neg (by exact not_lt.mpr hle), if_neg (by exact not_lt.mpr hle)]
      simp
    · rw [if_pos hlt, if_pos hlt]
  | succ k ih => exact hstep k ih

lemma admSub_mem {m : ℕ} {CHILD : List (List ℕ)} {d : ℕ → ℕ} {TDP : List ℚ}
    (hd : goodDepth m CHILD d) :
    ∀ (k v : ℕ), d v ≤ k → v < m → ∀ (q : ℚ) (x : ℕ),
      x ∈ admSub m CHILD TDP v q →
      x ∈ postord m CHILD v ∧ TDP.getD x 0 > q := by
  intro k
  induction k with
  | zero =>
    intro v hk hv q x hx
    have hz : CHILD.getD v [] = [] := by
      rcases hne : CHILD.getD v [] with _ | ⟨c, cs⟩
      · rfl
      · have := ((hd v hv).2 c (by rw [hne]; exact List.mem_cons_self c cs)).2
        omega
    rw [admSub_unfold hd hv q, hz] at hx
    simp only [List.reverse_nil, List.map_nil, List.flatten_nil, List.append_nil] at hx
    rcases lt_or_le q (TDP.getD v 0) with hlt | hle
    · rw [if_pos hlt] at hx
      rcases List.mem_singleton.mp hx with rfl
      exact ⟨self_mem_postord hd hv, hlt⟩
    · rw [if_neg (not_lt.mpr hle)] at hx
      simp at hx
  | succ k ih =>
    intro v hk hv q x hx
    rw [admSub_unfold hd hv q] at hx
    rcases List.mem_append.mp hx with hx | hx
    · rcases lt_or_le q (TDP.getD v 0) with hlt | hle
      · rw [if_pos hlt] at hx
        rcases List.mem_singleton.mp hx with rfl
        exact ⟨self_mem_postord hd hv, hlt⟩
      · rw [if_neg (not_lt.mpr hle)] at hx
        simp at hx
    · obtain ⟨l, hl, hxl⟩ := List.mem_flatten.mp hx
      obtain ⟨c, hc, rfl⟩ := List.mem_map.mp hl
      obtain ⟨hcm, hcd⟩ := (hd v hv).2 c (List.mem_reverse.mp hc)
      obtain ⟨hmem, htdp⟩ := ih c (by omega) hcm _ x hxl
      refine ⟨?_, lt_of_le_of_lt (le_max_right _ _) htdp⟩
      rw [postord_unfold hd hv]
      exact List.mem_append.mpr (Or.inl (List.mem_flatten.mpr
        ⟨postord m CHILD c,
          List.mem_map.mpr ⟨c, List.mem_reverse.mp hc, rfl⟩, hmem⟩))

lemma admSub_ancestor {m : ℕ} {CHILD : List (List ℕ)} {d : ℕ → ℕ} {TDP : List ℚ}
    (hd : goodDepth m CHILD d) :
    ∀ (k v : ℕ), d v ≤ k → v < m → (postord m CHILD v).Nodup →
      ∀ (q : ℚ) (a b : ℕ), b ∈ admSub m CHILD TDP v q →
        a ∈ postord m CHILD v → b ∈ postord m CHILD a → b ≠ a →
        TDP.getD b 0 > TDP.getD a 0 := by
  intro k
  induction k with
  | zero =>
    intro v hk hv hnd q a b hb ha hba hne
    have hz : CHILD.getD v [] = [] := by
      rcases hne' : CHILD.getD v [] with _ | ⟨c, cs⟩
      · rfl
      · have := ((hd v hv).2 c (by rw [hne']; exact List.mem_cons_self c cs)).2
        omega
    have hL : postord m CHILD v = [v] := by
      rw [postord_unfold hd hv, hz]; simp
    rw [hL] at ha
    have hav : a = v := List.mem_singleton.mp ha
    have hbv := (admSub_mem hd 0 v hk hv q b hb).1
    rw [hL] at hbv
    exact absurd ((List.mem_singleton.mp hbv).trans hav.symm) hne
  | succ k ih =>
    intro v hk hv hnd q a b hb ha hba hne
    rw [admSub_unfold hd hv q] at hb
    rcases List.mem_append.mp hb with hb' | hb'
    · -- b comes from the head test, so b = v; then a, b are mutually
      -- contained and must be equal, a contradiction.
      have hbv : b = v := by
        rcases lt_or_le q (TDP.getD v 0) with hlt | hle
        · rw [if_pos hlt] at hb'; exact List.mem_singleton.mp hb'
        · rw [if_neg (not_lt.mpr hle)] at hb'; simp at hb'
      subst hbv
      exact absurd (mem_postord_antisymm hd hv hnd ha hba).symm hne
    · obtain ⟨l, hl, hbl⟩ := List.mem_flatten.mp hb'
      obtain ⟨c, hc, rfl⟩ := List.mem_map.mp hl
      have hcch := List.mem_reverse.mp hc
      obtain ⟨hcm, hcd⟩ := (hd v hv).2 c hcch
      have hbc : b ∈ postord m CHILD c := (admSub_mem hd (d c) c le_rfl hcm _ b hbl).1
      rcases mem_postord_cases hd hv ha with rfl | ⟨ca, hca, hacc⟩
      · -- a = v: the threshold passed to the child is at least TDP[v].
        have := (admSub_mem hd (d c) c le_rfl hcm _ b hbl).2
        exact lt_of_le_of_lt (le_max_left _ _) this
      · obtain ⟨ham, had⟩ := (hd v hv).2 ca hca
        rw [postord_unfold hd hv] at hnd
        have hflat := (List.nodup_append.mp hnd).1
        have hpart := List.nodup_flatten.mp hflat
        have hcca : ca = c := by
          by_contra hcc
          have hdisj : List.Disjoint (postord m CHILD ca) (postord m CHILD c) := by
            refine hpart.2.forall (fun l1 l2 h12 => List.disjoint_comm.mp h12) ?_ ?_ ?_
            · exact List.mem_map.mpr ⟨ca, hca, rfl⟩
            · exact List.mem_map.mpr ⟨c, hcch, rfl⟩
            · exact postord_ne_of_ne hd ham hcm hcc
          exact hdisj (postord_subset hd ham hacc hba) hbc
        subst hcca
        exact ih ca (by omega) ham
          (hpart.1 _ (List.mem_map.mpr ⟨ca, hcch, rfl⟩)) _ a b hbl hacc hba hne

lemma postord_length_le {m : ℕ} {CHILD : List (List ℕ)} {d : ℕ → ℕ}
    (hd : goodDepth m CHILD d) {r : ℕ} (hr : r < m)
    (hnd : (postord m CHILD r).Nodup) : (postord m CHILD r).length ≤ m := by
  have hsub : postord m CHILD r ⊆ List.range m := fun x hx =>
    List.mem_range.mpr (mem_postord_lt hd (d r) r le_rfl hr x hx)
  simpa using (List.subperm_of_subset hnd hsub).length_le

/-- Validity of the engine forest state: a depth function for the children
lists, roots in range, and the concatenated root subtrees duplicate-free
(each voxel appears in exactly one place of the forest). -/
def forestOK (m : ℕ) (CHILD : List (List ℕ)) (d : ℕ → ℕ) (ROOT : List ℕ) : Prop :=
  goodDepth m CHILD d ∧ (∀ r ∈ ROOT, r < m) ∧
    ((ROOT.map (postord m CHILD)).flatten).Nodup

lemma forestOK_root_nodup {m : ℕ} {CHILD : List (List ℕ)} {d : ℕ → ℕ}
    {ROOT : List ℕ} (hF : forestOK m CHILD d ROOT) {r : ℕ} (hr : r ∈ ROOT) :
    (postord m CHILD r).Nodup :=
  (List.nodup_flatten.mp hF.2.2).1 _ (List.mem_map.mpr ⟨r, hr, rfl⟩)

lemma queryPreparation_fold {m : ℕ} {CHILD : List (List ℕ)} {d : ℕ → ℕ}
    {TDP : List ℚ} (hd : goodDepth m CHILD d) :
    ∀ (ROOT : List ℕ) (init : List ℕ),
      (∀ r ∈ ROOT, r < m ∧ (postord m CHILD r).length ≤ m) →
      ROOT.foldl (fun adm r => qpLoop CHILD TDP (m + 1) [((r : ℕ), (-1 : ℚ))] adm) init
      = init ++ (ROOT.map (fun r => admSub m CHILD TDP r (-1))).flatten := by
  intro ROOT
  induction ROOT with
  | nil => intro init _; simp
  | cons r rs ih =>
    intro init hR
    obtain ⟨hrm, hrL⟩ := hR r (List.mem_cons_self r rs)
    simp only [List.foldl_cons, List.map_cons, List.flatten_cons]
    have hone : qpLoop CHILD TDP (m + 1) [(r, -1)] init
        = init ++ admSub m CHILD TDP r (-1) := by
      have h := @qpLoop_run m CHILD d TDP hd (d r) r le_rfl hrm (-1)
        (m + 1 - (postord m CHILD r).length) [] init
      have harith : (postord m CHILD r).length +
          (m + 1 - (postord m CHILD r).length) = m + 1 := by omega
      rw [harith] at h
      rw [h]
      obtain ⟨f, hf⟩ : ∃ f, m + 1 - (postord m CHILD r).length = f + 1 :=
        ⟨m - (postord m CHILD r).length, by omega⟩
      rw [hf, qpLoop_nil]
    rw [hone, ih _ (fun r' hr' => hR r' (List.mem_cons_of_mem r hr')),
      List.append_assoc]

lemma queryPreparation_mem {m : ℕ} {CHILD : List (List ℕ)} {d : ℕ → ℕ}
    {ROOT : List ℕ} {TDP : List ℚ} (hF : forestOK m CHILD d ROOT) {a : ℕ} :
    a ∈ queryPreparation m ROOT TDP CHILD ↔
      a ∈ (ROOT.map (fun r => admSub m CHILD TDP r (-1))).flatten := by
  unfold queryPreparation
  rw [(List.mergeSort_perm _ _).mem_iff]
  rw [queryPreparation_fold hF.1 ROOT []
    (fun r hr => ⟨hF.2.1 r hr, postord_length_le hF.1 (hF.2.1 r hr)
      (forestOK_root_nodup hF hr)⟩)]
  simp

lemma queryPreparation_in_forest {m : ℕ} {CHILD : List (List ℕ)} {d : ℕ → ℕ}
    {ROOT : List ℕ} {TDP : List ℚ} (hF : forestOK m CHILD d ROOT) {a : ℕ}
    (ha : a ∈ queryPreparation m ROOT TDP CHILD) :
    ∃ r ∈ ROOT, a ∈ postord m CHILD r := by
  rw [queryPreparation_mem hF] at ha
  obtain ⟨l, hl, hal⟩ := List.mem_flatten.mp ha
  obtain ⟨r, hr, rfl⟩ := List.mem_map.mp hl
  exact ⟨r, hr, (admSub_mem hF.1 (d r) r le_rfl (hF.2.1 r hr) _ a hal).1⟩

lemma queryPreparation_lt {m : ℕ} {CHILD : List (List ℕ)} {d : ℕ → ℕ}
    {ROOT : List ℕ} {TDP : List ℚ} (hF : forestOK m CHILD d ROOT) {a : ℕ}
    (ha : a ∈ queryPreparation m ROOT TDP CHILD) : a < m := by
  obtain ⟨r, hr, har⟩ := queryPreparation_in_forest hF ha
  exact mem_postord_lt hF.1 (d r) r le_rfl (hF.2.1 r hr) a har

/-- Admissibility: a strict descendant of an admissible representative
that is itself admissible has strictly larger TDP. -/
lemma queryPreparation_strict {m : ℕ} {CHILD : List (List ℕ)} {d : ℕ → ℕ}
    {ROOT : List ℕ} {TDP : List ℚ} (hF : forestOK m CHILD d ROOT) {a b : ℕ}
    (ha : a ∈ queryPreparation m ROOT TDP CHILD)
    (hb : b ∈ queryPreparation m ROOT TDP CHILD)
    (hba : b ∈ postord m CHILD a) (hne : b ≠ a) :
    TDP.getD b 0 > TDP.getD a 0 := by
  obtain ⟨ra, hra, hara⟩ := queryPreparation_in_forest hF ha
  rw [queryPreparation_mem hF] at hb
  obtain ⟨l, hl, hbl⟩ := List.mem_flatten.mp hb
  obtain ⟨rb, hrb, rfl⟩ := List.mem_map.mp hl
  have hram := hF.2.1 ra hra
  have hrbm := hF.2.1 rb hrb
  have hbrb : b ∈ postord m CHILD rb :=
    (admSub_mem hF.1 (d rb) rb le_rfl hrbm _ b hbl).1
  have hbra : b ∈ postord m CHILD ra := postord_subset hF.1 hram hara hba
  have hrr : rb = ra := by
    by_contra hcc
    have hpart := List.nodup_flatten.mp hF.2.2
    have hdisj : List.Disjoint (postord m CHILD rb) (postord m CHILD ra) := by
      refine hpart.2.forall (fun l1 l2 h12 => List.disjoint_comm.mp h12) ?_ ?_ ?_
      · exact List.mem_map.mpr ⟨rb, hrb, rfl⟩
      · exact List.mem_map.mpr ⟨ra, hra, rfl⟩
      · exact postord_ne_of_ne hF.1 hrbm hram hcc
    exact hdisj hbrb hbra
  subst hrr
  exact admSub_ancestor hF.1 (d rb) rb le_rfl hrbm
    (forestOK_root_nodup hF hrb) _ a b hbl hara hba hne

lemma queryPreparation_sorted {m : ℕ} {ROOT : List ℕ} {TDP : List ℚ}
    {CHILD : List (List ℕ)} :
    ∀ i j, i ≤ j → j < (queryPreparation m ROOT TDP CHILD).length →
      TDP.getD ((queryPreparation m ROOT TDP CHILD).getD i 0) 0 ≤
        TDP.getD ((queryPreparation m ROOT TDP CHILD).getD j 0) 0 := by
  intro i j hij hj
  rcases Nat.eq_or_lt_of_le hij with rfl | hlt
  · exact le_refl _
  have hsorted := @List.sorted_mergeSort ℕ
    (fun a b => decide (TDP.getD a 0 ≤ TDP.getD b 0))
    (fun a b c hab hbc => by
      simp only [decide_eq_true_eq] at hab hbc ⊢
      exact le_trans hab hbc)
    (fun a b => by
      simp only [Bool.or_eq_true, decide_eq_true_eq]
      exact le_total _ _)
    (ROOT.foldl (fun adm r => qpLoop CHILD TDP (m + 1) [((r : ℕ), (-1 : ℚ))] adm) [])
  rw [List.pairwise_iff_getElem] at hsorted
  have hi : i < (queryPreparation m ROOT TDP CHILD).length := lt_of_le_of_lt hij hj
  have h := hsorted i j hi hj hlt
  simp only [decide_eq_true_eq] at h
  rw [List.getD_eq_getElem _ _ hi, List.getD_eq_getElem _ _ hj]
  exact h

/-! ### findLeft and answerQuery (ARICluster.cpp) -/

/-- The combined binary/linear search loop of `findLeft`.  Each iteration
shrinks `high - low`, so fuel `ADMSTC.length + 1` always suffices. -/
def findLeftLoop (ADMSTC : List ℕ) (TDP : List ℚ) (gamma : ℚ) :
    ℕ → ℕ → ℕ → ℕ → ℕ
  | 0, low, _, _ => low
  | fuel + 1, low, high, right =>
    if low < high then
      let mid := (low + high) / 2
      let lh : ℕ × ℕ :=
        if TDP.getD (ADMSTC.getD mid 0) 0 ≥ gamma then (low, mid) else (mid + 1, high)
      if TDP.getD (ADMSTC.getD (right - 1) 0) 0 < gamma then (right - 1) + 1
      else findLeftLoop ADMSTC TDP gamma fuel lh.1 lh.2 (right - 1)
    else low

/-- `findLeft` from ARICluster.cpp: leftmost index into `ADMSTC` whose
TDP is at least `gamma` (`ADMSTC.length` when none). -/
def findLeft (gamma : ℚ) (ADMSTC : List ℕ) (TDP : List ℚ) : ℕ :=
  findLeftLoop ADMSTC TDP gamma (ADMSTC.length + 1) 0 ADMSTC.length ADMSTC.length

lemma findLeftLoop_ge {ADMSTC : List ℕ} {TDP : List ℚ} {gamma : ℚ}
    (hsorted : ∀ i j, i ≤ j → j < ADMSTC.length →
      TDP.getD (ADMSTC.getD i 0) 0 ≤ TDP.getD (ADMSTC.getD j 0) 0) :
    ∀ (fuel low high right : ℕ), high ≤ ADMSTC.length → high - low < fuel →
      (∀ j, high ≤ j → j < ADMSTC.length → TDP.getD (ADMSTC.getD j 0) 0 ≥ gamma) →
      (∀ j, right ≤ j → j < ADMSTC.length → TDP.getD (ADMSTC.getD j 0) 0 ≥ gamma) →
      ∀ j, findLeftLoop ADMSTC TDP gamma fuel low high right ≤ j →
        j < ADMSTC.length → TDP.getD (ADMSTC.getD j 0) 0 ≥ gamma := by
  intro fuel
  induction fuel with
  | zero => intro low high right _ hfuel _ _; omega
  | succ fuel ih =>
    intro low high right hhigh hfuel hINVh hINVr j hj hjlen
    rw [findLeftLoop] at hj
    by_cases hlh : low < high
    · rw [if_pos hlh] at hj
      by_cases hlin : TDP.getD (ADMSTC.getD (right - 1) 0) 0 < gamma
      · rw [if_pos hlin] at hj
        exact hINVr j (by omega) hjlen
      · rw [if_neg hlin] at hj
        have hINVr' : ∀ j', right - 1 ≤ j' → j' < ADMSTC.length →
            TDP.getD (ADMSTC.getD j' 0) 0 ≥ gamma := by
          intro j' hj' hj'len
          rcases Nat.lt_or_ge j' right with hlt | hge
          · have : j' = right - 1 := by omega
            subst this
            exact not_lt.mp hlin
          · exact hINVr j' hge hj'len
        by_cases hmid : TDP.getD (ADMSTC.getD ((low + high) / 2) 0) 0 ≥ gamma
        · rw [if_pos hmid] at hj
          refine ih low ((low + high) / 2) (right - 1) (by omega) (by omega)
            ?_ hINVr' j hj hjlen
          intro j' hj' hj'len
          exact le_trans hmid (hsorted ((low + high) / 2) j' hj' hj'len)
        · rw [if_neg hmid] at hj
          exact ih ((low + high) / 2 + 1) high (right - 1) hhigh (by omega)
            hINVh hINVr' j hj hjlen
    · rw [if_neg hlh] at hj
      exact hINVh j (by omega) hjlen

lemma findLeftLoop_le (ADMSTC : List ℕ) (TDP : List ℚ) (gamma : ℚ) :
    ∀ (fuel low high right : ℕ), low ≤ high → high ≤ ADMSTC.length →
      right ≤ ADMSTC.length →
      findLeftLoop ADMSTC TDP gamma fuel low high right ≤ ADMSTC.length := by
  intro fuel
  induction fuel with
  | zero => intro low high right h1 h2 _; exact le_trans h1 h2
  | succ fuel ih =>
    intro low high right h1 h2 h3
    rw [findLeftLoop]
    by_cases hlh : low < high
    · rw [if_pos hlh]
      by_cases hlin : TDP.getD (ADMSTC.getD (right - 1) 0) 0 < gamma
      · rw [if_pos hlin]
        omega
      · rw [if_neg hlin]
        by_cases hmid : TDP.getD (ADMSTC.getD ((low + high) / 2) 0) 0 ≥ gamma
        · rw [if_pos hmid]
          exact ih low ((low + high) / 2) (right - 1) (by omega) (by omega) (by omega)
        · rw [if_neg hmid]
          exact ih ((low + high) / 2 + 1) high (right - 1) (by omega) h2 (by omega)
    · rw [if_neg hlh]
      exact le_trans h1 h2

lemma findLeft_le (gamma : ℚ) (ADMSTC : List ℕ) (TDP : List ℚ) :
    findLeft gamma ADMSTC TDP ≤ ADMSTC.length :=
  findLeftLoop_le ADMSTC TDP gamma (ADMSTC.length + 1) 0 ADMSTC.length
    ADMSTC.length (by omega) le_rfl le_rfl

lemma findLeft_ge {ADMSTC : List ℕ} {TDP : List ℚ} {gamma : ℚ}
    (hsorted : ∀ i j, i ≤ j → j < ADMSTC.length →
      TDP.getD (ADMSTC.getD i 0) 0 ≤ TDP.getD (ADMSTC.getD j 0) 0) :
    ∀ j, findLeft gamma ADMSTC TDP ≤ j → j < ADMSTC.length →
      TDP.getD (ADMSTC.getD j 0) 0 ≥ gamma := by
  refine findLeftLoop_ge hsorted (ADMSTC.length + 1) 0 ADMSTC.length ADMSTC.length
    le_rfl (by omega) ?_ ?_
  · intro j hj hjlen; omega
  · intro j hj hjlen; omega

/-- The mark-writing loops of the query engine
(`for j: MARK[D[j]] = w`), as a fold. -/
def setAll (MARK D : List ℕ) (w : ℕ) : List ℕ :=
  D.foldl (fun MK j => MK.set j w) MARK

lemma getD_set_ne (l : List ℕ) (j x a : ℕ) (h : j ≠ x) :
    (l.set j a).getD x 0 = l.getD x 0 := by
  simp [List.getD_eq_getElem?_getD, List.getElem?_set, h]

lemma getD_set_self (l : List ℕ) (j a : ℕ) (h : j < l.length) :
    (l.set j a).getD j 0 = a := by
  simp [List.getD_eq_getElem?_getD, List.getElem?_set, h]

lemma getD_oob (l : List ℕ) (x : ℕ) (h : l.length ≤ x) : l.getD x 0 = 0 := by
  rw [List.getD_eq_getElem?_getD, List.getElem?_eq_none (by omega)]
  rfl

lemma setAll_length (D : List ℕ) : ∀ (MARK : List ℕ) (w : ℕ),
    (setAll MARK D w).length = MARK.length := by
  induction D with
  | nil => intro MARK w; rfl
  | cons j D ih =>
    intro MARK w
    show (setAll (MARK.set j w) D w).length = _
    rw [ih, List.length_set]

lemma setAll_getD (D : List ℕ) : ∀ (MARK : List ℕ) (w x : ℕ),
    (setAll MARK D w).getD x 0 =
      if x ∈ D ∧ x < MARK.length then w else MARK.getD x 0 := by
  induction D with
  | nil => intro MARK w x; simp [setAll]
  | cons j D ih =>
    intro MARK w x
    show (setAll (MARK.set j w) D w).getD x 0 = _
    rw [ih, List.length_set]
    by_cases hD : x ∈ D ∧ x < MARK.length
    · rw [if_pos hD, if_pos ⟨List.mem_cons_of_mem j hD.1, hD.2⟩]
    · rw [if_neg hD]
      by_cases hjx : j = x
      · subst hjx
        by_cases hlen : j < MARK.length
        · rw [getD_set_self _ _ _ hlen, if_pos ⟨List.mem_cons_self j D, hlen⟩]
        · rw [if_neg (fun hc => hlen hc.2)]
          rw [getD_oob _ _ (by rw [List.length_set]; omega), getD_oob _ _ (by omega)]
      · rw [getD_set_ne _ _ _ _ hjx]
        have : ¬(x ∈ j :: D ∧ x < MARK.length) := by
          intro ⟨hmem, hlt⟩
          rcases List.mem_cons.mp hmem with rfl | hmem'
          · exact hjx rfl
          · exact hD ⟨hmem', hlt⟩
        rw [if_neg this]

lemma getD_replicate_zero (m x : ℕ) : (List.replicate m (0 : ℕ)).getD x 0 = 0 := by
  rw [List.getD_eq_getElem?_getD, List.getElem?_replicate]
  by_cases h : x < m <;> simp [h]

lemma eq_replicate_zero_of_getD (MK : List ℕ) (m : ℕ) (hlen : MK.length = m)
    (h : ∀ x, x < m → MK.getD x 0 = 0) : MK = List.replicate m 0 := by
  apply List.ext_getElem
  · simp [hlen]
  · intro i hi hrep
    have hgd := h i (by omega)
    rw [List.getD_eq_getElem _ _ (by omega)] at hgd
    simp [hgd]

/-! ### answerQuery (ARICluster.cpp) -/

/-- The emission loop of `answerQuery`: for each index `i` of the
admissible list from `left` upward, emit the cluster of `ADMSTC[i]` when
its representative is unmarked and mark all its voxels. -/
def answerQueryLoop (ADMSTC SIZE : List ℕ) (CHILD : List (List ℕ)) :
    List ℕ → List (List ℕ) → List ℕ → List (List ℕ) × List ℕ
  | [], ANS, MARK => (ANS, MARK)
  | i :: rest, ANS, MARK =>
    if MARK.getD (ADMSTC.getD i 0) 0 = 0 then
      answerQueryLoop ADMSTC SIZE CHILD rest
        (ANS ++ [descendants (ADMSTC.getD i 0) SIZE CHILD])
        (setAll MARK (descendants (ADMSTC.getD i 0) SIZE CHILD) 1)
    else answerQueryLoop ADMSTC SIZE CHILD rest ANS MARK

/-- `answerQuery` from ARICluster.cpp: clamp `gamma` at 0, locate the
left boundary with `findLeft`, emit maximal unmarked clusters, then clear
all marks (the function returns the cluster list; the final mark buffer is
returned as the second component since the C++ mutates it in place). -/
def answerQuery (gamma : ℚ) (ADMSTC SIZE MARK : List ℕ) (TDP : List ℚ)
    (CHILD : List (List ℕ)) : List (List ℕ) × List ℕ :=
  let g := if gamma < 0 then 0 else gamma
  let left := findLeft g ADMSTC TDP
  let res := answerQueryLoop ADMSTC SIZE CHILD
    (List.range' left (ADMSTC.length - left)) [] MARK
  (res.1, res.1.foldl (fun MK CL => setAll MK CL 0) res.2)

lemma answerQueryLoop_nil (ADMSTC SIZE : List ℕ) (CHILD : List (List ℕ))
    (ANS : List (List ℕ)) (MARK : List ℕ) :
    answerQueryLoop ADMSTC SIZE CHILD [] ANS MARK = (ANS, MARK) := rfl

lemma answerQueryLoop_cons (ADMSTC SIZE : List ℕ) (CHILD : List (List ℕ))
    (i : ℕ) (rest : List ℕ) (ANS : List (List ℕ)) (MARK : List ℕ) :
    answerQueryLoop ADMSTC SIZE CHILD (i :: rest) ANS MARK =
      if MARK.getD (ADMSTC.getD i 0) 0 = 0 then
        answerQueryLoop ADMSTC SIZE CHILD rest
          (ANS ++ [descendants (ADMSTC.getD i 0) SIZE CHILD])
          (setAll MARK (descendants (ADMSTC.getD i 0) SIZE CHILD) 1)
      else answerQueryLoop ADMSTC SIZE CHILD rest ANS MARK := rfl

lemma answerQueryLoop_good {m : ℕ} {CHILD : List (List ℕ)} {d : ℕ → ℕ}
    {ROOT : List ℕ} {TDP : List ℚ} {SIZE ADMSTC : List ℕ}
    (hF : forestOK m CHILD d ROOT) (hsize : sizeRec m SIZE CHILD)
    (hA : ADMSTC = queryPreparation m ROOT TDP CHILD) :
    ∀ (n i left : ℕ) (ANS : List (List ℕ)) (MARK : List ℕ),
      left ≤ i → i + n ≤ ADMSTC.length → MARK.length = m →
      (∀ x, x ∈ ANS.flatten → MARK.getD x 0 ≠ 0) →
      (∀ x, x ∉ ANS.flatten → MARK.getD x 0 = 0) →
      (∀ CL ∈ ANS, ∃ j, left ≤ j ∧ j < i ∧ j < ADMSTC.length ∧
        CL = postord m CHILD (ADMSTC.getD j 0)) →
      List.Pairwise List.Disjoint ANS →
      List.Pairwise List.Disjoint
        (answerQueryLoop ADMSTC SIZE CHILD (List.range' i n) ANS MARK).1 ∧
      (∀ CL ∈ (answerQueryLoop ADMSTC SIZE CHILD (List.range' i n) ANS MARK).1,
        ∃ j, left ≤ j ∧ j < ADMSTC.length ∧
          CL = postord m CHILD (ADMSTC.getD j 0)) := by
  intro n
  induction n with
  | zero =>
    intro i left ANS MARK hli hin hMlen hM1 hM0 hANS hPW
    rw [List.range'_zero, answerQueryLoop_nil]
    exact ⟨hPW, fun CL hCL => by
      obtain ⟨j, hj1, _, hj3, hj4⟩ := hANS CL hCL
      exact ⟨j, hj1, hj3, hj4⟩⟩
  | succ n ih =>
    intro i left ANS MARK hli hin hMlen hM1 hM0 hANS hPW
    rw [List.range'_succ, answerQueryLoop_cons]
    set a := ADMSTC.getD i 0 with ha_def
    have hilen : i < ADMSTC.length := by omega
    have haA : a ∈ ADMSTC := by
      rw [ha_def, List.getD_eq_getElem _ _ hilen]
      exact List.getElem_mem hilen
    have haqp : a ∈ queryPreparation m ROOT TDP CHILD := hA ▸ haA
    have ham : a < m := queryPreparation_lt hF haqp
    have hdesc : descendants a SIZE CHILD = postord m CHILD a :=
      descendants_eq_postord hF.1 hsize ham
    by_cases hmark : MARK.getD a 0 = 0
    · rw [if_pos hmark, hdesc]
      have hnewPW : List.Pairwise List.Disjoint (ANS ++ [postord m CHILD a]) := by
        rw [List.pairwise_append]
        refine ⟨hPW, List.pairwise_singleton _ _, ?_⟩
        intro CL hCL D hD
        rcases List.mem_singleton.mp hD with rfl
        obtain ⟨j, hjl, hji, hjlen, rfl⟩ := hANS CL hCL
        set b := ADMSTC.getD j 0 with hb_def
        have hbA : b ∈ ADMSTC := by
          rw [hb_def, List.getD_eq_getElem _ _ hjlen]
          exact List.getElem_mem hjlen
        have hbqp : b ∈ queryPreparation m ROOT TDP CHILD := hA ▸ hbA
        intro x hxb hxa
        have htri := postord_tri_forest hF.1 hF.2.1 hF.2.2
          (queryPreparation_in_forest hF hbqp)
          (queryPreparation_in_forest hF haqp) hxb hxa
        have haANS : a ∈ ANS.flatten → False := fun hc => (hM1 a hc) hmark
        rcases htri with hba | hab
        · -- b ∈ postord a
          by_cases hbea : b = a
          · exact haANS (List.mem_flatten.mpr ⟨postord m CHILD b, hCL,
              by rw [hbea]; exact self_mem_postord hF.1 ham⟩)
          · have hstrict := queryPreparation_strict hF haqp hbqp hba hbea
            have hle : TDP.getD b 0 ≤ TDP.getD a 0 := by
              rw [ha_def, hb_def, hA]
              exact queryPreparation_sorted j i (le_of_lt hji)
                (by rw [← hA]; exact hilen)
            exact absurd hstrict (not_lt.mpr hle)
        · -- a ∈ postord b: then a is already marked
          exact haANS (List.mem_flatten.mpr ⟨postord m CHILD b, hCL, hab⟩)
      refine ih (i + 1) left _ _ (by omega) (by omega)
        (by rw [setAll_length]; exact hMlen) ?_ ?_ ?_ hnewPW
      · intro x hx
        rw [List.flatten_append] at hx
        rw [setAll_getD]
        rcases List.mem_append.mp hx with hx | hx
        · by_cases hxin : x ∈ postord m CHILD a ∧ x < MARK.length
          · rw [if_pos hxin]; omega
          · rw [if_neg hxin]; exact hM1 x hx
        · simp only [List.flatten_cons, List.flatten_nil, List.append_nil] at hx
          have hxm : x < m := mem_postord_lt hF.1 (d a) a le_rfl ham x hx
          rw [if_pos ⟨hx, by omega⟩]; omega
      · intro x hx
        rw [List.flatten_append] at hx
        simp only [List.mem_append, not_or] at hx
        obtain ⟨hx1, hx2⟩ := hx
        simp only [List.flatten_cons, List.flatten_nil, List.append_nil] at hx2
        rw [setAll_getD, if_neg (fun hc => hx2 hc.1)]
        exact hM0 x hx1
      · intro CL hCL
        rcases List.mem_append.mp hCL with hCL | hCL
        · obtain ⟨j, hj1, hj2, hj3, hj4⟩ := hANS CL hCL
          exact ⟨j, hj1, by omega, hj3, hj4⟩
        · rcases List.mem_singleton.mp hCL with rfl
          exact ⟨i, hli, by omega, hilen, rfl⟩
    · rw [if_neg hmark]
      refine ih (i + 1) left ANS MARK (by omega) (by omega) hMlen hM1 hM0 ?_ hPW
      intro CL hCL
      obtain ⟨j, hj1, hj2, hj3, hj4⟩ := hANS CL hCL
      exact ⟨j, hj1, by omega, hj3, hj4⟩

/-- Claim C2: on a valid engine state (well-formed forest with consistent
subtree sizes, duplicate-free root subtrees, `ADMSTC` produced by
`queryPreparation`, marks all zero), the clusters returned by
`answerQuery gamma` are pairwise voxel-disjoint, and the representative
of every returned cluster — its last element — has
`TDP ≥ max gamma 0`. -/
theorem answerQuery_disjoint_reps_above_gamma (m : ℕ) (CHILD : List (List ℕ))
    (d : ℕ → ℕ) (ROOT : List ℕ) (SIZE MARK : List ℕ) (TDP : List ℚ)
    (ADMSTC : List ℕ) (gamma : ℚ)
    (hF : forestOK m CHILD d ROOT) (hsize : sizeRec m SIZE CHILD)
    (hA : ADMSTC = queryPreparation m ROOT TDP CHILD)
    (hM : MARK = List.replicate m 0) :
    List.Pairwise List.Disjoint (answerQuery gamma ADMSTC SIZE MARK TDP CHILD).1 ∧
    ∀ CL ∈ (answerQuery gamma ADMSTC SIZE MARK TDP CHILD).1,
      ∃ rep, CL.getLast? = some rep ∧ TDP.getD rep 0 ≥ max gamma 0 := by
  have hsorted : ∀ i j, i ≤ j → j < ADMSTC.length →
      TDP.getD (ADMSTC.getD i 0) 0 ≤ TDP.getD (ADMSTC.getD j 0) 0 := by
    intro i j hij hj
    rw [hA] at hj ⊢
    exact queryPreparation_sorted i j hij hj
  set g : ℚ := if gamma < 0 then 0 else gamma with hg_def
  have hgmax : g = max gamma 0 := by
    rw [hg_def]
    rcases lt_or_le gamma 0 with h | h
    · rw [if_pos h, max_eq_right (le_of_lt h)]
    · rw [if_neg (not_lt.mpr h), max_eq_left h]
  set left := findLeft g ADMSTC TDP with hleft_def
  have hleftle : left ≤ ADMSTC.length := findLeft_le g ADMSTC TDP
  have hrun := answerQueryLoop_good hF hsize hA (ADMSTC.length - left) left left
    [] MARK le_rfl (by omega) (by rw [hM]; simp) (by simp)
    (by intro x hx; rw [hM]; exact getD_replicate_zero m x)
    (by intro CL hCL; simp at hCL) (List.Pairwise.nil)
  have hres : (answerQuery gamma ADMSTC SIZE MARK TDP CHILD).1 =
      (answerQueryLoop ADMSTC SIZE CHILD
        (List.range' left (ADMSTC.length - left)) [] MARK).1 := rfl
  constructor
  · rw [hres]; exact hrun.1
  · intro CL hCL
    rw [hres] at hCL
    obtain ⟨j, hjl, hjlen, rfl⟩ := hrun.2 CL hCL
    set b := ADMSTC.getD j 0 with hb_def
    have hbA : b ∈ ADMSTC := by
      rw [hb_def, List.getD_eq_getElem _ _ hjlen]
      exact List.getElem_mem hjlen
    have hbm : b < m := queryPreparation_lt hF (hA ▸ hbA)
    refine ⟨b, postord_getLast hF.1 hbm, ?_⟩
    rw [← hgmax]
    exact findLeft_ge hsorted j hjl hjlen

/-- Witness for claim C2 on the two-voxel chain `CHILD = [[],[0]]`,
`SIZE = [1,2]`, `ROOT = [1]`, `TDP = [1, 1/2]`, `gamma = 1/2`. -/
theorem answerQuery_disjoint_reps_above_gamma_witness :
    forestOK 2 [[], [0]] (fun v => v) [1] ∧ sizeRec 2 [1, 2] [[], [0]] ∧
    (List.Pairwise List.Disjoint
      (answerQuery ((1 : ℚ)/2) (queryPreparation 2 [1] [1, (1 : ℚ)/2] [[], [0]])
        [1, 2] (List.replicate 2 0) [1, (1 : ℚ)/2] [[], [0]]).1 ∧
     ∀ CL ∈ (answerQuery ((1 : ℚ)/2)
        (queryPreparation 2 [1] [1, (1 : ℚ)/2] [[], [0]])
        [1, 2] (List.replicate 2 0) [1, (1 : ℚ)/2] [[], [0]]).1,
       ∃ rep, CL.getLast? = some rep ∧
         [1, (1 : ℚ)/2].getD rep 0 ≥ max ((1 : ℚ)/2) 0) :=
  ⟨by unfold forestOK goodDepth; decide, by unfold sizeRec; decide,
    answerQuery_disjoint_reps_above_gamma 2 [[], [0]] (fun v => v) [1] [1, 2]
      (List.replicate 2 0) [1, (1 : ℚ)/2] _ ((1 : ℚ)/2)
      (by unfold forestOK goodDepth; decide) (by unfold sizeRec; decide) rfl rfl⟩

/-! ### answerQueryBatch (ARICluster.cpp) -/

/-- `answerQueryBatch` from ARICluster.cpp: the body of the loop over
`gamma_batch` is verbatim the body of `answerQuery`, with the mark buffer
carried from one gamma to the next. -/
def answerQueryBatch (gamma_batch : List ℚ) (ADMSTC SIZE MARK : List ℕ)
    (TDP : List ℚ) (CHILD : List (List ℕ)) :
    List (List (List ℕ)) × List ℕ :=
  gamma_batch.foldl
    (fun acc gamma =>
      let r := answerQuery gamma ADMSTC SIZE acc.2 TDP CHILD
      (acc.1 ++ [r.1], r.2))
    ([], MARK)

/-! ### findRep, findIndex and changeQuery (ARICluster.cpp) -/

/-- The linear scan of `findRep` (ARICluster.cpp): each round of
`while (left <= right)` tests `CLUS[left]` and `CLUS[right]` against `v`
and moves both pointers inward.  The pointers advance by one each per
round, so fuel `CLUS.length + 1` dominates the round count. -/
def findRepScan (CLUS : List ℕ) (v : ℕ) : ℕ → ℤ → ℤ → Bool
  | 0, _, _ => false
  | fuel + 1, left, right =>
    if left ≤ right then
      if CLUS.getD left.toNat 0 = v then true
      else if CLUS.getD right.toNat 0 = v then true
      else findRepScan CLUS v fuel (left + 1) (right - 1)
    else false

/-- The cluster loop of `findRep` (ARICluster.cpp), carrying the running
index `i`: a cluster is reported when its representative (its last entry)
is `v`, or when the representative has a larger subtree than `v` and the
linear scan finds `v` inside the cluster. -/
def findRepGo (v : ℕ) (SIZE : List ℕ) : List (List ℕ) → ℕ → ℤ
  | [], _ => -1
  | CLUS :: rest, i =>
    if CLUS.getD (CLUS.length - 1) 0 = v then (i : ℤ)
    else if SIZE.getD v 0 < SIZE.getD (CLUS.getD (CLUS.length - 1) 0) 0 then
      if findRepScan CLUS v (CLUS.length + 1) 0 ((CLUS.length : ℤ) - 1) then (i : ℤ)
      else findRepGo v SIZE rest (i + 1)
    else findRepGo v SIZE rest (i + 1)

/-- `findRep` from ARICluster.cpp: index of the cluster of `ANS`
containing voxel `v`, or `-1` when no cluster contains it. -/
def findRep (v : ℕ) (SIZE : List ℕ) (ANS : List (List ℕ)) : ℤ :=
  findRepGo v SIZE ANS 0

/-- The search loop of `findIndex` (ARICluster.cpp): a binary search on
`TDP[ADMSTC[mid]]` interleaved with a linear scan of `ADMSTC[right]` and
`ADMSTC[left]`.  The C++ tests `>` then `<` and otherwise returns `mid`;
here the equal case is tested first, which is the same by trichotomy.
The window `high - low` shrinks every round, so fuel `ADMSTC.length + 1`
dominates the round count. -/
def findIndexLoop (ADMSTC : List ℕ) (TDP : List ℚ) (irep : ℕ) :
    ℕ → ℤ → ℤ → ℤ → ℤ → ℤ
  | 0, _, _, _, _ => -1
  | fuel + 1, low, high, left, right =>
    if low ≤ high then
      if TDP.getD (ADMSTC.getD (((low + high) / 2).toNat) 0) 0 = TDP.getD irep 0 then
        (low + high) / 2
      else if ADMSTC.getD right.toNat 0 = irep then right
      else if ADMSTC.getD left.toNat 0 = irep then left
      else if TDP.getD irep 0 < TDP.getD (ADMSTC.getD (((low + high) / 2).toNat) 0) 0 then
        findIndexLoop ADMSTC TDP irep fuel low ((low + high) / 2 - 1) (left + 1) (right - 1)
      else
        findIndexLoop ADMSTC TDP irep fuel ((low + high) / 2 + 1) high (left + 1) (right - 1)
    else -1

/-- `findIndex` from ARICluster.cpp: position of the admissible vertex
`irep` inside `ADMSTC`, found through `TDP` values, or `-1`. -/
def findIndex (irep : ℕ) (ADMSTC : List ℕ) (TDP : List ℚ) : ℤ :=
  findIndexLoop ADMSTC TDP irep (ADMSTC.length + 1) 0 ((ADMSTC.length : ℤ) - 1) 0
    ((ADMSTC.length : ℤ) - 1)

/-- The cluster of `ANS` selected by `findRep` for voxel `v`
(`CLUS = ANS[iclus]` in `changeQuery`). -/
def clusOf (v : ℤ) (SIZE : List ℕ) (ANS : List (List ℕ)) : List ℕ :=
  ANS.getD (findRep v.toNat SIZE ANS).toNat []

/-- The representative of a cluster: its last entry
(`CLUS[CLUS.size() - 1]` in ARICluster.cpp). -/
def repOf (CL : List ℕ) : ℕ := CL.getD (CL.length - 1) 0

/-- The comparison `dfsz >= CL.size()` of `changeQuery` (ARICluster.cpp):
`dfsz` is an `int` and `CL.size()` a `size_t`, so the usual arithmetic
conversions turn a negative `dfsz` into a huge unsigned value and the
comparison holds. -/
def dfszGe (dfsz : ℤ) (csize : ℕ) : Bool :=
  decide (dfsz < 0 ∨ (csize : ℤ) ≤ dfsz)

/-- The loop guard `r - l >= CL.size() - 1` of the containment scan in
`changeQuery` (ARICluster.cpp), for nonempty `CL`: `r - l` is an `int`
converted to `size_t` by the usual arithmetic conversions, so a negative
`r - l` passes the guard.  (For an empty `CL`, `CL.size() - 1` wraps to
the largest `size_t`; the engine never stores empty clusters.) -/
def containGuard (l r : ℤ) (csize : ℕ) : Bool :=
  decide (r - l < 0 ∨ (csize : ℤ) - 1 ≤ r - l)

/-- The containment scan of the grow branch of `changeQuery`
(ARICluster.cpp): walk `l` up and `r` down over `DESC`, stopping with
result `true` when a voxel marked 2 is seen at `DESC[l]` or `DESC[r]`.
The final pointers are returned because the code inspects them after the
loop.  The C++ loop has no fuel: as `containGuard` holds for every
negative `r - l`, the loop exits only through its `break`, and when no
break fires it keeps running; with fuel the embedded scan instead stops
after `fuel` rounds at the current pointers. -/
def containScan (MARK DESC : List ℕ) (csize : ℕ) : ℕ → ℤ → ℤ → Bool × ℤ × ℤ
  | 0, l, r => (false, l, r)
  | fuel + 1, l, r =>
    if containGuard l r csize then
      if MARK.getD (DESC.getD l.toNat 0) 0 = 2 ∨ MARK.getD (DESC.getD r.toNat 0) 0 = 2 then
        (true, l, r)
      else containScan MARK DESC csize fuel (l + 1) (r - 1)
    else (false, l, r)

/-- The intersection scan of the grow branch of `changeQuery`
(ARICluster.cpp): `while (left <= right)`, report `true` when
`MARK[DESC[left]] > 0 || MARK[DESC[right]] > 0`.  Fuel
`DESC.length + 1` dominates the round count. -/
def hitScan (MARK DESC : List ℕ) : ℕ → ℤ → ℤ → Bool
  | 0, _, _ => false
  | fuel + 1, l, r =>
    if l ≤ r then
      if 0 < MARK.getD (DESC.getD l.toNat 0) 0 ∨ 0 < MARK.getD (DESC.getD r.toNat 0) 0 then
        true
      else hitScan MARK DESC fuel (l + 1) (r - 1)
    else false

/-- The `for (j = 0; j < ANS.size(); j++)` loop inside the grow branch of
`changeQuery` (ARICluster.cpp): each cluster other than the chosen one is
either detected inside `DESC` (marked 2, scanned, unmarked) or appended
to the output.  State: remaining clusters, running index `j`, running
`dfsz`, mark buffer, output list. -/
def growAppendLoop (DESC : List ℕ) (iclus : ℤ) :
    List (List ℕ) → ℕ → ℤ → List ℕ → List (List ℕ) → List (List ℕ) × ℤ × List ℕ
  | [], _, dfsz, MARK, CHG => (CHG, dfsz, MARK)
  | CL :: rest, j, dfsz, MARK, CHG =>
    if (j : ℤ) = iclus then growAppendLoop DESC iclus rest (j + 1) dfsz MARK CHG
    else if dfszGe dfsz CL.length then
      growAppendLoop DESC iclus rest (j + 1)
        (if (containScan (setAll MARK CL 2) DESC CL.length (DESC.length + 1) 0
              ((DESC.length : ℤ) - 1)).1
         then dfsz - CL.length else dfsz)
        (setAll (setAll MARK CL 2) CL 0)
        (if ((DESC.length : ℤ) - 1 <
                (containScan (setAll MARK CL 2) DESC CL.length (DESC.length + 1) 0
                  ((DESC.length : ℤ) - 1)).2.1 ∨
              (containScan (setAll MARK CL 2) DESC CL.length (DESC.length + 1) 0
                  ((DESC.length : ℤ) - 1)).2.2 < 0) ∨
             ((setAll MARK CL 2).getD
                (DESC.getD (containScan (setAll MARK CL 2) DESC CL.length
                  (DESC.length + 1) 0 ((DESC.length : ℤ) - 1)).2.1.toNat 0) 0 ≠ 2 ∧
              (setAll MARK CL 2).getD
                (DESC.getD (containScan (setAll MARK CL 2) DESC CL.length
                  (DESC.length + 1) 0 ((DESC.length : ℤ) - 1)).2.2.toNat 0) 0 ≠ 2)
         then CHG ++ [CL] else CHG)
    else growAppendLoop DESC iclus rest (j + 1) dfsz MARK (CHG ++ [CL])

/-- The candidate loop of the grow branch of `changeQuery`
(ARICluster.cpp), over `i = idxv - 1 .. 0`: a candidate with nonnegative
TDP, enough TDP decrease and a larger subtree is expanded to its
descendants; when those intersect the marked cluster, the output is
assembled and the loop stops (`some`), otherwise the scan continues.
The mark buffer is returned alongside. -/
def growScan (ADMSTC SIZE : List ℕ) (TDP : List ℚ) (CHILD : List (List ℕ))
    (CLUS : List ℕ) (ANS : List (List ℕ)) (iclus : ℤ) (idxv : ℕ) (tdpchg : ℚ) :
    List ℕ → List ℕ → Option (List (List ℕ)) × List ℕ
  | [], MARK => (none, MARK)
  | i :: rest, MARK =>
    if 0 ≤ TDP.getD (ADMSTC.getD i 0) 0 ∧
        TDP.getD (ADMSTC.getD i 0) 0 - TDP.getD (ADMSTC.getD idxv 0) 0 ≤ tdpchg ∧
        SIZE.getD (ADMSTC.getD idxv 0) 0 < SIZE.getD (ADMSTC.getD i 0) 0 then
      if hitScan MARK (descendants (ADMSTC.getD i 0) SIZE CHILD)
          ((descendants (ADMSTC.getD i 0) SIZE CHILD).length + 1) 0
          (((descendants (ADMSTC.getD i 0) SIZE CHILD).length : ℤ) - 1) then
        (some (growAppendLoop (descendants (ADMSTC.getD i 0) SIZE CHILD) iclus ANS 0
            (((descendants (ADMSTC.getD i 0) SIZE CHILD).length : ℤ) - (CLUS.length : ℤ))
            MARK [descendants (ADMSTC.getD i 0) SIZE CHILD]).1,
          (growAppendLoop (descendants (ADMSTC.getD i 0) SIZE CHILD) iclus ANS 0
            (((descendants (ADMSTC.getD i 0) SIZE CHILD).length : ℤ) - (CLUS.length : ℤ))
            MARK [descendants (ADMSTC.getD i 0) SIZE CHILD]).2.2)
      else growScan ADMSTC SIZE TDP CHILD CLUS ANS iclus idxv tdpchg rest MARK
    else growScan ADMSTC SIZE TDP CHILD CLUS ANS iclus idxv tdpchg rest MARK

/-- The shrink branch loop of `changeQuery` (ARICluster.cpp), over
`i = idxv + 1 .. |ADMSTC| - 1`: an admissible vertex with nonnegative
TDP, enough TDP increase and mark 1 contributes its descendants to the
output and marks them 2. -/
def shrinkScan (ADMSTC SIZE : List ℕ) (TDP : List ℚ) (CHILD : List (List ℕ))
    (idxv : ℕ) (tdpchg : ℚ) :
    List ℕ → List ℕ → List (List ℕ) → List (List ℕ) × List ℕ
  | [], MARK, CHG => (CHG, MARK)
  | i :: rest, MARK, CHG =>
    if 0 ≤ TDP.getD (ADMSTC.getD i 0) 0 ∧
        tdpchg ≤ TDP.getD (ADMSTC.getD i 0) 0 - TDP.getD (ADMSTC.getD idxv 0) 0 ∧
        MARK.getD (ADMSTC.getD i 0) 0 = 1 then
      shrinkScan ADMSTC SIZE TDP CHILD idxv tdpchg rest
        (setAll MARK (descendants (ADMSTC.getD i 0) SIZE CHILD) 2)
        (CHG ++ [descendants (ADMSTC.getD i 0) SIZE CHILD])
    else shrinkScan ADMSTC SIZE TDP CHILD idxv tdpchg rest MARK CHG

/-- The final `for (j = 0; j < ANS.size(); j++) if (j != iclus)
CHG.push_back(ANS[j])` loop of `changeQuery` (ARICluster.cpp). -/
def othersLoop (iclus : ℤ) : List (List ℕ) → ℕ → List (List ℕ)
  | [], _ => []
  | CL :: rest, j =>
    if (j : ℤ) = iclus then othersLoop iclus rest (j + 1)
    else CL :: othersLoop iclus rest (j + 1)

/-- The grow branch of `changeQuery` after validation: mark the chosen
cluster, scan the candidates below `idxv`, and on success return the
assembled output and the mark state after the inner cluster loop. -/
def growPhase (v : ℤ) (tdpchg : ℚ) (ADMSTC SIZE MARK : List ℕ) (TDP : List ℚ)
    (CHILD : List (List ℕ)) (ANS : List (List ℕ)) :
    Option (List (List ℕ)) × List ℕ :=
  growScan ADMSTC SIZE TDP CHILD (clusOf v SIZE ANS) ANS (findRep v.toNat SIZE ANS)
    (findIndex (repOf (clusOf v SIZE ANS)) ADMSTC TDP).toNat tdpchg
    (List.range (findIndex (repOf (clusOf v SIZE ANS)) ADMSTC TDP).toNat).reverse
    (setAll MARK (clusOf v SIZE ANS) 1)

/-- The shrink branch of `changeQuery` after validation: mark the chosen
cluster and scan the admissible vertices above `idxv`. -/
def shrinkPhase (v : ℤ) (tdpchg : ℚ) (ADMSTC SIZE MARK : List ℕ) (TDP : List ℚ)
    (CHILD : List (List ℕ)) (ANS : List (List ℕ)) :
    List (List ℕ) × List ℕ :=
  shrinkScan ADMSTC SIZE TDP CHILD
    (findIndex (repOf (clusOf v SIZE ANS)) ADMSTC TDP).toNat tdpchg
    (List.range' ((findIndex (repOf (clusOf v SIZE ANS)) ADMSTC TDP).toNat + 1)
      (ADMSTC.length - ((findIndex (repOf (clusOf v SIZE ANS)) ADMSTC TDP).toNat + 1)))
    (setAll MARK (clusOf v SIZE ANS) 1) []

/-- `changeQuery` from ARICluster.cpp.  A C++ `throw` is modelled as an
`Except.error` carrying the message; the mark buffer (mutated in place by
the C++) is returned as the second component.  All validations happen
before any mark is written, in the order of the source: `v < 0`, no
cluster found, representative not in `ADMSTC`, `tdpchg` out of range,
no further change attainable, reduction or augmentation out of reach.
After marking the chosen cluster, the grow branch either assembles an
output inside its candidate loop or falls through with an empty output;
both ends, like the shrink branch, clear the chosen cluster last. -/
def changeQuery (v : ℤ) (tdpchg : ℚ) (ADMSTC SIZE MARK : List ℕ) (TDP : List ℚ)
    (CHILD : List (List ℕ)) (ANS : List (List ℕ)) :
    Except String (List (List ℕ)) × List ℕ :=
  if v < 0 then (Except.error "v should be non-negative", MARK)
  else if findRep v.toNat SIZE ANS < 0 then
    (Except.error "No cluster can be specified with v", MARK)
  else if findIndex (repOf (clusOf v SIZE ANS)) ADMSTC TDP < 0 then
    (Except.error "The chosen cluster cannot be found in ADMSTC", MARK)
  else if tdpchg ≤ -1 ∨ tdpchg = 0 ∨ 1 ≤ tdpchg then
    (Except.error "tdpchg must be non-zero & within (-1,1)", MARK)
  else if (tdpchg < 0 ∧
        TDP.getD (ADMSTC.getD 0 0) 0 = TDP.getD (repOf (clusOf v SIZE ANS)) 0) ∨
      (0 < tdpchg ∧
        TDP.getD (ADMSTC.getD (ADMSTC.length - 1) 0) 0 =
          TDP.getD (repOf (clusOf v SIZE ANS)) 0) then
    (Except.error "No further changes can be attained", MARK)
  else if tdpchg < 0 ∧
      tdpchg < TDP.getD (ADMSTC.getD 0 0) 0 - TDP.getD (repOf (clusOf v SIZE ANS)) 0 then
    (Except.error "A further TDP reduction cannot be achieved", MARK)
  else if 0 < tdpchg ∧
      TDP.getD (ADMSTC.getD (ADMSTC.length - 1) 0) 0 -
        TDP.getD (repOf (clusOf v SIZE ANS)) 0 < tdpchg then
    (Except.error "A further TDP augmentation cannot be achieved", MARK)
  else if tdpchg < 0 then
    (Except.ok ((growPhase v tdpchg ADMSTC SIZE MARK TDP CHILD ANS).1.getD []),
      setAll (growPhase v tdpchg ADMSTC SIZE MARK TDP CHILD ANS).2 (clusOf v SIZE ANS) 0)
  else
    (Except.ok ((shrinkPhase v tdpchg ADMSTC SIZE MARK TDP CHILD ANS).1 ++
        othersLoop (findRep v.toNat SIZE ANS) ANS 0),
      setAll (shrinkPhase v tdpchg ADMSTC SIZE MARK TDP CHILD ANS).2 (clusOf v SIZE ANS) 0)

/-! ### UnionBySize (ARICluster.cpp) -/

/-- `UnionBySize` from ARICluster.cpp: union by size over the components
of a forest.  The representatives come from the path-compressing `Find`
(the linked implementation is the one of hommel_zero_based.cpp); the
union links the representative whose forest root stores the smaller size
under the other, keeps the forest root of the side of `i` in both
branches (the `FORESTROOT` of the surviving representative is `iroot`
either way), and accumulates the sizes at `iroot`.
Result: `(PARENT, FORESTROOT, SIZE)`. -/
def UnionBySize (i j : ℕ) (PARENT FORESTROOT SIZE : List ℕ) :
    List ℕ × List ℕ × List ℕ :=
  let fi := Find (PARENT.length + 1) i PARENT
  let fj := Find (fi.2.length + 1) j fi.2
  if fi.1 = fj.1 then (fj.2, FORESTROOT, SIZE)
  else
    if SIZE.getD (FORESTROOT.getD fi.1 0) 0 < SIZE.getD (FORESTROOT.getD fj.1 0) 0 then
      (fj.2.set fi.1 fj.1, FORESTROOT.set fj.1 (FORESTROOT.getD fi.1 0),
        SIZE.set (FORESTROOT.getD fi.1 0)
          (SIZE.getD (FORESTROOT.getD fi.1 0) 0 + SIZE.getD (FORESTROOT.getD fj.1 0) 0))
    else
      (fj.2.set fj.1 fi.1, FORESTROOT,
        SIZE.set (FORESTROOT.getD fi.1 0)
          (SIZE.getD (FORESTROOT.getD fi.1 0) 0 + SIZE.getD (FORESTROOT.getD fj.1 0) 0))

/-- Claim C10, counterexample: with `PARENT = [0,1]`, `FORESTROOT = [0,1]`,
`SIZE = [1,2]`, the components of `i = 0` and `j = 1` are distinct and the
side of `j` stores the larger size, yet after `UnionBySize 0 1` the merged
forest root, read at the surviving representative `1`, is `0` — the forest
root of the side of `i`, not of the larger side as the claim requires. -/
theorem UnionBySize_larger_side_counterexample :
    (Find 3 0 [0, 1]).1 = 0 ∧ (Find 3 1 [0, 1]).1 = 1 ∧
    [1, 2].getD ([0, 1].getD 0 0) 0 < [1, 2].getD ([0, 1].getD 1 0) 0 ∧
    UnionBySize 0 1 [0, 1] [0, 1] [1, 2] = ([1, 1], [0, 0], [3, 2]) ∧
    (UnionBySize 0 1 [0, 1] [0, 1] [1, 2]).1.getD 1 0 = 1 ∧
    (UnionBySize 0 1 [0, 1] [0, 1] [1, 2]).2.1.getD 1 0 = 0 := by
  decide

/-- Claim C10, amended: when the two `Find` calls of `UnionBySize i j`
return distinct representatives `irep` and `jrep` (both roots of the
compressed parent list `P2`), the representative whose forest root stores
the smaller size is linked under the other (a tie keeps the side of `i`),
the surviving representative stays a root, the merged forest root stored
at the surviving representative is always `FORESTROOT[irep]` — the forest
root of the side of `i`, whichever side is larger — and the sizes of the
two sides accumulate at that forest root. -/
theorem UnionBySize_merges_with_i_forestroot
    (PARENT FORESTROOT SIZE : List ℕ) (i j irep jrep : ℕ) (P2 : List ℕ)
    (hfi : (Find (PARENT.length + 1) i PARENT).1 = irep)
    (hfj : Find ((Find (PARENT.length + 1) i PARENT).2.length + 1) j
      (Find (PARENT.length + 1) i PARENT).2 = (jrep, P2))
    (hne : irep ≠ jrep)
    (hiP : irep < P2.length) (hjP : jrep < P2.length)
    (hjF : jrep < FORESTROOT.length)
    (hiS : FORESTROOT.getD irep 0 < SIZE.length)
    (hirt : P2.getD irep 0 = irep) (hjrt : P2.getD jrep 0 = jrep) :
    (SIZE.getD (FORESTROOT.getD irep 0) 0 < SIZE.getD (FORESTROOT.getD jrep 0) 0 →
      (UnionBySize i j PARENT FORESTROOT SIZE).1.getD irep 0 = jrep ∧
      (UnionBySize i j PARENT FORESTROOT SIZE).1.getD jrep 0 = jrep ∧
      (UnionBySize i j PARENT FORESTROOT SIZE).2.1.getD jrep 0 =
        FORESTROOT.getD irep 0) ∧
    (¬ SIZE.getD (FORESTROOT.getD irep 0) 0 < SIZE.getD (FORESTROOT.getD jrep 0) 0 →
      (UnionBySize i j PARENT FORESTROOT SIZE).1.getD jrep 0 = irep ∧
      (UnionBySize i j PARENT FORESTROOT SIZE).1.getD irep 0 = irep ∧
      (UnionBySize i j PARENT FORESTROOT SIZE).2.1.getD irep 0 =
        FORESTROOT.getD irep 0) ∧
    (UnionBySize i j PARENT FORESTROOT SIZE).2.2.getD (FORESTROOT.getD irep 0) 0 =
      SIZE.getD (FORESTROOT.getD irep 0) 0 + SIZE.getD (FORESTROOT.getD jrep 0) 0 := by
  have hU : UnionBySize i j PARENT FORESTROOT SIZE =
      if SIZE.getD (FORESTROOT.getD irep 0) 0 < SIZE.getD (FORESTROOT.getD jrep 0) 0 then
        (P2.set irep jrep, FORESTROOT.set jrep (FORESTROOT.getD irep 0),
          SIZE.set (FORESTROOT.getD irep 0)
            (SIZE.getD (FORESTROOT.getD irep 0) 0 + SIZE.getD (FORESTROOT.getD jrep 0) 0))
      else
        (P2.set jrep irep, FORESTROOT,
          SIZE.set (FORESTROOT.getD irep 0)
            (SIZE.getD (FORESTROOT.getD irep 0) 0 + SIZE.getD (FORESTROOT.getD jrep 0) 0)) := by
    simp only [UnionBySize]
    rw [hfj, hfi]
    simp only [if_neg hne]
  rw [hU]
  by_cases hA : SIZE.getD (FORESTROOT.getD irep 0) 0 < SIZE.getD (FORESTROOT.getD jrep 0) 0
  · rw [if_pos hA]
    refine ⟨fun _ => ⟨?_, ?_, ?_⟩, fun hc => absurd hA hc, ?_⟩
    · exact getD_set_self P2 irep jrep hiP
    · rw [getD_set_ne P2 irep jrep jrep hne]; exact hjrt
    · exact getD_set_self FORESTROOT jrep (FORESTROOT.getD irep 0) hjF
    · exact getD_set_self SIZE (FORESTROOT.getD irep 0) _ hiS
  · rw [if_neg hA]
    refine ⟨fun hc => absurd hc hA, fun _ => ⟨?_, ?_, rfl⟩, ?_⟩
    · exact getD_set_self P2 jrep irep hjP
    · rw [getD_set_ne P2 jrep irep irep (fun h => hne h.symm)]; exact hirt
    · exact getD_set_self SIZE (FORESTROOT.getD irep 0) _ hiS

/-- Witness for the amended claim C10 on `PARENT = [0,1]`,
`FORESTROOT = [0,1]`, `SIZE = [1,2]`, `i = 0`, `j = 1`: the side of `j`
is larger, `0` is linked under `1`, and the merged forest root at `1` is
`0`, the forest root of the side of `i`. -/
theorem UnionBySize_merges_with_i_forestroot_witness :
    (UnionBySize 0 1 [0, 1] [0, 1] [1, 2]).1.getD 0 0 = 1 ∧
    (UnionBySize 0 1 [0, 1] [0, 1] [1, 2]).1.getD 1 0 = 1 ∧
    (UnionBySize 0 1 [0, 1] [0, 1] [1, 2]).2.1.getD 1 0 = [0, 1].getD 0 0 :=
  (UnionBySize_merges_with_i_forestroot [0, 1] [0, 1] [1, 2] 0 1 0 1 [0, 1]
    rfl rfl (by decide) (by decide) (by decide) (by decide) (by decide)
    (by decide) (by decide)).1 (by decide)

/-! ### findClusters (ARICluster_zeroBased.cpp, and the same loop in
ARICluster.cpp with one-based inputs shifted down on entry) -/

/-- The neighbour loop of `findClusters`: for each neighbour `u` of `v`
with `RANK[u] < i + 1`, find the root of the component of `u`, read its
forest root `w`, and when `w` differs from `v`, merge and place `w` in
the child list with the heavy child in front.  State:
`(PARENT, FORESTROOT, SIZE, CHD)`. -/
def fcInner (v : ℕ) (RANK : List ℕ) (i : ℕ) :
    List ℕ → List ℕ × List ℕ × List ℕ × List ℕ → List ℕ × List ℕ × List ℕ × List ℕ
  | [], st => st
  | u :: rest, (PARENT, FORESTROOT, SIZE, CHD) =>
    if RANK.getD u 0 < i + 1 then
      let f := Find (PARENT.length + 1) u PARENT
      if v ≠ FORESTROOT.getD f.1 0 then
        let ub := UnionBySize v f.1 f.2 FORESTROOT SIZE
        fcInner v RANK i rest
          (ub.1, ub.2.1, ub.2.2,
            if CHD = [] ∨
                ub.2.2.getD (FORESTROOT.getD f.1 0) 0 ≤ ub.2.2.getD (CHD.headD 0) 0 then
              CHD ++ [FORESTROOT.getD f.1 0]
            else FORESTROOT.getD f.1 0 :: CHD)
      else fcInner v RANK i rest (f.2, FORESTROOT, SIZE, CHD)
    else fcInner v RANK i rest (PARENT, FORESTROOT, SIZE, CHD)

/-- The outer loop of `findClusters` over `i = 0 .. m-1`: process
`v = ORD[i]`, run the neighbour loop with an empty child list, and store
the collected child list at `v`.  State:
`(PARENT, FORESTROOT, SIZE, CHILD)`. -/
def fcOuter (ADJ : List (List ℕ)) (ORD RANK : List ℕ) :
    List ℕ → List ℕ × List ℕ × List ℕ × List (List ℕ) →
      List ℕ × List ℕ × List ℕ × List (List ℕ)
  | [], st => st
  | i :: rest, (PARENT, FORESTROOT, SIZE, CHILD) =>
    fcOuter ADJ ORD RANK rest
      ((fcInner (ORD.getD i 0) RANK i (ADJ.getD (ORD.getD i 0) [])
          (PARENT, FORESTROOT, SIZE, [])).1,
        (fcInner (ORD.getD i 0) RANK i (ADJ.getD (ORD.getD i 0) [])
          (PARENT, FORESTROOT, SIZE, [])).2.1,
        (fcInner (ORD.getD i 0) RANK i (ADJ.getD (ORD.getD i 0) [])
          (PARENT, FORESTROOT, SIZE, [])).2.2.1,
        CHILD.set (ORD.getD i 0)
          (fcInner (ORD.getD i 0) RANK i (ADJ.getD (ORD.getD i 0) [])
            (PARENT, FORESTROOT, SIZE, [])).2.2.2)

/-- The root collection loop of `findClusters`: for each `i < m` with
`PARENT[i] = i`, report `FORESTROOT[i]`. -/
def rootsOf (PARENT FORESTROOT : List ℕ) (m : ℕ) : List ℕ :=
  (List.range m).filterMap
    (fun i => if PARENT.getD i 0 = i then some (FORESTROOT.getD i 0) else none)

/-- `findClusters` from ARICluster_zeroBased.cpp (the variant in
ARICluster.cpp is the same loop run on inputs shifted down by one).
Result: `(SIZE, ROOT, CHILD)`, the three slices of the returned vector. -/
def findClusters (m : ℕ) (ADJ : List (List ℕ)) (ORD RANK : List ℕ) :
    List ℕ × List ℕ × List (List ℕ) :=
  ((fcOuter ADJ ORD RANK (List.range m)
      (List.range m, List.range m, List.replicate m 1, List.replicate m [])).2.2.1,
    rootsOf
      (fcOuter ADJ ORD RANK (List.range m)
        (List.range m, List.range m, List.replicate m 1, List.replicate m [])).1
      (fcOuter ADJ ORD RANK (List.range m)
        (List.range m, List.range m, List.replicate m 1, List.replicate m [])).2.1
      m,
    (fcOuter ADJ ORD RANK (List.range m)
      (List.range m, List.range m, List.replicate m 1, List.replicate m [])).2.2.2)

/-! ### Mark-buffer restoration (claim C6) -/

lemma clearFold_length (L : List (List ℕ)) : ∀ MK : List ℕ,
    (L.foldl (fun MK CL => setAll MK CL 0) MK).length = MK.length := by
  induction L with
  | nil => intro MK; rfl
  | cons CL L ih =>
    intro MK
    rw [List.foldl_cons, ih, setAll_length]

lemma clearFold_getD (L : List (List ℕ)) : ∀ (MK : List ℕ) (x : ℕ),
    (L.foldl (fun MK CL => setAll MK CL 0) MK).getD x 0 =
      if x ∈ L.flatten ∧ x < MK.length then 0 else MK.getD x 0 := by
  induction L with
  | nil => intro MK x; simp
  | cons CL L ih =>
    intro MK x
    rw [List.foldl_cons, ih, setAll_length, setAll_getD]
    by_cases hx : x < MK.length
    · by_cases hL : x ∈ L.flatten
      · simp [List.flatten_cons, hL, hx]
      · by_cases hC : x ∈ CL
        · simp [List.flatten_cons, hL, hC, hx]
        · simp [List.flatten_cons, hL, hC, hx]
    · simp [hx]

lemma answerQueryLoop_length (ADMSTC SIZE : List ℕ) (CHILD : List (List ℕ)) :
    ∀ (js : List ℕ) (ANS : List (List ℕ)) (MARK : List ℕ),
      (answerQueryLoop ADMSTC SIZE CHILD js ANS MARK).2.length = MARK.length := by
  intro js
  induction js with
  | nil => intro ANS MARK; rfl
  | cons i rest ih =>
    intro ANS MARK
    rw [answerQueryLoop_cons]
    by_cases h : MARK.getD (ADMSTC.getD i 0) 0 = 0
    · rw [if_pos h, ih, setAll_length]
    · rw [if_neg h]; exact ih ANS MARK

lemma answerQueryLoop_ans_prefix (ADMSTC SIZE : List ℕ) (CHILD : List (List ℕ)) :
    ∀ (js : List ℕ) (ANS : List (List ℕ)) (MARK : List ℕ),
      ∃ suf, (answerQueryLoop ADMSTC SIZE CHILD js ANS MARK).1 = ANS ++ suf := by
  intro js
  induction js with
  | nil => intro ANS MARK; exact ⟨[], by rw [answerQueryLoop_nil, List.append_nil]⟩
  | cons i rest ih =>
    intro ANS MARK
    rw [answerQueryLoop_cons]
    by_cases h : MARK.getD (ADMSTC.getD i 0) 0 = 0
    · rw [if_pos h]
      obtain ⟨suf, hs⟩ := ih (ANS ++ [descendants (ADMSTC.getD i 0) SIZE CHILD])
        (setAll MARK (descendants (ADMSTC.getD i 0) SIZE CHILD) 1)
      exact ⟨descendants (ADMSTC.getD i 0) SIZE CHILD :: suf,
        by rw [hs, List.append_assoc]; rfl⟩
    · rw [if_neg h]; exact ih ANS MARK

lemma answerQueryLoop_marks (ADMSTC SIZE : List ℕ) (CHILD : List (List ℕ)) :
    ∀ (js : List ℕ) (ANS : List (List ℕ)) (MARK : List ℕ) (x : ℕ),
      (answerQueryLoop ADMSTC SIZE CHILD js ANS MARK).2.getD x 0 ≠ MARK.getD x 0 →
        x ∈ (answerQueryLoop ADMSTC SIZE CHILD js ANS MARK).1.flatten := by
  intro js
  induction js with
  | nil => intro ANS MARK x hx; exact absurd rfl hx
  | cons i rest ih =>
    intro ANS MARK x hx
    rw [answerQueryLoop_cons] at hx ⊢
    by_cases h : MARK.getD (ADMSTC.getD i 0) 0 = 0
    · rw [if_pos h] at hx ⊢
      by_cases he : (answerQueryLoop ADMSTC SIZE CHILD rest
            (ANS ++ [descendants (ADMSTC.getD i 0) SIZE CHILD])
            (setAll MARK (descendants (ADMSTC.getD i 0) SIZE CHILD) 1)).2.getD x 0 =
          (setAll MARK (descendants (ADMSTC.getD i 0) SIZE CHILD) 1).getD x 0
      · rw [he, setAll_getD] at hx
        by_cases hm : x ∈ descendants (ADMSTC.getD i 0) SIZE CHILD ∧ x < MARK.length
        · obtain ⟨suf, hs⟩ := answerQueryLoop_ans_prefix ADMSTC SIZE CHILD rest
            (ANS ++ [descendants (ADMSTC.getD i 0) SIZE CHILD])
            (setAll MARK (descendants (ADMSTC.getD i 0) SIZE CHILD) 1)
          rw [hs]
          exact List.mem_flatten.mpr ⟨descendants (ADMSTC.getD i 0) SIZE CHILD,
            by simp, hm.1⟩
        · rw [if_neg hm] at hx; exact absurd rfl hx
      · exact ih _ _ x he
    · rw [if_neg h] at hx ⊢
      exact ih ANS MARK x hx

/-- `answerQuery` hands back an all-zero mark buffer when it received
one: the clearing loop zeroes every voxel of the emitted clusters, and
the emission loop changed no other mark. -/
lemma answerQuery_restores (m : ℕ) (gamma : ℚ) (ADMSTC SIZE : List ℕ)
    (TDP : List ℚ) (CHILD : List (List ℕ)) :
    (answerQuery gamma ADMSTC SIZE (List.replicate m 0) TDP CHILD).2 =
      List.replicate m 0 := by
  have h2 : (answerQuery gamma ADMSTC SIZE (List.replicate m 0) TDP CHILD).2 =
      (answerQueryLoop ADMSTC SIZE CHILD
          (List.range' (findLeft (if gamma < 0 then 0 else gamma) ADMSTC TDP)
            (ADMSTC.length - findLeft (if gamma < 0 then 0 else gamma) ADMSTC TDP))
          [] (List.replicate m 0)).1.foldl (fun MK CL => setAll MK CL 0)
        (answerQueryLoop ADMSTC SIZE CHILD
          (List.range' (findLeft (if gamma < 0 then 0 else gamma) ADMSTC TDP)
            (ADMSTC.length - findLeft (if gamma < 0 then 0 else gamma) ADMSTC TDP))
          [] (List.replicate m 0)).2 := rfl
  rw [h2]
  apply eq_replicate_zero_of_getD
  · rw [clearFold_length, answerQueryLoop_length, List.length_replicate]
  · intro x hx
    rw [clearFold_getD]
    by_cases hm : x ∈ (answerQueryLoop ADMSTC SIZE CHILD
          (List.range' (findLeft (if gamma < 0 then 0 else gamma) ADMSTC TDP)
            (ADMSTC.length - findLeft (if gamma < 0 then 0 else gamma) ADMSTC TDP))
          [] (List.replicate m 0)).1.flatten ∧
        x < (answerQueryLoop ADMSTC SIZE CHILD
          (List.range' (findLeft (if gamma < 0 then 0 else gamma) ADMSTC TDP)
            (ADMSTC.length - findLeft (if gamma < 0 then 0 else gamma) ADMSTC TDP))
          [] (List.replicate m 0)).2.length
    · rw [if_pos hm]
    · rw [if_neg hm]
      by_cases he : (answerQueryLoop ADMSTC SIZE CHILD
            (List.range' (findLeft (if gamma < 0 then 0 else gamma) ADMSTC TDP)
              (ADMSTC.length - findLeft (if gamma < 0 then 0 else gamma) ADMSTC TDP))
            [] (List.replicate m 0)).2.getD x 0 = (List.replicate m (0 : ℕ)).getD x 0
      · rw [he]; exact getD_replicate_zero m x
      · exact absurd ⟨answerQueryLoop_marks ADMSTC SIZE CHILD _ _ _ x he,
          by rw [answerQueryLoop_length, List.length_replicate]; omega⟩ hm

lemma answerQueryBatch_restores (m : ℕ) (gb : List ℚ) (ADMSTC SIZE : List ℕ)
    (TDP : List ℚ) (CHILD : List (List ℕ)) :
    (answerQueryBatch gb ADMSTC SIZE (List.replicate m 0) TDP CHILD).2 =
      List.replicate m 0 := by
  suffices h : ∀ acc : List (List (List ℕ)),
      (List.foldl (fun acc gamma =>
          let r := answerQuery gamma ADMSTC SIZE acc.2 TDP CHILD
          (acc.1 ++ [r.1], r.2)) (acc, List.replicate m 0) gb).2 =
        List.replicate m 0 by
    exact h []
  induction gb with
  | nil => intro acc; rfl
  | cons g rest ih =>
    intro acc
    rw [List.foldl_cons]
    show (List.foldl (fun acc gamma =>
        let r := answerQuery gamma ADMSTC SIZE acc.2 TDP CHILD
        (acc.1 ++ [r.1], r.2))
      (acc ++ [(answerQuery g ADMSTC SIZE (List.replicate m 0) TDP CHILD).1],
        (answerQuery g ADMSTC SIZE (List.replicate m 0) TDP CHILD).2) rest).2 =
      List.replicate m 0
    rw [answerQuery_restores]
    exact ih _

lemma setAll_zero_of_sparse (MK : List ℕ) (CLUS : List ℕ) (m : ℕ)
    (hlen : MK.length = m)
    (hsp : ∀ x, MK.getD x 0 ≠ 0 → x ∈ CLUS) :
    setAll MK CLUS 0 = List.replicate m 0 := by
  apply eq_replicate_zero_of_getD _ m (by rw [setAll_length, hlen])
  intro x hx
  rw [setAll_getD]
  by_cases hm : x ∈ CLUS ∧ x < MK.length
  · rw [if_pos hm]
  · rw [if_neg hm]
    by_contra hne
    exact hm ⟨hsp x hne, by omega⟩

lemma setAll_one_sparse (m : ℕ) (CLUS : List ℕ) :
    ∀ x, (setAll (List.replicate m 0) CLUS 1).getD x 0 ≠ 0 → x ∈ CLUS := by
  intro x hx
  rw [setAll_getD] at hx
  by_cases hm : x ∈ CLUS ∧ x < (List.replicate m (0 : ℕ)).length
  · exact hm.1
  · rw [if_neg hm, getD_replicate_zero] at hx
    exact absurd rfl hx

lemma growAppendLoop_marks (DESC : List ℕ) (iclus : ℤ) :
    ∀ (L : List (List ℕ)) (j : ℕ) (dfsz : ℤ) (MARK : List ℕ) (CHG : List (List ℕ)),
      (growAppendLoop DESC iclus L j dfsz MARK CHG).2.2.length = MARK.length ∧
      ∀ x, (growAppendLoop DESC iclus L j dfsz MARK CHG).2.2.getD x 0 = 0 ∨
        (growAppendLoop DESC iclus L j dfsz MARK CHG).2.2.getD x 0 = MARK.getD x 0 := by
  intro L
  induction L with
  | nil => intro j dfsz MARK CHG; exact ⟨rfl, fun x => Or.inr rfl⟩
  | cons CL rest ih =>
    intro j dfsz MARK CHG
    simp only [growAppendLoop]
    by_cases h1 : (j : ℤ) = iclus
    · rw [if_pos h1]; exact ih _ _ _ _
    · rw [if_neg h1]
      by_cases h2 : dfszGe dfsz CL.length = true
      · rw [if_pos h2]
        have hM : ∀ x, (setAll (setAll MARK CL 2) CL 0).getD x 0 = 0 ∨
            (setAll (setAll MARK CL 2) CL 0).getD x 0 = MARK.getD x 0 := by
          intro x
          rw [setAll_getD, setAll_length]
          by_cases hm : x ∈ CL ∧ x < MARK.length
          · rw [if_pos hm]; exact Or.inl rfl
          · rw [if_neg hm, setAll_getD, if_neg hm]; exact Or.inr rfl
        refine ⟨(ih _ _ _ _).1.trans (by rw [setAll_length, setAll_length]), fun x => ?_⟩
        rcases (ih _ _ _ _).2 x with h | h
        · exact Or.inl h
        · rw [h]; exact hM x
      · rw [if_neg h2]; exact ih _ _ _ _

lemma growScan_marks (A SIZE : List ℕ) (TDP : List ℚ) (CHILD : List (List ℕ))
    (CLUS : List ℕ) (ANS : List (List ℕ)) (iclus : ℤ) (idxv : ℕ) (tdpchg : ℚ) :
    ∀ (idxs : List ℕ) (MARK : List ℕ),
      (growScan A SIZE TDP CHILD CLUS ANS iclus idxv tdpchg idxs MARK).2.length =
        MARK.length ∧
      ∀ x, (growScan A SIZE TDP CHILD CLUS ANS iclus idxv tdpchg idxs MARK).2.getD x 0 = 0 ∨
        (growScan A SIZE TDP CHILD CLUS ANS iclus idxv tdpchg idxs MARK).2.getD x 0 =
          MARK.getD x 0 := by
  intro idxs
  induction idxs with
  | nil => intro MARK; exact ⟨rfl, fun x => Or.inr rfl⟩
  | cons i rest ih =>
    intro MARK
    simp only [growScan]
    by_cases h1 : 0 ≤ TDP.getD (A.getD i 0) 0 ∧
        TDP.getD (A.getD i 0) 0 - TDP.getD (A.getD idxv 0) 0 ≤ tdpchg ∧
        SIZE.getD (A.getD idxv 0) 0 < SIZE.getD (A.getD i 0) 0
    · rw [if_pos h1]
      by_cases h2 : hitScan MARK (descendants (A.getD i 0) SIZE CHILD)
          ((descendants (A.getD i 0) SIZE CHILD).length + 1) 0
          (((descendants (A.getD i 0) SIZE CHILD).length : ℤ) - 1) = true
      · rw [if_pos h2]
        exact ⟨(growAppendLoop_marks _ _ _ _ _ _ _).1,
          fun x => (growAppendLoop_marks _ _ _ _ _ _ _).2 x⟩
      · rw [if_neg h2]; exact ih MARK
    · rw [if_neg h1]; exact ih MARK

lemma growPhase_restores (m : ℕ) (v : ℤ) (tdpchg : ℚ) (ADMSTC SIZE : List ℕ)
    (TDP : List ℚ) (CHILD : List (List ℕ)) (ANS : List (List ℕ)) :
    setAll (growPhase v tdpchg ADMSTC SIZE (List.replicate m 0) TDP CHILD ANS).2
      (clusOf v SIZE ANS) 0 = List.replicate m 0 := by
  have h : (growPhase v tdpchg ADMSTC SIZE (List.replicate m 0) TDP CHILD ANS).2.length =
      (setAll (List.replicate m 0) (clusOf v SIZE ANS) 1).length ∧
      ∀ x, (growPhase v tdpchg ADMSTC SIZE (List.replicate m 0) TDP CHILD ANS).2.getD x 0 = 0 ∨
        (growPhase v tdpchg ADMSTC SIZE (List.replicate m 0) TDP CHILD ANS).2.getD x 0 =
          (setAll (List.replicate m 0) (clusOf v SIZE ANS) 1).getD x 0 :=
    growScan_marks ADMSTC SIZE TDP CHILD (clusOf v SIZE ANS) ANS
      (findRep v.toNat SIZE ANS)
      (findIndex (repOf (clusOf v SIZE ANS)) ADMSTC TDP).toNat tdpchg
      (List.range (findIndex (repOf (clusOf v SIZE ANS)) ADMSTC TDP).toNat).reverse
      (setAll (List.replicate m 0) (clusOf v SIZE ANS) 1)
  apply setAll_zero_of_sparse
  · rw [h.1, setAll_length, List.length_replicate]
  · intro x hx
    rcases h.2 x with h0 | h0
    · exact absurd h0 hx
    · rw [h0] at hx
      exact setAll_one_sparse m _ x hx

lemma shrinkScan_marks {m : ℕ} {CHILD : List (List ℕ)} {d : ℕ → ℕ} {SIZE : List ℕ}
    (hd : goodDepth m CHILD d) (hsize : sizeRec m SIZE CHILD)
    {b : ℕ} (hbm : b < m) (CLUS : List ℕ) (hCLUS : CLUS = postord m CHILD b)
    (A : List ℕ) (TDP : List ℚ) (idxv : ℕ) (tdpchg : ℚ) :
    ∀ (idxs : List ℕ) (MARK : List ℕ) (CHG : List (List ℕ)),
      (∀ x, MARK.getD x 0 ≠ 0 → x ∈ CLUS) →
      (shrinkScan A SIZE TDP CHILD idxv tdpchg idxs MARK CHG).2.length = MARK.length ∧
      ∀ x, (shrinkScan A SIZE TDP CHILD idxv tdpchg idxs MARK CHG).2.getD x 0 ≠ 0 →
        x ∈ CLUS := by
  intro idxs
  induction idxs with
  | nil => intro MARK CHG hinv; exact ⟨rfl, hinv⟩
  | cons i rest ih =>
    intro MARK CHG hinv
    simp only [shrinkScan]
    by_cases hc : 0 ≤ TDP.getD (A.getD i 0) 0 ∧
        tdpchg ≤ TDP.getD (A.getD i 0) 0 - TDP.getD (A.getD idxv 0) 0 ∧
        MARK.getD (A.getD i 0) 0 = 1
    · rw [if_pos hc]
      have ha : A.getD i 0 ∈ CLUS := hinv _ (by rw [hc.2.2]; exact one_ne_zero)
      have ha' : A.getD i 0 ∈ postord m CHILD b := by rw [← hCLUS]; exact ha
      have ham : A.getD i 0 < m := mem_postord_lt hd (d b) b le_rfl hbm _ ha'
      have hsub : descendants (A.getD i 0) SIZE CHILD ⊆ CLUS := by
        rw [descendants_eq_postord hd hsize ham, hCLUS]
        exact postord_subset hd hbm ha'
      have hinv2 : ∀ x,
          (setAll MARK (descendants (A.getD i 0) SIZE CHILD) 2).getD x 0 ≠ 0 →
            x ∈ CLUS := by
        intro x hx
        rw [setAll_getD] at hx
        by_cases hm2 : x ∈ descendants (A.getD i 0) SIZE CHILD ∧ x < MARK.length
        · exact hsub hm2.1
        · rw [if_neg hm2] at hx; exact hinv x hx
      obtain ⟨hlen, hmk⟩ := ih (setAll MARK (descendants (A.getD i 0) SIZE CHILD) 2)
        (CHG ++ [descendants (A.getD i 0) SIZE CHILD]) hinv2
      exact ⟨by rw [hlen, setAll_length], hmk⟩
    · rw [if_neg hc]; exact ih MARK CHG hinv

lemma shrinkPhase_restores {m : ℕ} {CHILD : List (List ℕ)} {d : ℕ → ℕ} {SIZE : List ℕ}
    (hd : goodDepth m CHILD d) (hsize : sizeRec m SIZE CHILD)
    (v : ℤ) (tdpchg : ℚ) (ADMSTC : List ℕ) (TDP : List ℚ) (ANS : List (List ℕ))
    {b : ℕ} (hbm : b < m) (hCLUS : clusOf v SIZE ANS = postord m CHILD b) :
    setAll (shrinkPhase v tdpchg ADMSTC SIZE (List.replicate m 0) TDP CHILD ANS).2
      (clusOf v SIZE ANS) 0 = List.replicate m 0 := by
  have h : (shrinkPhase v tdpchg ADMSTC SIZE (List.replicate m 0) TDP CHILD ANS).2.length =
      (setAll (List.replicate m 0) (clusOf v SIZE ANS) 1).length ∧
      ∀ x, (shrinkPhase v tdpchg ADMSTC SIZE (List.replicate m 0) TDP CHILD ANS).2.getD x 0 ≠ 0 →
        x ∈ clusOf v SIZE ANS :=
    shrinkScan_marks hd hsize hbm (clusOf v SIZE ANS) hCLUS ADMSTC TDP
      (findIndex (repOf (clusOf v SIZE ANS)) ADMSTC TDP).toNat tdpchg
      (List.range' ((findIndex (repOf (clusOf v SIZE ANS)) ADMSTC TDP).toNat + 1)
        (ADMSTC.length - ((findIndex (repOf (clusOf v SIZE ANS)) ADMSTC TDP).toNat + 1)))
      (setAll (List.replicate m 0) (clusOf v SIZE ANS) 1) []
      (setAll_one_sparse m (clusOf v SIZE ANS))
  apply setAll_zero_of_sparse
  · rw [h.1, setAll_length, List.length_replicate]
  · exact h.2

lemma findRepGo_nonneg_lt (v : ℕ) (SIZE : List ℕ) :
    ∀ (L : List (List ℕ)) (i : ℕ), 0 ≤ findRepGo v SIZE L i →
      (i : ℤ) ≤ findRepGo v SIZE L i ∧ findRepGo v SIZE L i < (i : ℤ) + L.length := by
  intro L
  induction L with
  | nil =>
    intro i h
    simp only [findRepGo] at h
    exact absurd h (by norm_num)
  | cons CLUS rest ih =>
    intro i h
    simp only [findRepGo] at h ⊢
    by_cases h1 : CLUS.getD (CLUS.length - 1) 0 = v
    · rw [if_pos h1] at h ⊢
      constructor
      · exact le_refl _
      · have : (0 : ℤ) < 1 + rest.length := by positivity
        simp only [List.length_cons]
        push_cast
        omega
    · rw [if_neg h1] at h ⊢
      by_cases h2 : SIZE.getD v 0 < SIZE.getD (CLUS.getD (CLUS.length - 1) 0) 0
      · rw [if_pos h2] at h ⊢
        by_cases h3 : findRepScan CLUS v (CLUS.length + 1) 0 ((CLUS.length : ℤ) - 1) = true
        · rw [if_pos h3] at h ⊢
          refine ⟨le_refl _, ?_⟩
          simp only [List.length_cons]
          push_cast
          omega
        · rw [if_neg h3] at h ⊢
          obtain ⟨hl, hr⟩ := ih (i + 1) h
          refine ⟨by push_cast at hl ⊢; omega, ?_⟩
          simp only [List.length_cons]
          push_cast at hr ⊢
          omega
      · rw [if_neg h2] at h ⊢
        obtain ⟨hl, hr⟩ := ih (i + 1) h
        refine ⟨by push_cast at hl ⊢; omega, ?_⟩
        simp only [List.length_cons]
        push_cast at hr ⊢
        omega

lemma clusOf_mem (v : ℤ) (SIZE : List ℕ) (ANS : List (List ℕ))
    (h : ¬ findRep v.toNat SIZE ANS < 0) : clusOf v SIZE ANS ∈ ANS := by
  have hb := findRepGo_nonneg_lt v.toNat SIZE ANS 0 (by unfold findRep at h; omega)
  have hlt : (findRep v.toNat SIZE ANS).toNat < ANS.length := by
    unfold findRep at h ⊢
    omega
  unfold clusOf
  rw [List.getD_eq_getElem _ _ hlt]
  exact List.getElem_mem hlt

/-- Claim C6: every public query operation touching the mark buffer
(`answerQuery`, `answerQueryBatch`, `changeQuery`) returns with the
buffer restored to all zeros, on every exit path, error returns of
`changeQuery` included.  The clusters of `ANS` are subtrees of the engine
forest (as produced by `answerQuery`); the shrink branch of `changeQuery`
needs this to keep its 2-marks inside the chosen cluster. -/
theorem mark_buffer_restored (m : ℕ) (CHILD : List (List ℕ)) (d : ℕ → ℕ)
    (ROOT : List ℕ) (TDP : List ℚ) (SIZE ADMSTC : List ℕ) (ANS : List (List ℕ))
    (gamma : ℚ) (gamma_batch : List ℚ) (v : ℤ) (tdpchg : ℚ)
    (hF : forestOK m CHILD d ROOT) (hsize : sizeRec m SIZE CHILD)
    (hANS : ∀ CL ∈ ANS, ∃ b r, r ∈ ROOT ∧ b ∈ postord m CHILD r ∧
      CL = postord m CHILD b) :
    (answerQuery gamma ADMSTC SIZE (List.replicate m 0) TDP CHILD).2 =
      List.replicate m 0 ∧
    (answerQueryBatch gamma_batch ADMSTC SIZE (List.replicate m 0) TDP CHILD).2 =
      List.replicate m 0 ∧
    (changeQuery v tdpchg ADMSTC SIZE (List.replicate m 0) TDP CHILD ANS).2 =
      List.replicate m 0 := by
  refine ⟨answerQuery_restores m gamma ADMSTC SIZE TDP CHILD,
    answerQueryBatch_restores m gamma_batch ADMSTC SIZE TDP CHILD, ?_⟩
  unfold changeQuery
  split_ifs with h1 h2 h3 h4 h5 h6 h7 h8
  · rfl
  · rfl
  · rfl
  · rfl
  · rfl
  · rfl
  · rfl
  · exact growPhase_restores m v tdpchg ADMSTC SIZE TDP CHILD ANS
  · obtain ⟨b, r, hr, hb, hCL⟩ := hANS (clusOf v SIZE ANS) (clusOf_mem v SIZE ANS h2)
    have hbm : b < m :=
      mem_postord_lt hF.1 (d r) r le_rfl (hF.2.1 r hr) b hb
    exact shrinkPhase_restores hF.1 hsize v tdpchg ADMSTC TDP ANS hbm hCL

/-- Witness for claim C6 on the one-voxel forest `CHILD = [[]]`,
`SIZE = [1]`, `ROOT = [0]`, `TDP = [1/2]`, `ANS = [[0]]`. -/
theorem mark_buffer_restored_witness :
    (answerQuery 0 [0] [1] (List.replicate 1 0) [(1 : ℚ)/2] [[]]).2 =
      List.replicate 1 0 ∧
    (answerQueryBatch [0] [0] [1] (List.replicate 1 0) [(1 : ℚ)/2] [[]]).2 =
      List.replicate 1 0 ∧
    (changeQuery 0 ((1 : ℚ)/2) [0] [1] (List.replicate 1 0) [(1 : ℚ)/2] [[]] [[0]]).2 =
      List.replicate 1 0 :=
  mark_buffer_restored 1 [[]] (fun _ => 0) [0] [(1 : ℚ)/2] [1] [0] [[0]] 0 [0] 0
    ((1 : ℚ)/2)
    (by unfold forestOK goodDepth; decide) (by unfold sizeRec; decide)
    (fun CL hCL => ⟨0, 0, by decide, by decide,
      by rw [List.mem_singleton] at hCL; rw [hCL]; decide⟩)

/-! ### changeQuery grow-branch containment scan (claim C7) -/

unseal Rat.mul Rat.add Rat.sub Rat.inv in
/-- Claim C7: on the valid input `v = 0`, `tdpchg = -1/2`,
`ADMSTC = [2,1,3]`, `SIZE = [1,2,3,1]`, `TDP = [1,1/2,0,3/4]`,
`CHILD = [[],[0],[1],[]]`, `ANS = [[0,1],[3]]`, none of the error cases
of the claim holds (the TDP change is in range, `v` lies in the cluster
`[0,1]`, and the reduction is within reach of the smallest admissible
TDP), so by the claim a cluster list must be returned.  The grow branch
accepts candidate `2`, whose descendants `[0,1,2]` intersect the marked
cluster, and the inner loop then checks the singleton cluster `[3]`
against marks `[1,1,0,2]`.  Its guard `r - l >= CL.size() - 1` is an
`int` against `size_t` comparison, true for every `l, r` when
`CL.size() = 1`, and no voxel the scan can read is marked 2, so the break
never fires: the scan consumes every unit of fuel, that is, the C++
loop never exits and `changeQuery` never returns.  (The embedded
`changeQuery` stops the scan when the fuel runs out and therefore does
return a value, shown last.) -/
theorem changeQuery_contain_scan_never_exits :
    findRep 0 [1, 2, 3, 1] [[0, 1], [3]] = 0 ∧
    findIndex 1 [2, 1, 3] [1, (1 : ℚ)/2, 0, 3/4] = 1 ∧
    ¬((-1/2 : ℚ) ≤ -1 ∨ (-1/2 : ℚ) = 0 ∨ (1 : ℚ) ≤ -1/2) ∧
    ((0 : ℕ) ∈ ([0, 1] : List ℕ) ∧ ([0, 1] : List ℕ) ∈ [[0, 1], [3]]) ∧
    ¬([1, (1 : ℚ)/2, 0, 3/4].getD ([2, 1, 3].getD 0 0) 0 =
        [1, (1 : ℚ)/2, 0, 3/4].getD (repOf [0, 1]) 0) ∧
    ¬((-1/2 : ℚ) < [1, (1 : ℚ)/2, 0, 3/4].getD ([2, 1, 3].getD 0 0) 0 -
        [1, (1 : ℚ)/2, 0, 3/4].getD (repOf [0, 1]) 0) ∧
    descendants 2 [1, 2, 3, 1] [[], [0], [1], []] = [0, 1, 2] ∧
    hitScan (setAll (List.replicate 4 0) [0, 1] 1) [0, 1, 2] 4 0 2 = true ∧
    dfszGe ((3 : ℤ) - 2) 1 = true ∧
    setAll (setAll (List.replicate 4 0) [0, 1] 1) [3] 2 = [1, 1, 0, 2] ∧
    (changeQuery 0 (-1/2) [2, 1, 3] [1, 2, 3, 1] (List.replicate 4 0)
        [1, (1 : ℚ)/2, 0, 3/4] [[], [0], [1], []] [[0, 1], [3]]).1.toOption =
      some [[0, 1, 2], [3]] ∧
    ∀ (fuel : ℕ) (l r : ℤ),
      containScan [1, 1, 0, 2] [0, 1, 2] 1 fuel l r = (false, l + fuel, r - fuel) := by
  refine ⟨by decide, by decide, by decide, by decide, by decide, by decide, by decide,
    by decide, by decide, by decide, by decide, ?_⟩
  intro fuel
  induction fuel with
  | zero => intro l r; simp [containScan]
  | succ fuel ih =>
    intro l r
    have hguard : containGuard l r 1 = true := by
      unfold containGuard
      simp only [decide_eq_true_eq]
      omega
    have hmark : ∀ k : ℤ,
        ([1, 1, 0, 2] : List ℕ).getD (([0, 1, 2] : List ℕ).getD k.toNat 0) 0 ≠ 2 := by
      intro k
      rcases hk : k.toNat with _ | _ | _ | n
      · decide
      · decide
      · decide
      · rw [getD_oob ([0, 1, 2] : List ℕ) _
          (by simp only [List.length_cons, List.length_nil]; omega)]
        decide
    simp only [containScan]
    rw [if_pos hguard, if_neg (by
      intro hor
      rcases hor with h | h
      · exact hmark l h
      · exact hmark r h)]
    rw [ih (l + 1) (r - 1)]
    simp only [Prod.mk.injEq]
    refine ⟨trivial, by push_cast; ring, by push_cast; ring⟩

/-! ### Union-find theory for findClusters (claim C8) -/

/-- `k`-fold parent map, reading `parent[x]` as `x` out of bounds, the
convention of `Find`. -/
def parentIter (p : List ℕ) : ℕ → ℕ → ℕ
  | 0, x => x
  | k + 1, x => parentIter p k (p.getD x x)

/-- A root of the disjoint-set structure: its own parent. -/
def isRoot (p : List ℕ) (x : ℕ) : Prop := p.getD x x = x

/-- `r` is an ancestor of `x` under the parent map. -/
def Reach (p : List ℕ) (x r : ℕ) : Prop := ∃ k, parentIter p k x = r

/-- Acyclicity witness: every non-root in range has an in-range parent of
strictly smaller height. -/
def ufOK (p : List ℕ) (h : ℕ → ℕ) : Prop :=
  ∀ x, x < p.length → p.getD x x = x ∨
    (p.getD x x < p.length ∧ h (p.getD x x) < h x)

lemma getDg_set_self {α : Type} (l : List α) (j : ℕ) (a d : α) (h : j < l.length) :
    (l.set j a).getD j d = a := by
  simp [List.getD_eq_getElem?_getD, List.getElem?_set, h]

lemma getDg_set_ne {α : Type} (l : List α) (j x : ℕ) (a d : α) (h : j ≠ x) :
    (l.set j a).getD x d = l.getD x d := by
  simp [List.getD_eq_getElem?_getD, List.getElem?_set, h]

lemma getDg_oob {α : Type} (l : List α) (x : ℕ) (d : α) (h : l.length ≤ x) :
    l.getD x d = d := by
  rw [List.getD_eq_getElem?_getD, List.getElem?_eq_none (by omega)]
  rfl

lemma parentIter_add (p : List ℕ) :
    ∀ (a b x : ℕ), parentIter p (a + b) x = parentIter p b (parentIter p a x) := by
  intro a
  induction a with
  | zero => intro b x; rw [Nat.zero_add]; rfl
  | succ a ih =>
    intro b x
    have h1 : a + 1 + b = (a + b) + 1 := by omega
    rw [h1]
    show parentIter p (a + b) (p.getD x x) = _
    rw [ih b (p.getD x x)]
    rfl

lemma parentIter_succ_out (p : List ℕ) (k x : ℕ) :
    parentIter p (k + 1) x =
      p.getD (parentIter p k x) (parentIter p k x) := by
  rw [parentIter_add p k 1 x]
  rfl

lemma isRoot_iter {p : List ℕ} {r : ℕ} (hr : isRoot p r) :
    ∀ k, parentIter p k r = r := by
  intro k
  induction k with
  | zero => rfl
  | succ k ih =>
    show parentIter p k (p.getD r r) = r
    rw [hr]
    exact ih

lemma reach_refl (p : List ℕ) (x : ℕ) : Reach p x x := ⟨0, rfl⟩

lemma reach_step (p : List ℕ) (x : ℕ) : Reach p x (p.getD x x) := ⟨1, rfl⟩

lemma reach_trans {p : List ℕ} {x y z : ℕ} (h1 : Reach p x y) (h2 : Reach p y z) :
    Reach p x z := by
  obtain ⟨k1, hk1⟩ := h1
  obtain ⟨k2, hk2⟩ := h2
  exact ⟨k1 + k2, by rw [parentIter_add, hk1, hk2]⟩

lemma reach_cons {p : List ℕ} {x r : ℕ} (h : Reach p (p.getD x x) r) :
    Reach p x r := by
  obtain ⟨k, hk⟩ := h
  exact ⟨k + 1, by show parentIter p k (p.getD x x) = r; exact hk⟩

lemma reach_unique {p : List ℕ} {x r1 r2 : ℕ} (h1 : Reach p x r1) (h2 : Reach p x r2)
    (hr1 : isRoot p r1) (hr2 : isRoot p r2) : r1 = r2 := by
  obtain ⟨k1, hk1⟩ := h1
  obtain ⟨k2, hk2⟩ := h2
  rcases le_total k1 k2 with h | h
  · have : parentIter p k2 x = r1 := by
      have hsplit : k2 = k1 + (k2 - k1) := by omega
      rw [hsplit, parentIter_add, hk1, isRoot_iter hr1]
    rw [this] at hk2
    exact hk2
  · have : parentIter p k1 x = r2 := by
      have hsplit : k1 = k2 + (k1 - k2) := by omega
      rw [hsplit, parentIter_add, hk2, isRoot_iter hr2]
    rw [this] at hk1
    exact hk1.symm

lemma iter_h_le {p : List ℕ} {h : ℕ → ℕ} (hok : ufOK p h) :
    ∀ (k y : ℕ), y < p.length →
      parentIter p k y < p.length ∧ h (parentIter p k y) ≤ h y := by
  intro k
  induction k with
  | zero => intro y hy; exact ⟨hy, le_rfl⟩
  | succ k ih =>
    intro y hy
    rcases hok y hy with hroot | ⟨hlt, hdec⟩
    · show parentIter p k (p.getD y y) < p.length ∧ h (parentIter p k (p.getD y y)) ≤ h y
      rw [hroot]
      exact ih y hy
    · have := ih (p.getD y y) hlt
      exact ⟨this.1, le_trans this.2 (le_of_lt hdec)⟩

lemma iter_closed {P RANK : List ℕ} {m i : ℕ}
    (hC : ∀ x, x < m → RANK.getD x 0 ≤ i →
      P.getD x x < m ∧ RANK.getD (P.getD x x) 0 ≤ i) :
    ∀ (k y : ℕ), y < m → RANK.getD y 0 ≤ i →
      parentIter P k y < m ∧ RANK.getD (parentIter P k y) 0 ≤ i := by
  intro k
  induction k with
  | zero => intro y hy hr; exact ⟨hy, hr⟩
  | succ k ih =>
    intro y hy hr
    obtain ⟨h1, h2⟩ := hC y hy hr
    exact ih (P.getD y y) h1 h2

lemma parentIter_set_ne {p : List ℕ} {x w : ℕ} :
    ∀ (k y : ℕ), (∀ j, j ≤ k → parentIter p j y ≠ x) →
      parentIter (p.set x w) k y = parentIter p k y := by
  intro k
  induction k with
  | zero => intro y _; rfl
  | succ k ih =>
    intro y hne
    have h0 : y ≠ x := hne 0 (by omega)
    show parentIter (p.set x w) k ((p.set x w).getD y y) = parentIter p k (p.getD y y)
    rw [getDg_set_ne p x y w y (fun he => h0 he.symm)]
    exact ih (p.getD y y) (fun j hj => hne (j + 1) (by omega))

lemma reach_set_root {p : List ℕ} {rv b : ℕ} (hroot : isRoot p rv) :
    ∀ (k y : ℕ), parentIter p k y = rv → Reach (p.set rv b) y rv := by
  intro k
  induction k with
  | zero => intro y hy; exact hy ▸ reach_refl _ _
  | succ k ih =>
    intro y hy
    by_cases hyx : y = rv
    · exact hyx ▸ reach_refl _ _
    · have : parentIter p k (p.getD y y) = rv := hy
      have hr := ih (p.getD y y) this
      refine reach_cons ?_
      rw [getDg_set_ne p rv y b y (fun he => hyx he.symm)]
      exact hr

lemma reach_set_other {p : List ℕ} {a b r : ℕ} (haroot : isRoot p a) (hra : r ≠ a) :
    ∀ (k y : ℕ), parentIter p k y = r → Reach (p.set a b) y r := by
  intro k
  induction k with
  | zero => intro y hy; exact hy ▸ reach_refl _ _
  | succ k ih =>
    intro y hy
    by_cases hya : y = a
    · subst hya
      have : parentIter p (k + 1) y = y := isRoot_iter haroot (k + 1)
      rw [hy] at this
      exact absurd this hra
    · have : parentIter p k (p.getD y y) = r := hy
      refine reach_cons ?_
      rw [getDg_set_ne p a y b y (fun he => hya he.symm)]
      exact ih (p.getD y y) this

lemma uf_exists_root {p : List ℕ} {h : ℕ → ℕ} (hok : ufOK p h) {x : ℕ}
    (hx : x < p.length) :
    ∃ k, k ≤ p.length ∧ isRoot p (parentIter p k x) := by
  by_contra hcon
  push_neg at hcon
  have hnr : ∀ k, k ≤ p.length → ¬ isRoot p (parentIter p k x) := hcon
  have hall : ∀ k, k ≤ p.length → parentIter p k x < p.length := by
    intro k
    induction k with
    | zero => intro _; exact hx
    | succ k ih =>
      intro hk
      have hklt := ih (by omega)
      rcases hok _ hklt with hroot | ⟨hlt, _⟩
      · exact absurd hroot (hnr k (by omega))
      · rw [parentIter_succ_out]; exact hlt
  have hdec : ∀ k, k < p.length → h (parentIter p (k + 1) x) < h (parentIter p k x) := by
    intro k hk
    rcases hok _ (hall k (by omega)) with hroot | ⟨_, hlt⟩
    · exact absurd hroot (hnr k (by omega))
    · rw [parentIter_succ_out]; exact hlt
  have hmono : ∀ a b, a < b → b ≤ p.length →
      h (parentIter p b x) < h (parentIter p a x) := by
    intro a b
    induction b with
    | zero => intro hab _; omega
    | succ b ih =>
      intro hab hb
      rcases Nat.lt_or_ge a b with hab2 | hab2
      · exact lt_trans (hdec b (by omega)) (ih hab2 (by omega))
      · have : a = b := by omega
        subst this
        exact hdec a (by omega)
  obtain ⟨a, ha, b, hb, hne, heq⟩ :=
    Finset.exists_ne_map_eq_of_card_lt_of_maps_to
      (show (Finset.range p.length).card < (Finset.range (p.length + 1)).card by simp)
      (fun k hk => Finset.mem_range.mpr
        (hall k (by have := Finset.mem_range.mp hk; omega)))
  have ha2 : a ≤ p.length := by have := Finset.mem_range.mp ha; omega
  have hb2 : b ≤ p.length := by have := Finset.mem_range.mp hb; omega
  rcases Nat.lt_or_ge a b with hab | hab
  · have := hmono a b hab hb2
    rw [heq] at this
    exact absurd this (lt_irrefl _)
  · have hba : b < a := by omega
    have := hmono b a hba ha2
    rw [heq] at this
    exact absurd this (lt_irrefl _)

lemma uf_union {p : List ℕ} {h : ℕ → ℕ} (hok : ufOK p h) {a b : ℕ}
    (ha : isRoot p a) (hb : isRoot p b) (hab : a ≠ b)
    (halen : a < p.length) (hblen : b < p.length) :
    ∃ h2, ufOK (p.set a b) h2 := by
  classical
  refine ⟨fun x => if Reach p x a then h x + h b + 1 else h x, ?_⟩
  intro x hx
  rw [List.length_set] at hx
  by_cases hxa : x = a
  · right
    have hset : (p.set a b).getD x x = b := by
      rw [hxa]; exact getDg_set_self p a b a halen
    rw [hset]
    have hflagb : ¬ Reach p b a := by
      rintro ⟨k, hk⟩
      rw [isRoot_iter hb k] at hk
      exact hab hk.symm
    have hflagx : Reach p x a := by rw [hxa]; exact reach_refl p a
    refine ⟨by rw [List.length_set]; exact hblen, ?_⟩
    simp only [if_neg hflagb, if_pos hflagx]
    omega
  · have hset : (p.set a b).getD x x = p.getD x x :=
      getDg_set_ne p a x b x (fun he => hxa he.symm)
    rw [hset]
    rcases hok x hx with hroot | ⟨hlt, hdec⟩
    · left; exact hroot
    · right
      refine ⟨by rw [List.length_set]; exact hlt, ?_⟩
      have hiff : Reach p x a ↔ Reach p (p.getD x x) a := by
        constructor
        · rintro ⟨k, hk⟩
          cases k with
          | zero => exact absurd hk hxa
          | succ k => exact ⟨k, hk⟩
        · intro hr; exact reach_cons hr
      by_cases hfl : Reach p x a
      · simp only [if_pos (hiff.mp hfl), if_pos hfl]
        omega
      · simp only [if_neg (fun hc => hfl (hiff.mpr hc)), if_neg hfl]
        omega

lemma Find_succ (fuel x : ℕ) (p : List ℕ) :
    Find (fuel + 1) x p =
      if p.getD x x = x then (x, p)
      else Find fuel (p.getD (p.getD x x) (p.getD x x))
        (p.set x (p.getD (p.getD x x) (p.getD x x))) := rfl

lemma Find_at_root {fuel x : ℕ} {p : List ℕ} (hroot : isRoot p x) :
    Find (fuel + 1) x p = (x, p) := by
  have hr : p.getD x x = x := hroot
  rw [Find_succ, if_pos hr]

/-- Correctness of the path-halving `Find` on acyclic states whose chain
from `x` reaches a root within `K < fuel` steps: the returned
representative is a root and an ancestor of `x`, and the compressed
parent list keeps the length, the height witness, the root set and the
root-reachability relation. -/
lemma Find_correct {h : ℕ → ℕ} :
    ∀ (fuel : ℕ) (p : List ℕ) (x K : ℕ),
      ufOK p h → isRoot p (parentIter p K x) → K < fuel →
      (Find fuel x p).2.length = p.length ∧
      ufOK (Find fuel x p).2 h ∧
      isRoot p (Find fuel x p).1 ∧
      Reach p x (Find fuel x p).1 ∧
      (∀ y, isRoot (Find fuel x p).2 y ↔ isRoot p y) ∧
      (∀ y, Reach p (p.getD y y) ((Find fuel x p).2.getD y y)) ∧
      (∀ y r, isRoot p r → (Reach p y r ↔ Reach (Find fuel x p).2 y r)) := by
  intro fuel
  induction fuel with
  | zero => intro p x K hok hroot hK; omega
  | succ fuel ih =>
    intro p x K hok hroot hK
    rw [Find_succ]
    by_cases hpx : p.getD x x = x
    · rw [if_pos hpx]
      exact ⟨rfl, hok, hpx, reach_refl p x, fun y => Iff.rfl,
        fun y => reach_refl p _, fun y r _ => Iff.rfl⟩
    · rw [if_neg hpx]
      have hxlen : x < p.length := by
        by_contra hc
        exact hpx (getDg_oob p x x (by omega))
      obtain ⟨hpxlen, hhpx⟩ :
          p.getD x x < p.length ∧ h (p.getD x x) < h x :=
        (hok x hxlen).resolve_left hpx
      set gx := p.getD (p.getD x x) (p.getD x x) with hgxeq
      set p1 := p.set x gx with hp1eq
      have hgxlen : gx < p.length := by
        rcases hok _ hpxlen with hr | ⟨h1, _⟩
        · rw [hgxeq, hr]; exact hpxlen
        · exact h1
      have hhgx : h gx < h x := by
        rcases hok _ hpxlen with hr | ⟨_, h2⟩
        · rw [hgxeq, hr]; exact hhpx
        · exact lt_trans h2 hhpx
      have hgxne : gx ≠ x := fun he => by rw [he] at hhgx; exact lt_irrefl _ hhgx
      have hp1len : p1.length = p.length := by rw [hp1eq]; exact List.length_set p x gx
      have hp1get : ∀ y, y ≠ x → p1.getD y y = p.getD y y := fun y hy => by
        rw [hp1eq]; exact getDg_set_ne p x y gx y (fun he => hy he.symm)
      have hp1getx : p1.getD x x = gx := by
        rw [hp1eq]; exact getDg_set_self p x gx x hxlen
      have hok1 : ufOK p1 h := by
        intro y hy
        rw [hp1len] at hy
        by_cases hyx : y = x
        · right
          rw [hyx, hp1getx]
        -- goal : gx < p1.length ∧ h gx < h x
          exact ⟨by rw [hp1len]; exact hgxlen, hhgx⟩
        · rcases hok y hy with hr | ⟨h1, h2⟩
          · left; rw [hp1get y hyx]; exact hr
          · right
            rw [hp1get y hyx]
            exact ⟨by rw [hp1len]; exact h1, h2⟩
      have hroots1 : ∀ y, isRoot p1 y ↔ isRoot p y := by
        intro y
        by_cases hyx : y = x
        · subst hyx
          unfold isRoot
          rw [hp1getx]
          constructor
          · intro he; exact absurd he hgxne
          · intro he; exact absurd he hpx
        · unfold isRoot
          rw [hp1get y hyx]
      have hanc1 : ∀ y, Reach p (p.getD y y) (p1.getD y y) := by
        intro y
        by_cases hyx : y = x
        · subst hyx
          rw [hp1getx, hgxeq]
          exact reach_step p (p.getD y y)
        · rw [hp1get y hyx]
          exact reach_refl p _
      have hreach_to : ∀ (r : ℕ), isRoot p r → ∀ (k y : ℕ),
          parentIter p k y = r → Reach p1 y r := by
        intro r hr k
        induction k using Nat.strong_induction_on with
        | _ k ihk =>
          intro y hy
          match k, hy with
          | 0, hy => exact hy ▸ reach_refl p1 y
          | k + 1, hy =>
            by_cases hyx : y = x
            · subst hyx
              have hpeel : parentIter p k (p.getD y y) = r := hy
              match k, hpeel with
              | 0, hpeel =>
                have hgr : gx = r := by
                  have h0 : p.getD y y = r := hpeel
                  rw [hgxeq, h0]
                  exact hr
                refine reach_cons ?_
                rw [hp1getx, hgr]
                exact reach_refl p1 r
              | k + 1, hpeel =>
                have hpeel2 : parentIter p k gx = r := by rw [hgxeq]; exact hpeel
                refine reach_cons ?_
                rw [hp1getx]
                exact ihk k (by omega) gx hpeel2
            · have hpeel : parentIter p k (p.getD y y) = r := hy
              refine reach_cons ?_
              rw [hp1get y hyx]
              exact ihk k (by omega) (p.getD y y) hpeel
      have hreach_from : ∀ (k y r : ℕ), parentIter p1 k y = r → Reach p y r := by
        intro k
        induction k with
        | zero => intro y r hy; exact hy ▸ reach_refl p y
        | succ k ihk =>
          intro y r hy
          have hrest : Reach p (p1.getD y y) r := ihk _ r hy
          by_cases hyx : y = x
          · subst hyx
            rw [hp1getx] at hrest
            refine reach_trans ?_ hrest
            refine reach_cons ?_
            rw [hgxeq]
            exact reach_step p (p.getD y y)
          · rw [hp1get y hyx] at hrest
            exact reach_cons hrest
      -- the chain from gx reaches a root within fuel steps
      have hgxiter_ne : ∀ j, parentIter p j gx ≠ x := by
        intro j he
        have := (iter_h_le hok j gx hgxlen).2
        rw [he] at this
        exact absurd (lt_of_le_of_lt this hhgx) (lt_irrefl _)
      obtain ⟨K2, hK2lt, hK2root⟩ :
          ∃ K2, K2 < fuel ∧ isRoot p1 (parentIter p1 K2 gx) := by
        match K, hroot with
        | 0, hroot => exact absurd hroot hpx
        | 1, hroot =>
          have hpxr : p.getD (p.getD x x) (p.getD x x) = p.getD x x := hroot
          have hgr : isRoot p gx := by
            show p.getD gx gx = gx
            rw [hgxeq, hpxr]
            exact hpxr
          exact ⟨0, by omega, (hroots1 gx).mpr hgr⟩
        | K + 2, hroot =>
          have hroot2 : isRoot p (parentIter p K gx) := by
            rw [hgxeq]
            exact hroot
          have hchain : parentIter p1 K gx = parentIter p K gx := by
            rw [hp1eq]
            exact parentIter_set_ne K gx (fun j _ => hgxiter_ne j)
          have hzne : parentIter p K gx ≠ x := hgxiter_ne K
          refine ⟨K, by omega, ?_⟩
          rw [hchain]
          exact (hroots1 _).mpr hroot2
      obtain ⟨ihlen, ihok, ihroot, ihreach, ihroots, ihanc, ihiff⟩ :=
        ih p1 gx K2 hok1 hK2root hK2lt
      have hxgx : Reach p x gx := by
        refine reach_cons ?_
        rw [hgxeq]
        exact reach_step p (p.getD x x)
      refine ⟨ihlen.trans hp1len, ihok, (hroots1 _).mp ihroot, ?_, ?_, ?_, ?_⟩
      · obtain ⟨k, hk⟩ := ihreach
        exact reach_trans hxgx (hreach_from k gx _ hk)
      · intro y
        exact (ihroots y).trans (hroots1 y)
      · intro y
        have h1 := hanc1 y
        obtain ⟨k, hk⟩ := ihanc y
        exact reach_trans h1 (hreach_from k _ _ hk)
      · intro y r hr
        have hstep : Reach p y r ↔ Reach p1 y r := by
          constructor
          · rintro ⟨k, hk⟩
            exact hreach_to r hr k y hk
          · rintro ⟨k, hk⟩
            exact hreach_from k y r hk
        exact hstep.trans (ihiff y r ((hroots1 r).mpr hr))

/-- Invariant of the outer loop of `findClusters`, before step `i`:
nodes of rank at least `i` are untouched singletons; processed chains
stay processed and in range; processed roots carry a processed forest
root; processed nodes already satisfy the size recurrence and the
heavy-child-first ordering, with children of strictly smaller rank. -/
structure FcOut (m i : ℕ) (RANK : List ℕ) (P F S : List ℕ)
    (C : List (List ℕ)) : Prop where
  acyc : ∃ h, ufOK P h
  plen : P.length = m
  flen : F.length = m
  slen : S.length = m
  clen : C.length = m
  unt : ∀ x, x < m → ¬ RANK.getD x 0 < i →
    P.getD x x = x ∧ F.getD x 0 = x ∧ S.getD x 0 = 1 ∧ C.getD x [] = []
  closed : ∀ x, x < m → RANK.getD x 0 < i →
    P.getD x x < m ∧ RANK.getD (P.getD x x) 0 < i
  rootsF : ∀ r, r < m → isRoot P r → RANK.getD r 0 < i →
    F.getD r 0 < m ∧ RANK.getD (F.getD r 0) 0 < i
  frozen : ∀ x, x < m → RANK.getD x 0 < i →
    S.getD x 0 = 1 + ((C.getD x []).map (fun c => S.getD c 0)).sum ∧
    (∀ c ∈ C.getD x [], c < m ∧ RANK.getD c 0 < RANK.getD x 0) ∧
    (∀ c ∈ C.getD x [], S.getD c 0 ≤ S.getD ((C.getD x []).headD 0) 0)

/-- Invariant of the neighbour loop of `findClusters`, while processing
`v` of rank `i`: on top of the outer picture, the component of `v` has a
root `rv` whose forest root is `v`, the working child list `CHD` holds
processed forest roots with the heavy child in front, and
`SIZE[v] = 1 + Σ SIZE[w]` over `CHD`. -/
structure FcIn (m i v : ℕ) (RANK : List ℕ) (P F S : List ℕ)
    (C : List (List ℕ)) (CHD : List ℕ) : Prop where
  acyc : ∃ h, ufOK P h
  plen : P.length = m
  flen : F.length = m
  slen : S.length = m
  clen : C.length = m
  unt : ∀ x, x < m → i < RANK.getD x 0 →
    P.getD x x = x ∧ F.getD x 0 = x ∧ S.getD x 0 = 1 ∧ C.getD x [] = []
  closed : ∀ x, x < m → RANK.getD x 0 ≤ i →
    P.getD x x < m ∧ RANK.getD (P.getD x x) 0 ≤ i
  root_forest : ∃ rv, rv < m ∧ isRoot P rv ∧ Reach P v rv ∧ F.getD rv 0 = v ∧
    ∀ r, r < m → isRoot P r → RANK.getD r 0 ≤ i → r ≠ rv →
      F.getD r 0 < m ∧ RANK.getD (F.getD r 0) 0 < i
  frozen : ∀ x, x < m → RANK.getD x 0 < i →
    S.getD x 0 = 1 + ((C.getD x []).map (fun c => S.getD c 0)).sum ∧
    (∀ c ∈ C.getD x [], c < m ∧ RANK.getD c 0 < RANK.getD x 0) ∧
    (∀ c ∈ C.getD x [], S.getD c 0 ≤ S.getD ((C.getD x []).headD 0) 0)
  sv : S.getD v 0 = 1 + (CHD.map (fun c => S.getD c 0)).sum
  chdmem : ∀ w ∈ CHD, w < m ∧ RANK.getD w 0 < i
  chdheavy : ∀ w ∈ CHD, S.getD w 0 ≤ S.getD (CHD.headD 0) 0

lemma UnionBySize_eval {P : List ℕ} {v jrep irep : ℕ} {P2 : List ℕ} (F S : List ℕ)
    (hfi1 : (Find (P.length + 1) v P).1 = irep)
    (hfi2 : (Find (P.length + 1) v P).2 = P2)
    (hjroot : isRoot P2 jrep) (hne : irep ≠ jrep) :
    UnionBySize v jrep P F S =
      if S.getD (F.getD irep 0) 0 < S.getD (F.getD jrep 0) 0 then
        (P2.set irep jrep, F.set jrep (F.getD irep 0),
          S.set (F.getD irep 0)
            (S.getD (F.getD irep 0) 0 + S.getD (F.getD jrep 0) 0))
      else
        (P2.set jrep irep, F,
          S.set (F.getD irep 0)
            (S.getD (F.getD irep 0) 0 + S.getD (F.getD jrep 0) 0)) := by
  have hfj : Find (P2.length + 1) jrep P2 = (jrep, P2) := Find_at_root hjroot
  simp only [UnionBySize]
  rw [hfi2, hfi1, hfj]
  dsimp only
  rw [if_neg hne]

/-- A `Find` call on a processed node preserves the neighbour-loop
invariant and returns a root of the current parent list, reachable from
the queried node. -/
lemma FcIn_find {m i v : ℕ} {RANK : List ℕ} {C : List (List ℕ)}
    {P F S CHD : List ℕ} (hinv : FcIn m i v RANK P F S C CHD)
    {u : ℕ} (hum : u < m) :
    FcIn m i v RANK (Find (P.length + 1) u P).2 F S C CHD ∧
    isRoot P (Find (P.length + 1) u P).1 ∧
    Reach P u (Find (P.length + 1) u P).1 ∧
    (∀ y, isRoot (Find (P.length + 1) u P).2 y ↔ isRoot P y) ∧
    (∀ y r, isRoot P r → (Reach P y r ↔ Reach (Find (P.length + 1) u P).2 y r)) ∧
    (Find (P.length + 1) u P).2.length = m := by
  obtain ⟨h, hok⟩ := hinv.acyc
  obtain ⟨K, hKle, hKroot⟩ := uf_exists_root hok (show u < P.length by
    rw [hinv.plen]; exact hum)
  obtain ⟨flen, fok, froot, freach, froots, fanc, fiff⟩ :=
    Find_correct (P.length + 1) P u K hok hKroot (by omega)
  obtain ⟨rv, hrvm, hrvroot, hrvreach, hFrv, hRootsP⟩ := hinv.root_forest
  refine ⟨⟨⟨h, fok⟩, flen.trans hinv.plen, hinv.flen, hinv.slen, hinv.clen,
    ?_, ?_, ?_, hinv.frozen, hinv.sv, hinv.chdmem, hinv.chdheavy⟩,
    froot, freach, froots, fiff, flen.trans hinv.plen⟩
  · intro x hx hrk
    obtain ⟨hP, hF, hS, hC⟩ := hinv.unt x hx hrk
    exact ⟨(froots x).mpr hP, hF, hS, hC⟩
  · intro x hx hrk
    obtain ⟨k, hk⟩ := fanc x
    have hbase := hinv.closed x hx hrk
    have := iter_closed hinv.closed k (P.getD x x) hbase.1 hbase.2
    rw [hk] at this
    exact this
  · refine ⟨rv, hrvm, (froots rv).mpr hrvroot, (fiff v rv hrvroot).mp hrvreach, hFrv,
      fun r hrm hroot hrle hrne =>
        hRootsP r hrm ((froots r).mp hroot) hrle hrne⟩

lemma headD_mem {l : List ℕ} (hne : l ≠ []) : l.headD 0 ∈ l := by
  cases l with
  | nil => exact absurd rfl hne
  | cons a t => exact List.mem_cons_self a t

/-- A merge step of the neighbour loop preserves the invariant: `v`
absorbs the processed component rooted (in the forest sense) at
`w = FORESTROOT[jrep]`, the sizes accumulate at `v`, and `w` enters the
child list with the heavy child kept in front. -/
lemma FcIn_union {m i v : ℕ} {RANK : List ℕ} {C : List (List ℕ)}
    {P F S CHD : List ℕ} (hinv : FcIn m i v RANK P F S C CHD)
    (hv : v < m) (hRv : RANK.getD v 0 = i)
    {jrep : ℕ} (hjroot : isRoot P jrep) (hjm : jrep < m)
    (hjle : RANK.getD jrep 0 ≤ i)
    (hwne : v ≠ F.getD jrep 0) :
    FcIn m i v RANK
      (UnionBySize v jrep P F S).1
      (UnionBySize v jrep P F S).2.1
      (UnionBySize v jrep P F S).2.2 C
      (if CHD = [] ∨ (UnionBySize v jrep P F S).2.2.getD (F.getD jrep 0) 0 ≤
          (UnionBySize v jrep P F S).2.2.getD (CHD.headD 0) 0
        then CHD ++ [F.getD jrep 0] else F.getD jrep 0 :: CHD) := by
  obtain ⟨rv, hrvm, hrvroot, hrvreach, hFrv, hRootsP⟩ := hinv.root_forest
  obtain ⟨hinv2, hvroot, hvreach, hroots2, hiff2, hlen2⟩ := FcIn_find hinv hv
  have hirep : (Find (P.length + 1) v P).1 = rv :=
    reach_unique hvreach hrvreach hvroot hrvroot
  have hjroot2 : isRoot (Find (P.length + 1) v P).2 jrep := (hroots2 jrep).mpr hjroot
  have hjne : (Find (P.length + 1) v P).1 ≠ jrep := by
    rw [hirep]
    intro he
    rw [he] at hFrv
    exact hwne hFrv.symm
  have hjrv : jrep ≠ rv := fun he => hjne (by rw [hirep, he])
  have heval := UnionBySize_eval F S hirep rfl hjroot2
    (show rv ≠ jrep by rw [← hirep]; exact hjne)
  rw [hFrv] at heval
  obtain ⟨hwm, hwrank⟩ := hRootsP jrep hjm hjroot hjle hjrv
  have hrvle : RANK.getD rv 0 ≤ i := by
    obtain ⟨k, hk⟩ := hrvreach
    have := iter_closed hinv.closed k v hv (by rw [hRv])
    rw [hk] at this
    exact this.2
  have hrvroot2 : isRoot (Find (P.length + 1) v P).2 rv := (hroots2 rv).mpr hrvroot
  have hrvreach2 : Reach (Find (P.length + 1) v P).2 v rv :=
    (hiff2 v rv hrvroot).mp hrvreach
  have hrvP2 : rv < (Find (P.length + 1) v P).2.length := by rw [hlen2]; exact hrvm
  have hjP2 : jrep < (Find (P.length + 1) v P).2.length := by rw [hlen2]; exact hjm
  have hvS : v < S.length := by rw [hinv.slen]; exact hv
  have hjF : jrep < F.length := by rw [hinv.flen]; exact hjm
  have hwv : F.getD jrep 0 ≠ v := fun he => hwne he.symm
  -- S facts shared by both branches
  have hS3len : (S.set v (S.getD v 0 + S.getD (F.getD jrep 0) 0)).length = m := by
    rw [List.length_set]; exact hinv.slen
  have hS3v : (S.set v (S.getD v 0 + S.getD (F.getD jrep 0) 0)).getD v 0 =
      S.getD v 0 + S.getD (F.getD jrep 0) 0 := getDg_set_self S v _ 0 hvS
  have hS3ne : ∀ x, x ≠ v →
      (S.set v (S.getD v 0 + S.getD (F.getD jrep 0) 0)).getD x 0 = S.getD x 0 :=
    fun x hx => getDg_set_ne S v x _ 0 (fun he => hx he.symm)
  have hchd_ne_v : ∀ c ∈ CHD, c ≠ v := by
    intro c hc he
    have := (hinv.chdmem c hc).2
    rw [he, hRv] at this
    exact lt_irrefl _ this
  have hw_ne_v : F.getD jrep 0 ≠ v := hwv
  -- the new size at v over the pushed child list
  have hsv3 : ∀ CHD2 : List ℕ,
      (∀ c ∈ CHD2, (S.set v (S.getD v 0 + S.getD (F.getD jrep 0) 0)).getD c 0 =
        S.getD c 0) →
      (CHD2 = CHD ++ [F.getD jrep 0] ∨ CHD2 = F.getD jrep 0 :: CHD) →
      (S.set v (S.getD v 0 + S.getD (F.getD jrep 0) 0)).getD v 0 =
        1 + (CHD2.map (fun c =>
          (S.set v (S.getD v 0 + S.getD (F.getD jrep 0) 0)).getD c 0)).sum := by
    intro CHD2 hCc hcases
    rw [hS3v, List.map_congr_left hCc]
    rcases hcases with he | he
    · rw [he, List.map_append, List.sum_append]
      simp only [List.map_cons, List.map_nil, List.sum_cons, List.sum_nil]
      rw [hinv.sv]
      omega
    · rw [he]
      simp only [List.map_cons, List.sum_cons]
      rw [hinv.sv]
      omega
  -- frozen nodes keep their data
  have hfrozen3 : ∀ x, x < m → RANK.getD x 0 < i →
      (S.set v (S.getD v 0 + S.getD (F.getD jrep 0) 0)).getD x 0 =
        1 + ((C.getD x []).map (fun c =>
          (S.set v (S.getD v 0 + S.getD (F.getD jrep 0) 0)).getD c 0)).sum ∧
      (∀ c ∈ C.getD x [], c < m ∧ RANK.getD c 0 < RANK.getD x 0) ∧
      (∀ c ∈ C.getD x [],
        (S.set v (S.getD v 0 + S.getD (F.getD jrep 0) 0)).getD c 0 ≤
        (S.set v (S.getD v 0 + S.getD (F.getD jrep 0) 0)).getD
          ((C.getD x []).headD 0) 0) := by
    intro x hx hlt
    obtain ⟨heq, hmem, hheavy⟩ := hinv.frozen x hx hlt
    have hxv : x ≠ v := by
      intro he
      rw [he, hRv] at hlt
      exact lt_irrefl _ hlt
    have hcv : ∀ c ∈ C.getD x [], c ≠ v := by
      intro c hc he
      have := (hmem c hc).2
      rw [he, hRv] at this
      omega
    have hmap : (C.getD x []).map (fun c =>
        (S.set v (S.getD v 0 + S.getD (F.getD jrep 0) 0)).getD c 0) =
        (C.getD x []).map (fun c => S.getD c 0) :=
      List.map_congr_left (fun c hc => hS3ne c (hcv c hc))
    refine ⟨by rw [hS3ne x hxv, hmap]; exact heq, hmem, ?_⟩
    intro c hc
    rw [hS3ne c (hcv c hc)]
    by_cases hnil : C.getD x [] = []
    · rw [hnil] at hc
      exact absurd hc (List.not_mem_nil c)
    · rw [hS3ne _ (hcv _ (headD_mem hnil))]
      exact hheavy c hc
  -- child list facts for the push
  have hchd3 : ∀ c ∈ CHD,
      (S.set v (S.getD v 0 + S.getD (F.getD jrep 0) 0)).getD c 0 = S.getD c 0 :=
    fun c hc => hS3ne c (hchd_ne_v c hc)
  have hw3 : (S.set v (S.getD v 0 + S.getD (F.getD jrep 0) 0)).getD
      (F.getD jrep 0) 0 = S.getD (F.getD jrep 0) 0 := hS3ne _ hw_ne_v
  have hmemA : ∀ c ∈ CHD ++ [F.getD jrep 0], c < m ∧ RANK.getD c 0 < i := by
    intro c hc
    rcases List.mem_append.mp hc with hc | hc
    · exact hinv.chdmem c hc
    · rw [List.mem_singleton.mp hc]
      exact ⟨hwm, hwrank⟩
  have hmemB : ∀ c ∈ F.getD jrep 0 :: CHD, c < m ∧ RANK.getD c 0 < i := by
    intro c hc
    rcases List.mem_cons.mp hc with hc | hc
    · rw [hc]; exact ⟨hwm, hwrank⟩
    · exact hinv.chdmem c hc
  -- heavy-child ordering of the pushed list, over the original sizes
  have hheavyA : (CHD = [] ∨ S.getD (F.getD jrep 0) 0 ≤ S.getD (CHD.headD 0) 0) →
      ∀ c ∈ CHD ++ [F.getD jrep 0],
        S.getD c 0 ≤ S.getD ((CHD ++ [F.getD jrep 0]).headD 0) 0 := by
    intro hcase c hc
    rcases List.mem_append.mp hc with hcC | hcw
    · have hnil : CHD ≠ [] := by
        rintro rfl
        exact absurd hcC (List.not_mem_nil c)
      have hhead : (CHD ++ [F.getD jrep 0]).headD 0 = CHD.headD 0 := by
        cases CHD with
        | nil => exact absurd rfl hnil
        | cons a t => rfl
      rw [hhead]
      exact hinv.chdheavy c hcC
    · rw [List.mem_singleton.mp hcw]
      by_cases hnil : CHD = []
      · rw [hnil]
        exact le_rfl
      · have hhead : (CHD ++ [F.getD jrep 0]).headD 0 = CHD.headD 0 := by
          cases CHD with
          | nil => exact absurd rfl hnil
          | cons a t => rfl
        rw [hhead]
        rcases hcase with hc2 | hc2
        · exact absurd hc2 hnil
        · exact hc2
  have hheavyB : S.getD (CHD.headD 0) 0 < S.getD (F.getD jrep 0) 0 →
      ∀ c ∈ F.getD jrep 0 :: CHD,
        S.getD c 0 ≤ S.getD ((F.getD jrep 0 :: CHD).headD 0) 0 := by
    intro hlt2 c hc
    rcases List.mem_cons.mp hc with hcw | hcC
    · rw [hcw]
      exact le_rfl
    · exact le_trans (hinv.chdheavy c hcC) (le_of_lt hlt2)
  -- facts about the compressed parent list
  obtain ⟨h2, hok2⟩ := hinv2.acyc
  rw [heval]
  by_cases hcmp : S.getD v 0 < S.getD (F.getD jrep 0) 0
  · -- the representative of the side of v is linked under jrep
    rw [if_pos hcmp]
    dsimp only
    have hP3root : ∀ y, isRoot ((Find (P.length + 1) v P).2.set rv jrep) y ↔
        (isRoot (Find (P.length + 1) v P).2 y ∧ y ≠ rv) := by
      intro y
      by_cases hyrv : y = rv
      · subst hyrv
        unfold isRoot
        rw [getDg_set_self _ _ _ _ hrvP2]
        constructor
        · intro he; exact absurd he hjrv
        · rintro ⟨_, he⟩; exact absurd rfl he
      · unfold isRoot
        rw [getDg_set_ne _ _ _ _ _ (fun he => hyrv he.symm)]
        exact ⟨fun hr => ⟨hr, hyrv⟩, fun hr => hr.1⟩
    refine ⟨uf_union hok2 hrvroot2 hjroot2 (fun he => hjrv he.symm) hrvP2 hjP2,
      by rw [List.length_set]; exact hlen2,
      by rw [List.length_set]; exact hinv.flen,
      hS3len, hinv.clen, ?_, ?_, ?_, hfrozen3, ?_, ?_, ?_⟩
    · -- untouched nodes
      intro x hx hrk
      obtain ⟨hPu, hFu, hSu, hCu⟩ := hinv2.unt x hx hrk
      have hxrv : x ≠ rv := by
        intro he
        rw [he] at hrk
        omega
      have hxj : x ≠ jrep := by
        intro he
        rw [he] at hrk
        omega
      have hxv : x ≠ v := by
        intro he
        rw [he, hRv] at hrk
        omega
      exact ⟨by rw [getDg_set_ne _ _ _ _ _ (fun he => hxrv he.symm)]; exact hPu,
        by rw [getDg_set_ne _ _ _ _ _ (fun he => hxj he.symm)]; exact hFu,
        by rw [hS3ne x hxv]; exact hSu, hCu⟩
    · -- closed chains
      intro x hx hrk
      by_cases hxrv : x = rv
      · subst hxrv
        rw [getDg_set_self _ _ _ _ hrvP2]
        exact ⟨hjm, hjle⟩
      · rw [getDg_set_ne _ _ _ _ _ (fun he => hxrv he.symm)]
        exact hinv2.closed x hx hrk
    · -- the new component root
      refine ⟨jrep, hjm, ?_, ?_, ?_, ?_⟩
      · exact (hP3root jrep).mpr ⟨hjroot2, hjrv⟩
      · obtain ⟨k, hk⟩ := hrvreach2
        have h1 : Reach ((Find (P.length + 1) v P).2.set rv jrep) v rv :=
          reach_set_root hrvroot2 k v hk
        refine reach_trans h1 ?_
        have h2 := reach_step ((Find (P.length + 1) v P).2.set rv jrep) rv
        rwa [getDg_set_self _ _ _ _ hrvP2] at h2
      · exact getDg_set_self F jrep v 0 hjF
      · intro r hrm hroot hrle hrne
        obtain ⟨hroot2, hrrv⟩ := (hP3root r).mp hroot
        have hfr := hRootsP r hrm ((hroots2 r).mp hroot2) hrle hrrv
        rw [getDg_set_ne _ _ _ _ _ (fun he => hrne he.symm)]
        exact hfr
    · -- size at v
      by_cases hpush : CHD = [] ∨
          (S.set v (S.getD v 0 + S.getD (F.getD jrep 0) 0)).getD (F.getD jrep 0) 0 ≤
          (S.set v (S.getD v 0 + S.getD (F.getD jrep 0) 0)).getD (CHD.headD 0) 0
      · rw [if_pos hpush]
        exact hsv3 _ (fun c hc => hS3ne c (fun he => by
          rcases hmemA c hc with ⟨_, hlt⟩
          rw [he, hRv] at hlt
          omega)) (Or.inl rfl)
      · rw [if_neg hpush]
        exact hsv3 _ (fun c hc => hS3ne c (fun he => by
          rcases hmemB c hc with ⟨_, hlt⟩
          rw [he, hRv] at hlt
          omega)) (Or.inr rfl)
    · -- members of the child list
      by_cases hpush : CHD = [] ∨
          (S.set v (S.getD v 0 + S.getD (F.getD jrep 0) 0)).getD (F.getD jrep 0) 0 ≤
          (S.set v (S.getD v 0 + S.getD (F.getD jrep 0) 0)).getD (CHD.headD 0) 0
      · rw [if_pos hpush]; exact hmemA
      · rw [if_neg hpush]; exact hmemB
    · -- heavy child in front
      by_cases hpush : CHD = [] ∨
          (S.set v (S.getD v 0 + S.getD (F.getD jrep 0) 0)).getD (F.getD jrep 0) 0 ≤
          (S.set v (S.getD v 0 + S.getD (F.getD jrep 0) 0)).getD (CHD.headD 0) 0
      · rw [if_pos hpush]
        intro c hc
        have hcnv : c ≠ v := fun he => by
          rcases hmemA c hc with ⟨_, hlt⟩
          rw [he, hRv] at hlt
          omega
        have hhnv : (CHD ++ [F.getD jrep 0]).headD 0 ≠ v := fun he => by
          rcases hmemA _ (headD_mem (by simp)) with ⟨_, hlt⟩
          rw [he, hRv] at hlt
          omega
        rw [hS3ne c hcnv, hS3ne _ hhnv]
        refine hheavyA ?_ c hc
        rcases hpush with hnil | hle
        · exact Or.inl hnil
        · by_cases hnil : CHD = []
          · exact Or.inl hnil
          · right
            rw [hw3, hS3ne _ (hchd_ne_v _ (headD_mem hnil))] at hle
            exact hle
      · rw [if_neg hpush]
        push_neg at hpush
        obtain ⟨hnil, hgt⟩ := hpush
        rw [hw3, hS3ne _ (hchd_ne_v _ (headD_mem hnil))] at hgt
        intro c hc
        have hcnv : c ≠ v := fun he => by
          rcases hmemB c hc with ⟨_, hlt⟩
          rw [he, hRv] at hlt
          omega
        have hhnv : (F.getD jrep 0 :: CHD).headD 0 ≠ v := hw_ne_v
        rw [hS3ne c hcnv, hS3ne _ hhnv]
        exact hheavyB (by omega) c hc
  · -- jrep is linked under the representative of the side of v
    rw [if_neg hcmp]
    dsimp only
    have hP3root : ∀ y, isRoot ((Find (P.length + 1) v P).2.set jrep rv) y ↔
        (isRoot (Find (P.length + 1) v P).2 y ∧ y ≠ jrep) := by
      intro y
      by_cases hyj : y = jrep
      · subst hyj
        unfold isRoot
        rw [getDg_set_self _ _ _ _ hjP2]
        constructor
        · intro he; exact (hjrv he.symm).elim
        · rintro ⟨_, he⟩; exact absurd rfl he
      · unfold isRoot
        rw [getDg_set_ne _ _ _ _ _ (fun he => hyj he.symm)]
        exact ⟨fun hr => ⟨hr, hyj⟩, fun hr => hr.1⟩
    refine ⟨uf_union hok2 hjroot2 hrvroot2 hjrv hjP2 hrvP2,
      by rw [List.length_set]; exact hlen2,
      hinv.flen, hS3len, hinv.clen, ?_, ?_, ?_, hfrozen3, ?_, ?_, ?_⟩
    · intro x hx hrk
      obtain ⟨hPu, hFu, hSu, hCu⟩ := hinv2.unt x hx hrk
      have hxj : x ≠ jrep := by
        intro he
        rw [he] at hrk
        omega
      have hxv : x ≠ v := by
        intro he
        rw [he, hRv] at hrk
        omega
      exact ⟨by rw [getDg_set_ne _ _ _ _ _ (fun he => hxj he.symm)]; exact hPu,
        hFu, by rw [hS3ne x hxv]; exact hSu, hCu⟩
    · intro x hx hrk
      by_cases hxj : x = jrep
      · subst hxj
        rw [getDg_set_self _ _ _ _ hjP2]
        exact ⟨hrvm, hrvle⟩
      · rw [getDg_set_ne _ _ _ _ _ (fun he => hxj he.symm)]
        exact hinv2.closed x hx hrk
    · refine ⟨rv, hrvm, ?_, ?_, hFrv, ?_⟩
      · exact (hP3root rv).mpr ⟨hrvroot2, fun he => hjrv he.symm⟩
      · obtain ⟨k, hk⟩ := hrvreach2
        exact reach_set_other hjroot2 (fun he => hjrv he.symm) k v hk
      · intro r hrm hroot hrle hrne
        obtain ⟨hroot2, hrj⟩ := (hP3root r).mp hroot
        exact hRootsP r hrm ((hroots2 r).mp hroot2) hrle hrne
    · by_cases hpush : CHD = [] ∨
          (S.set v (S.getD v 0 + S.getD (F.getD jrep 0) 0)).getD (F.getD jrep 0) 0 ≤
          (S.set v (S.getD v 0 + S.getD (F.getD jrep 0) 0)).getD (CHD.headD 0) 0
      · rw [if_pos hpush]
        exact hsv3 _ (fun c hc => hS3ne c (fun he => by
          rcases hmemA c hc with ⟨_, hlt⟩
          rw [he, hRv] at hlt
          omega)) (Or.inl rfl)
      · rw [if_neg hpush]
        exact hsv3 _ (fun c hc => hS3ne c (fun he => by
          rcases hmemB c hc with ⟨_, hlt⟩
          rw [he, hRv] at hlt
          omega)) (Or.inr rfl)
    · by_cases hpush : CHD = [] ∨
          (S.set v (S.getD v 0 + S.getD (F.getD jrep 0) 0)).getD (F.getD jrep 0) 0 ≤
          (S.set v (S.getD v 0 + S.getD (F.getD jrep 0) 0)).getD (CHD.headD 0) 0
      · rw [if_pos hpush]; exact hmemA
      · rw [if_neg hpush]; exact hmemB
    · by_cases hpush : CHD = [] ∨
          (S.set v (S.getD v 0 + S.getD (F.getD jrep 0) 0)).getD (F.getD jrep 0) 0 ≤
          (S.set v (S.getD v 0 + S.getD (F.getD jrep 0) 0)).getD (CHD.headD 0) 0
      · rw [if_pos hpush]
        intro c hc
        have hcnv : c ≠ v := fun he => by
          rcases hmemA c hc with ⟨_, hlt⟩
          rw [he, hRv] at hlt
          omega
        have hhnv : (CHD ++ [F.getD jrep 0]).headD 0 ≠ v := fun he => by
          rcases hmemA _ (headD_mem (by simp)) with ⟨_, hlt⟩
          rw [he, hRv] at hlt
          omega
        rw [hS3ne c hcnv, hS3ne _ hhnv]
        refine hheavyA ?_ c hc
        rcases hpush with hnil | hle
        · exact Or.inl hnil
        · by_cases hnil : CHD = []
          · exact Or.inl hnil
          · right
            rw [hw3, hS3ne _ (hchd_ne_v _ (headD_mem hnil))] at hle
            exact hle
      · rw [if_neg hpush]
        push_neg at hpush
        obtain ⟨hnil, hgt⟩ := hpush
        rw [hw3, hS3ne _ (hchd_ne_v _ (headD_mem hnil))] at hgt
        intro c hc
        have hcnv : c ≠ v := fun he => by
          rcases hmemB c hc with ⟨_, hlt⟩
          rw [he, hRv] at hlt
          omega
        have hhnv : (F.getD jrep 0 :: CHD).headD 0 ≠ v := hw_ne_v
        rw [hS3ne c hcnv, hS3ne _ hhnv]
        exact hheavyB (by omega) c hc

/-- The whole neighbour loop preserves the invariant. -/
lemma fcInner_inv {m i v : ℕ} {RANK : List ℕ} {C : List (List ℕ)}
    (hv : v < m) (hRv : RANK.getD v 0 = i) :
    ∀ (us : List ℕ), (∀ u ∈ us, u < m ∧ u ≠ v) →
      ∀ (P F S CHD : List ℕ), FcIn m i v RANK P F S C CHD →
        FcIn m i v RANK
          (fcInner v RANK i us (P, F, S, CHD)).1
          (fcInner v RANK i us (P, F, S, CHD)).2.1
          (fcInner v RANK i us (P, F, S, CHD)).2.2.1
          C
          (fcInner v RANK i us (P, F, S, CHD)).2.2.2 := by
  intro us
  induction us with
  | nil => intro _ P F S CHD hinv; exact hinv
  | cons u rest ih =>
    intro hus P F S CHD hinv
    obtain ⟨hum, hunv⟩ := hus u (List.mem_cons_self u rest)
    have hrest : ∀ u2 ∈ rest, u2 < m ∧ u2 ≠ v :=
      fun u2 h2 => hus u2 (List.mem_cons_of_mem u h2)
    simp only [fcInner]
    by_cases hrk : RANK.getD u 0 < i + 1
    · rw [if_pos hrk]
      obtain ⟨hinv1, huroot, hureach, hroots1, hiff1, hlen1⟩ := FcIn_find hinv hum
      by_cases hw : v ≠ F.getD (Find (P.length + 1) u P).1 0
      · rw [if_pos hw]
        have hjfacts : (Find (P.length + 1) u P).1 < m ∧
            RANK.getD ((Find (P.length + 1) u P).1) 0 ≤ i := by
          obtain ⟨k, hk⟩ := hureach
          have := iter_closed hinv.closed k u hum (by omega)
          rw [hk] at this
          exact this
        have hjroot1 : isRoot (Find (P.length + 1) u P).2
            (Find (P.length + 1) u P).1 := (hroots1 _).mpr huroot
        have hu := FcIn_union hinv1 hv hRv hjroot1 hjfacts.1 hjfacts.2 hw
        exact ih hrest _ _ _ _ hu
      · rw [if_neg hw]
        exact ih hrest _ _ _ _ hinv1
    · rw [if_neg hrk]
      exact ih hrest _ _ _ _ hinv

lemma getD_replicate_lt {α : Type} (m x : ℕ) (a d : α) (h : x < m) :
    (List.replicate m a).getD x d = a := by
  rw [List.getD_eq_getElem _ _ (by simpa using h)]
  simp

lemma getD_range_lt (m x d : ℕ) (h : x < m) : (List.range m).getD x d = x := by
  rw [List.getD_eq_getElem _ _ (by simpa using h)]
  simp

/-- One outer step of `findClusters` advances the invariant from `i` to
`i + 1`: the current node `v = ORD[i]` collects its merged child list. -/
lemma fcStep {m i : ℕ} {ADJ : List (List ℕ)} {ORD RANK : List ℕ}
    {P F S : List ℕ} {C : List (List ℕ)}
    (hADJ : ∀ w, w < m → ∀ u ∈ ADJ.getD w [], u < m ∧ u ≠ w)
    (hORDlt : ∀ k, k < m → ORD.getD k 0 < m)
    (hOR : ∀ k, k < m → RANK.getD (ORD.getD k 0) 0 = k)
    (hRO : ∀ x, x < m → ORD.getD (RANK.getD x 0) 0 = x)
    (hi : i < m)
    (hout : FcOut m i RANK P F S C) :
    FcOut m (i + 1) RANK
      (fcInner (ORD.getD i 0) RANK i (ADJ.getD (ORD.getD i 0) []) (P, F, S, [])).1
      (fcInner (ORD.getD i 0) RANK i (ADJ.getD (ORD.getD i 0) []) (P, F, S, [])).2.1
      (fcInner (ORD.getD i 0) RANK i (ADJ.getD (ORD.getD i 0) []) (P, F, S, [])).2.2.1
      (C.set (ORD.getD i 0)
        (fcInner (ORD.getD i 0) RANK i (ADJ.getD (ORD.getD i 0) [])
          (P, F, S, [])).2.2.2) := by
  have hv : ORD.getD i 0 < m := hORDlt i hi
  have hRv : RANK.getD (ORD.getD i 0) 0 = i := hOR i hi
  have hrank_eq : ∀ x, x < m → RANK.getD x 0 = i → x = ORD.getD i 0 := by
    intro x hx he
    have h2 := hRO x hx
    rw [he] at h2
    exact h2.symm
  have huntv := hout.unt (ORD.getD i 0) hv (by omega)
  have hinit : FcIn m i (ORD.getD i 0) RANK P F S C [] := by
    refine ⟨hout.acyc, hout.plen, hout.flen, hout.slen, hout.clen, ?_, ?_, ?_,
      hout.frozen, ?_, ?_, ?_⟩
    · intro x hx hrk
      exact hout.unt x hx (by omega)
    · intro x hx hrk
      by_cases hlt : RANK.getD x 0 < i
      · have := hout.closed x hx hlt
        exact ⟨this.1, by omega⟩
      · have hx_eq : x = ORD.getD i 0 := hrank_eq x hx (by omega)
        rw [hx_eq, huntv.1]
        exact ⟨hv, by rw [hRv]⟩
    · refine ⟨ORD.getD i 0, hv, huntv.1, reach_refl P _, huntv.2.1, ?_⟩
      intro r hrm hroot hrle hrne
      have hlt : RANK.getD r 0 < i := by
        rcases Nat.lt_or_ge (RANK.getD r 0) i with h2 | h2
        · exact h2
        · exact absurd (hrank_eq r hrm (by omega)) hrne
      have := hout.rootsF r hrm hroot hlt
      exact ⟨this.1, this.2⟩
    · rw [huntv.2.2.1]
      rfl
    · intro w hw
      exact absurd hw (List.not_mem_nil w)
    · intro w hw
      exact absurd hw (List.not_mem_nil w)
  have hinner := fcInner_inv hv hRv (ADJ.getD (ORD.getD i 0) [])
    (hADJ (ORD.getD i 0) hv) P F S [] hinit
  refine ⟨hinner.acyc, hinner.plen, hinner.flen, hinner.slen,
    by rw [List.length_set]; exact hinner.clen, ?_, ?_, ?_, ?_⟩
  · -- untouched above i + 1
    intro x hx hrk
    have hxv : x ≠ ORD.getD i 0 := by
      intro he
      rw [he, hRv] at hrk
      omega
    obtain ⟨hPu, hFu, hSu, hCu⟩ := hinner.unt x hx (by omega)
    exact ⟨hPu, hFu, hSu,
      by rw [getDg_set_ne _ _ _ _ _ (fun he => hxv he.symm)]; exact hCu⟩
  · -- closed below i + 1
    intro x hx hrk
    have := hinner.closed x hx (by omega)
    exact ⟨this.1, by omega⟩
  · -- processed roots carry processed forest roots
    intro r hrm hroot hrk
    obtain ⟨rv, hrvm, hrvroot, hrvreach, hFrv, hRootsP⟩ := hinner.root_forest
    by_cases hre : r = rv
    · rw [hre, hFrv]
      exact ⟨hv, by rw [hRv]; omega⟩
    · have := hRootsP r hrm hroot (by omega) hre
      exact ⟨this.1, by omega⟩
  · -- the size recurrence and heavy-child ordering, now including v
    intro x hx hrk
    by_cases hlt : RANK.getD x 0 < i
    · have hxv : x ≠ ORD.getD i 0 := by
        intro he
        rw [he, hRv] at hlt
        omega
      obtain ⟨heq, hmem, hheavy⟩ := hinner.frozen x hx hlt
      rw [getDg_set_ne _ _ _ _ _ (fun he => hxv he.symm)]
      exact ⟨heq, hmem, hheavy⟩
    · have hx_eq : x = ORD.getD i 0 := hrank_eq x hx (by omega)
      subst hx_eq
      rw [getDg_set_self _ _ _ _ (by rw [hinner.clen]; exact hv)]
      refine ⟨hinner.sv, ?_, hinner.chdheavy⟩
      intro c hc
      have := hinner.chdmem c hc
      rw [hRv]
      exact ⟨this.1, this.2⟩

/-- Folding the outer loop over `range' i n` takes the invariant from
`i` to `i + n`. -/
lemma fcOuter_inv {m : ℕ} {ADJ : List (List ℕ)} {ORD RANK : List ℕ}
    (hADJ : ∀ w, w < m → ∀ u ∈ ADJ.getD w [], u < m ∧ u ≠ w)
    (hORDlt : ∀ k, k < m → ORD.getD k 0 < m)
    (hOR : ∀ k, k < m → RANK.getD (ORD.getD k 0) 0 = k)
    (hRO : ∀ x, x < m → ORD.getD (RANK.getD x 0) 0 = x) :
    ∀ (n i : ℕ) (P F S : List ℕ) (C : List (List ℕ)),
      i + n ≤ m → FcOut m i RANK P F S C →
      FcOut m (i + n) RANK
        (fcOuter ADJ ORD RANK (List.range' i n) (P, F, S, C)).1
        (fcOuter ADJ ORD RANK (List.range' i n) (P, F, S, C)).2.1
        (fcOuter ADJ ORD RANK (List.range' i n) (P, F, S, C)).2.2.1
        (fcOuter ADJ ORD RANK (List.range' i n) (P, F, S, C)).2.2.2 := by
  intro n
  induction n with
  | zero => intro i P F S C h hout; exact hout
  | succ n ih =>
    intro i P F S C h hout
    rw [List.range'_succ]
    simp only [fcOuter]
    have hstep := fcStep hADJ hORDlt hOR hRO (by omega) hout
    have hrec := ih (i + 1) _ _ _ _ (by omega) hstep
    rw [show i + (n + 1) = (i + 1) + n by omega]
    exact hrec

/-- The invariant holds for the freshly initialized structures. -/
lemma fcInit (m : ℕ) (RANK : List ℕ) :
    FcOut m 0 RANK (List.range m) (List.range m) (List.replicate m 1)
      (List.replicate m []) := by
  refine ⟨⟨fun _ => 0, ?_⟩, List.length_range m, List.length_range m,
    List.length_replicate m 1, List.length_replicate m [], ?_, ?_, ?_, ?_⟩
  · intro x hx
    left
    rw [List.length_range] at hx
    exact getD_range_lt m x x hx
  · intro x hx _
    exact ⟨getD_range_lt m x x hx, getD_range_lt m x 0 hx,
      getD_replicate_lt m x 1 0 hx, getD_replicate_lt m x [] [] hx⟩
  · intro x _ hrk
    omega
  · intro r _ _ hrk
    omega
  · intro x _ hrk
    omega

/-- Claim C8: for every valid input (`adj` symmetric and self-exclusive,
`ord` and `rank` mutually inverse maps of `[0, m)`), the forest
produced by `findClusters` satisfies `size[v] = 1 + Σ size[c]` over the
children of `v` and keeps a heavy child in front:
`size[child[v][0]] ≥ size[child[v][j]]` for every child position `j`. -/
theorem findClusters_size_recurrence_heavy_first (m : ℕ) (ADJ : List (List ℕ))
    (ORD RANK : List ℕ)
    (hADJ : ∀ w, w < m → ∀ u ∈ ADJ.getD w [], u < m ∧ u ≠ w)
    (hsym : ∀ w, w < m → ∀ u ∈ ADJ.getD w [], w ∈ ADJ.getD u [])
    (hORDlt : ∀ k, k < m → ORD.getD k 0 < m)
    (hRANKlt : ∀ x, x < m → RANK.getD x 0 < m)
    (hOR : ∀ k, k < m → RANK.getD (ORD.getD k 0) 0 = k)
    (hRO : ∀ x, x < m → ORD.getD (RANK.getD x 0) 0 = x) :
    sizeRec m (findClusters m ADJ ORD RANK).1 (findClusters m ADJ ORD RANK).2.2 ∧
    ∀ v, v < m → ∀ c ∈ (findClusters m ADJ ORD RANK).2.2.getD v [],
      (findClusters m ADJ ORD RANK).1.getD c 0 ≤
      (findClusters m ADJ ORD RANK).1.getD
        (((findClusters m ADJ ORD RANK).2.2.getD v []).headD 0) 0 := by
  have hfin := fcOuter_inv hADJ hORDlt hOR hRO m 0 (List.range m) (List.range m)
    (List.replicate m 1) (List.replicate m []) (by omega) (fcInit m RANK)
  rw [Nat.zero_add, ← List.range_eq_range'] at hfin
  constructor
  · intro v hv
    exact (hfin.frozen v hv (hRANKlt v hv)).1
  · intro v hv c hc
    exact (hfin.frozen v hv (hRANKlt v hv)).2.2 c hc

/-- Witness for claim C8 on the two-voxel line `ADJ = [[1],[0]]`,
`ORD = RANK = [0,1]`: the forest is a single edge with `SIZE = [1,2]`
and `CHILD = [[],[0]]`. -/
theorem findClusters_size_recurrence_heavy_first_witness :
    sizeRec 2 (findClusters 2 [[1], [0]] [0, 1] [0, 1]).1
      (findClusters 2 [[1], [0]] [0, 1] [0, 1]).2.2 ∧
    ∀ v, v < 2 → ∀ c ∈ (findClusters 2 [[1], [0]] [0, 1] [0, 1]).2.2.getD v [],
      (findClusters 2 [[1], [0]] [0, 1] [0, 1]).1.getD c 0 ≤
      (findClusters 2 [[1], [0]] [0, 1] [0, 1]).1.getD
        (((findClusters 2 [[1], [0]] [0, 1] [0, 1]).2.2.getD v []).headD 0) 0 :=
  findClusters_size_recurrence_heavy_first 2 [[1], [0]] [0, 1] [0, 1]
    (by decide) (by decide) (by decide) (by decide) (by decide) (by decide)

end ARI
